import Mathlib

/-!
The engine of power4-web: the game engine of `game/game.go`

A shallow embedding of the Connect-Four engine (`Game`, `PlayMove`, `checkWin`,
`ValidMoves`, `AIPickMove`, `minimax`, `evaluateBoard`) and theorems about it.

Conventions of the embedding

* A Go `[][]int` is a `List (List Int)`; Go `int` values are `Int` (no arithmetic
  of the engine comes near the 64-bit range: indices are bounded by the board and
  scores by `1000000` or by the window sum of `evaluateBoard`).
* A Go run-time fault (index out of range) is the result `none`; every function
  that indexes a slice returns an `Option`.
* Loops that run downwards over the rows recurse on `row + 1`; the unbounded
  `for` of `countDirection` and the recursion of `minimax` take an iteration
  budget, and running out of budget is `none` as well.
* A function that writes into a slice it was given returns the slice after the
  writes.
* The section "The bot in memory" embeds the bot a second time, with the row
  buffers of the boards held in an explicit memory: a copy allocates new buffers
  and `dropPiece` writes into the buffers of the board it was given. The theorems
  on that section relate it to the first embedding.
* `rand.Intn(n)` is `seed % n` for an arbitrary natural number `seed`.
-/

namespace Power4

/-- The type of `Game.Board`, a Go `[][]int`. -/
abbrev Grid := List (List Int)

/-- The struct `Game`. -/
structure Game where
  Board : Grid
  CurrentPlayer : Int
  Winner : Int
  PlayerNames : String × String
  PlayerBalls : String × String
  Mode : String
  AIDifficulty : String
deriving DecidableEq

/-! ## Slice access -/

/-- The row `b[r]`; `none` when `r` is out of range. -/
def rowAt (b : Grid) (r : Int) : Option (List Int) :=
  if r < 0 then none else b[r.toNat]?

/-- The cell `b[r][c]`; `none` when an index is out of range. -/
def cell (b : Grid) (r c : Int) : Option Int :=
  match rowAt b r with
  | none => none
  | some row => if c < 0 then none else row[c.toNat]?

/-- The assignment `b[r][c] = v`; `none` when an index is out of range. -/
def setCell (b : Grid) (r c v : Int) : Option Grid :=
  match cell b r c with
  | none => none
  | some _ => some (b.set r.toNat ((b.getD r.toNat []).set c.toNat v))

/-- The length `len(b[0])`; `none` when `b` has no row. -/
def width (b : Grid) : Option Nat :=
  match b with
  | [] => none
  | row0 :: _ => some row0.length

/-- The test `!(r < 0 || r >= len(b) || c < 0 || c >= len(b[0]))` of the counting
loops and of `evaluateBoard`. Go evaluates `len(b[0])` only after `0 <= r < len(b)`
held, so `b[0]` exists whenever it is read and the test itself never faults. -/
def inBoard (b : Grid) (r c : Int) : Prop :=
  0 ≤ r ∧ r < (b.length : Int) ∧ 0 ≤ c ∧ c < ((b.headD []).length : Int)

instance (b : Grid) (r c : Int) : Decidable (inBoard b r c) := by
  unfold inBoard; infer_instance

/-! ## Construction -/

/-- The function `NewGameWithNames`. -/
def NewGameWithNames (name1 name2 : String) : Game :=
  { Board := List.replicate 6 (List.replicate 7 0)
    CurrentPlayer := 1
    Winner := 0
    PlayerNames := (if name1 = "" then "Joueur 1" else name1,
                    if name2 = "" then "Joueur 2" else name2)
    PlayerBalls := ("", "")
    Mode := ""
    AIDifficulty := "" }

/-- The function `NewGame`. -/
def NewGame : Game := NewGameWithNames "Joueur 1" "Joueur 2"

/-! ## Win detection -/

/-- The four axes of `checkWin`, `checkWinBoard` and `evaluateBoard`. -/
def directions : List (Int × Int) := [(0, 1), (1, 0), (1, 1), (1, -1)]

/-- The loop of `countDirection` and of `countDirectionBoard` (the two bodies are
the same, one over `g.Board` and one over `board`): step, stop outside the board
or at a cell that is not `player`, else count. `fuel` bounds the iterations. -/
def countLoop (board : Grid) (dr dc player : Int) : Nat → Int → Int → Nat → Option Nat
  | 0, _, _, _ => none
  | fuel + 1, r, c, count =>
    if ¬ inBoard board (r + dr) (c + dc) then some count
    else
      match cell board (r + dr) (c + dc) with
      | none => none
      | some v =>
        if v ≠ player then some count
        else countLoop board dr dc player fuel (r + dr) (c + dc) (count + 1)

/-- The iteration budget of a counting loop: a cursor that moves one step per
iteration along a non-zero direction leaves the board within this many steps. -/
def countBudget (board : Grid) : Nat :=
  board.length + (board.headD []).length + 1

/-- The function `countDirectionBoard`. -/
def countDirectionBoard (board : Grid) (r c dr dc player : Int) : Option Nat :=
  countLoop board dr dc player (countBudget board) r c 0

/-- The method `countDirection`. -/
def countDirection (g : Game) (r c dr dc player : Int) : Option Nat :=
  countLoop g.Board dr dc player (countBudget g.Board) r c 0

/-- The loop over `directions` of `checkWinBoard`: the first axis whose count
reaches 4 returns `true`. -/
def checkWinBoardScan (board : Grid) (r c player : Int) : List (Int × Int) → Option Bool
  | [] => some false
  | d :: ds =>
    match countDirectionBoard board r c d.1 d.2 player with
    | none => none
    | some n1 =>
      match countDirectionBoard board r c (-d.1) (-d.2) player with
      | none => none
      | some n2 => if 1 + n1 + n2 ≥ 4 then some true else checkWinBoardScan board r c player ds

/-- The function `checkWinBoard`. -/
def checkWinBoard (board : Grid) (r c player : Int) : Option Bool :=
  if r < 0 ∨ c < 0 then some false
  else checkWinBoardScan board r c player directions

/-- The loop over `directions` of the method `checkWin`. -/
def checkWinScan (g : Game) (r c player : Int) : List (Int × Int) → Option Bool
  | [] => some false
  | d :: ds =>
    match countDirection g r c d.1 d.2 player with
    | none => none
    | some n1 =>
      match countDirection g r c (-d.1) (-d.2) player with
      | none => none
      | some n2 => if 1 + n1 + n2 ≥ 4 then some true else checkWinScan g r c player ds

/-- The method `checkWin`. -/
def checkWin (g : Game) (r c : Int) : Option Bool :=
  match cell g.Board r c with
  | none => none
  | some player => checkWinScan g r c player directions

/-! ## Playing a move -/

/-- The method `switchPlayer`. -/
def switchPlayer (g : Game) : Game :=
  if g.CurrentPlayer = 1 then { g with CurrentPlayer := 2 } else { g with CurrentPlayer := 1 }

/-- The body of `if g.Board[row][col] == 0 { ... }` in `PlayMove`: write the piece,
run the win check from the landing cell, record the winner, switch the player. -/
def PlayMoveLand (g : Game) (row col : Int) : Option Game :=
  match setCell g.Board row col g.CurrentPlayer with
  | none => none
  | some b =>
    let g1 : Game := { g with Board := b }
    match checkWin g1 row col with
    | none => none
    | some won =>
      let g2 : Game := if won then { g1 with Winner := g1.CurrentPlayer } else g1
      some (switchPlayer g2)

/-- The loop `for row := len(g.Board) - 1; row >= 0; row--` of `PlayMove`; the
argument is `row + 1`. -/
def PlayMoveLoop (g : Game) (col : Int) : Nat → Option (Bool × Game)
  | 0 => some (false, g)
  | row + 1 =>
    match cell g.Board row col with
    | none => none
    | some v =>
      if v = 0 then (PlayMoveLand g row col).map (fun g1 => (true, g1))
      else PlayMoveLoop g col row

/-- The method `PlayMove`: the returned flag and the game after the call. -/
def PlayMove (g : Game) (col : Int) : Option (Bool × Game) :=
  if col < 0 then some (false, g)
  else
    match width g.Board with
    | none => none
    | some w =>
      if col ≥ w ∨ g.Winner ≠ 0 then some (false, g)
      else PlayMoveLoop g col g.Board.length

/-- A run of `PlayMove` calls, every one of which must return: the game after the
last call. -/
def playAll (g : Game) : List Int → Option Game
  | [] => some g
  | col :: cols =>
    match PlayMove g col with
    | none => none
    | some (_, g1) => playAll g1 cols

/-! ## Helpers of the bot -/

/-- The loop `for c := 0; c < cols; c++ { if row0[c] == 0 { moves = append(moves, c) } }`
of `ValidMoves`, repeated at the head of `minimax`: the indices of the zero cells
of the top row, from left to right. -/
def emptyTops (row0 : List Int) : List Int :=
  List.map Int.ofNat ((List.range row0.length).filter (fun c => row0[c]? = some 0))

/-- The method `ValidMoves`; it faults on a board without rows (`g.Board[0]`). -/
def ValidMoves (g : Game) : Option (List Int) :=
  match g.Board with
  | [] => none
  | row0 :: _ => some (emptyTops row0)

/-- One row of a copy: `nb[i] = make([]int, w); copy(nb[i], row)`, which keeps the
first `w` cells of `row` and pads with zeros when `row` is shorter. -/
def copyRow (w : Nat) (row : List Int) : List Int :=
  row.take w ++ List.replicate (w - row.length) 0

/-- The copy of a board made row by row with width `len(board[0])`, as in
`cloneBoard` and in the copy loops of `minimax`. -/
def copyGrid (board : Grid) : Option Grid :=
  match width board with
  | none => none
  | some w => some (board.map (copyRow w))

/-- The method `cloneBoard`. -/
def cloneBoard (g : Game) : Option Grid := copyGrid g.Board

/-- The loop `for r := len(board) - 1; r >= 0; r--` of `dropPiece`; the argument
is `r + 1`. The result is the board after the call, the row and the flag. -/
def dropPieceLoop (board : Grid) (col player : Int) : Nat → Option (Grid × Int × Bool)
  | 0 => some (board, -1, false)
  | r + 1 =>
    match cell board r col with
    | none => none
    | some v =>
      if v = 0 then (setCell board r col player).map (fun b => (b, (r : Int), true))
      else dropPieceLoop board col player r

/-- The function `dropPiece`. -/
def dropPiece (board : Grid) (col player : Int) : Option (Grid × Int × Bool) :=
  dropPieceLoop board col player board.length

/-- The innermost loop `for k := 0; k < 4; k++` of `evaluateBoard`: the counters
`(cnt1, cnt2, empty)` of one window, with `cnt1 = -1` when the window leaves the
board. The first argument is the number of cells still to read. -/
def windowLoop (board : Grid) (d : Int × Int) : Nat → Int → Int → Int → Int → Int →
    Option (Int × Int × Int)
  | 0, _, _, cnt1, cnt2, empty => some (cnt1, cnt2, empty)
  | k + 1, rr, cc, cnt1, cnt2, empty =>
    if ¬ inBoard board rr cc then some (-1, cnt2, empty)
    else
      match cell board rr cc with
      | none => none
      | some v =>
        if v = 1 then windowLoop board d k (rr + d.1) (cc + d.2) (cnt1 + 1) cnt2 empty
        else if v = 2 then windowLoop board d k (rr + d.1) (cc + d.2) cnt1 (cnt2 + 1) empty
        else windowLoop board d k (rr + d.1) (cc + d.2) cnt1 cnt2 (empty + 1)

/-- The two `if` chains that close the body of the direction loop of
`evaluateBoard`: the score after a window with the given counters. -/
def addWindow (score cnt1 cnt2 empty : Int) : Int :=
  let s1 :=
    if cnt2 = 4 then score + 100000
    else if cnt2 = 3 ∧ empty = 1 then score + 1000
    else if cnt2 = 2 ∧ empty = 2 then score + 50
    else score
  if cnt1 = 4 then s1 - 100000
  else if cnt1 = 3 ∧ empty = 1 then s1 - 1000
  else if cnt1 = 2 ∧ empty = 2 then s1 - 50
  else s1

/-- The body of `for _, d := range directions` in `evaluateBoard`. -/
def evalWindow (board : Grid) (r c : Int) (score : Int) (d : Int × Int) : Option Int :=
  match windowLoop board d 4 r c 0 0 0 with
  | none => none
  | some (cnt1, cnt2, empty) =>
    if cnt1 = -1 then some score else some (addWindow score cnt1 cnt2 empty)

/-- The function `evaluateBoard`; it faults on a board without rows. -/
def evaluateBoard (board : Grid) : Option Int :=
  match width board with
  | none => none
  | some w =>
    (List.range board.length).foldlM (fun score r =>
      (List.range w).foldlM (fun score c =>
        directions.foldlM (fun score d => evalWindow board r c score d) score) score) 0

/-- The function `preferredOrder`. -/
def preferredOrder (w : Nat) : List Int :=
  let center : Int := (w / 2 : Nat)
  center :: (List.range (w / 2)).flatMap (fun j =>
    let i : Int := ((j + 1 : Nat) : Int)
    (if center - i ≥ 0 then [center - i] else []) ++
    (if center + i < (w : Int) then [center + i] else []))

/-! ## Minimax -/

/-- The constant `math.MinInt32`. -/
def MinInt32 : Int := -2147483648

/-- The constant `math.MaxInt32`. -/
def MaxInt32 : Int := 2147483647

/-- The loop `for _, c := range moves` that opens `minimax` (the scan for an
immediate win): `some (some (score, c))` when the loop returns from `minimax`,
`some none` when it runs to its end. -/
def immediateScan (board : Grid) : List Int → Option (Option (Int × Int))
  | [] => some none
  | c :: cs =>
    match copyGrid board with
    | none => none
    | some b0 =>
      match dropPiece b0 c 2 with
      | none => none
      | some (b, r, ok) =>
        match (if ok then checkWinBoard b r c 2 else some false) with
        | none => none
        | some true => some (some (1000000, c))
        | some false =>
          match dropPiece b0 c 1 with
          | none => none
          | some (b2, r2, ok2) =>
            match (if ok2 then checkWinBoard b2 r2 c 1 else some false) with
            | none => none
            | some true => some (some (-1000000, c))
            | some false => immediateScan board cs

/-- The loop over `order` of the maximizing branch of `minimax`. `child b alpha beta`
is the recursive call `minimax(b, depth-1, alpha, beta, false)`; the arguments
after the list are `value`, `bestCol`, `alpha` and `beta`. -/
def maxLoop (child : Grid → Int → Int → Option (Int × Int)) (board : Grid) :
    List Int → Int → Int → Int → Int → Option (Int × Int)
  | [], value, bestCol, _, _ => some (value, bestCol)
  | c :: cs, value, bestCol, alpha, beta =>
    match cell board 0 c with
    | none => none
    | some top =>
      if top ≠ 0 then maxLoop child board cs value bestCol alpha beta
      else
        match copyGrid board with
        | none => none
        | some b0 =>
          match dropPiece b0 c 2 with
          | none => none
          | some (b, _, _) =>
            match child b alpha beta with
            | none => none
            | some (sc, _) =>
              let value1 := if sc > value then sc else value
              let bestCol1 := if sc > value then c else bestCol
              let alpha1 := if value1 > alpha then value1 else alpha
              if alpha1 ≥ beta then some (value1, bestCol1)
              else maxLoop child board cs value1 bestCol1 alpha1 beta

/-- The loop over `order` of the minimizing branch of `minimax`. `child b alpha beta`
is the recursive call `minimax(b, depth-1, alpha, beta, true)`. -/
def minLoop (child : Grid → Int → Int → Option (Int × Int)) (board : Grid) :
    List Int → Int → Int → Int → Int → Option (Int × Int)
  | [], value, bestCol, _, _ => some (value, bestCol)
  | c :: cs, value, bestCol, alpha, beta =>
    match cell board 0 c with
    | none => none
    | some top =>
      if top ≠ 0 then minLoop child board cs value bestCol alpha beta
      else
        match copyGrid board with
        | none => none
        | some b0 =>
          match dropPiece b0 c 1 with
          | none => none
          | some (b, _, _) =>
            match child b alpha beta with
            | none => none
            | some (sc, _) =>
              let value1 := if sc < value then sc else value
              let bestCol1 := if sc < value then c else bestCol
              let beta1 := if value1 < beta then value1 else beta
              if alpha ≥ beta1 then some (value1, bestCol1)
              else minLoop child board cs value1 bestCol1 alpha beta1

/-- The function `minimax`, with a budget of nested calls: `(score, column)`. -/
def minimaxFuel : Nat → Grid → Int → Int → Int → Bool → Option (Int × Int)
  | 0, _, _, _, _, _ => none
  | fuel + 1, board, depth, alpha, beta, maximizing =>
    match board with
    | [] => none
    | row0 :: _ =>
      let moves := emptyTops row0
      match immediateScan board moves with
      | none => none
      | some (some res) => some res
      | some none =>
        if depth = 0 ∨ moves.length = 0 then
          (evaluateBoard board).map (fun s => (s, -1))
        else
          match moves.head? with
          | none => none
          | some bestCol =>
            if maximizing then
              maxLoop (fun b a be => minimaxFuel fuel b (depth - 1) a be false) board
                (preferredOrder row0.length) MinInt32 bestCol alpha beta
            else
              minLoop (fun b a be => minimaxFuel fuel b (depth - 1) a be true) board
                (preferredOrder row0.length) MaxInt32 bestCol alpha beta

/-- The number of nested `minimax` calls that a call can need: with `depth >= 0`
the recursion stops at depth 0, after `depth` further calls; with a negative
depth it stops when the top row is full, and every nested call has put one more
piece on the board. -/
def minimaxBudget (board : Grid) (depth : Int) : Nat :=
  if 0 ≤ depth then depth.toNat + 1
  else board.length * (board.headD []).length + 1

/-- The function `minimax`. -/
def minimax (board : Grid) (depth alpha beta : Int) (maximizing : Bool) : Option (Int × Int) :=
  minimaxFuel (minimaxBudget board depth) board depth alpha beta maximizing

/-! ## The bot -/

/-- The expression `moves[rand.Intn(len(moves))]`; `seed` is the state of the
random source and `rand.Intn(n)` is `seed % n`. -/
def randomMove (moves : List Int) (seed : Nat) : Option Int :=
  moves[seed % moves.length]?

/-- The two scanning loops of the amateur branch of `AIPickMove` (first with
`player = 2`, then with `player = 1`): the first column of `moves` where dropping
`player` on a copy of the board wins, if any. -/
def amateurScan (g : Game) (player : Int) : List Int → Option (Option Int)
  | [] => some none
  | c :: cs =>
    match cloneBoard g with
    | none => none
    | some b0 =>
      match dropPiece b0 c player with
      | none => none
      | some (b, r, _) =>
        match checkWinBoard b r c player with
        | none => none
        | some true => some (some c)
        | some false => amateurScan g player cs

/-- The method `AIPickMove`; `seed` is the state of the random source. -/
def AIPickMove (g : Game) (seed : Nat) : Option Int :=
  match ValidMoves g with
  | none => none
  | some moves =>
    if moves.length = 0 then some (-1)
    else if g.AIDifficulty = "debutant" then randomMove moves seed
    else if g.AIDifficulty = "amateur" then
      match amateurScan g 2 moves with
      | none => none
      | some (some c) => some c
      | some none =>
        match amateurScan g 1 moves with
        | none => none
        | some (some c) => some c
        | some none =>
          match width g.Board with
          | none => none
          | some w =>
            match moves.find? (fun c => c = ((w / 2 : Nat) : Int)) with
            | some c => some c
            | none => randomMove moves seed
    else
      match cloneBoard g with
      | none => none
      | some b =>
        match minimax b 4 MinInt32 MaxInt32 true with
        | none => none
        | some (_, col) => if col < 0 then randomMove moves seed else some col

/-! ## The bot in memory -/

/-- The memory of the program: the `[]int` row buffers allocated so far, by
address. `make([]int, w)` appends a buffer; an assignment `b[r][c] = v` changes the
buffer that `b[r]` refers to. -/
abbrev Mem := List (List Int)

/-- A Go `[][]int` in memory: the addresses of its rows. -/
abbrev BoardRef := List Nat

/-- The contents of a board in memory. -/
def deref (m : Mem) (bd : BoardRef) : Grid := bd.map (fun a => m.getD a [])

/-- The struct `Game` in memory: `Board` refers to row buffers. -/
structure GameRef where
  Board : BoardRef
  CurrentPlayer : Int
  Winner : Int
  PlayerNames : String × String
  PlayerBalls : String × String
  Mode : String
  AIDifficulty : String
deriving DecidableEq

/-- The value of a game in memory. -/
def load (m : Mem) (g : GameRef) : Game :=
  { Board := deref m g.Board
    CurrentPlayer := g.CurrentPlayer
    Winner := g.Winner
    PlayerNames := g.PlayerNames
    PlayerBalls := g.PlayerBalls
    Mode := g.Mode
    AIDifficulty := g.AIDifficulty }

/-- The assignment `b[r][c] = v` in memory; `none` when an index is out of range. -/
def writeCell (m : Mem) (bd : BoardRef) (r c v : Int) : Option Mem :=
  match cell (deref m bd) r c with
  | none => none
  | some _ =>
    some (m.set (bd.getD r.toNat 0) ((m.getD (bd.getD r.toNat 0) []).set c.toNat v))

/-- The copy loops of `cloneBoard` and `minimax` in memory: every row of the copy
is a new buffer (`make([]int, w)`) filled by `copy`; the result is the memory after
the allocations and the copy. -/
def copyGridM (m : Mem) (bd : BoardRef) : Option (Mem × BoardRef) :=
  match width (deref m bd) with
  | none => none
  | some w => some (m ++ (deref m bd).map (copyRow w), List.range' m.length bd.length)

/-- The method `cloneBoard`, in memory. -/
def cloneBoardM (m : Mem) (g : GameRef) : Option (Mem × BoardRef) := copyGridM m g.Board

/-- The row loop of `dropPiece`, in memory: it writes into the buffers of the
board it was given. -/
def dropPieceLoopM (m : Mem) (bd : BoardRef) (col player : Int) :
    Nat → Option (Mem × Int × Bool)
  | 0 => some (m, -1, false)
  | r + 1 =>
    match cell (deref m bd) r col with
    | none => none
    | some v =>
      if v = 0 then (writeCell m bd r col player).map (fun m1 => (m1, (r : Int), true))
      else dropPieceLoopM m bd col player r

/-- The function `dropPiece`, in memory. -/
def dropPieceM (m : Mem) (bd : BoardRef) (col player : Int) : Option (Mem × Int × Bool) :=
  dropPieceLoopM m bd col player bd.length

/-- The scan for an immediate win that opens `minimax`, in memory: each of the two
tests of a column copies `board` anew and drops on the copy. -/
def immediateScanM (bd : BoardRef) : List Int → Mem → Option (Mem × Option (Int × Int))
  | [], m => some (m, none)
  | c :: cs, m =>
    match copyGridM m bd with
    | none => none
    | some (m1, b) =>
      match dropPieceM m1 b c 2 with
      | none => none
      | some (m2, r, ok) =>
        match (if ok then checkWinBoard (deref m2 b) r c 2 else some false) with
        | none => none
        | some true => some (m2, some (1000000, c))
        | some false =>
          match copyGridM m2 bd with
          | none => none
          | some (m3, b2) =>
            match dropPieceM m3 b2 c 1 with
            | none => none
            | some (m4, r2, ok2) =>
              match (if ok2 then checkWinBoard (deref m4 b2) r2 c 1 else some false) with
              | none => none
              | some true => some (m4, some (-1000000, c))
              | some false => immediateScanM bd cs m4

/-- The loop of the maximizing branch of `minimax`, in memory. -/
def maxLoopM (child : Mem → BoardRef → Int → Int → Option (Mem × Int × Int))
    (bd : BoardRef) : List Int → Mem → Int → Int → Int → Int → Option (Mem × Int × Int)
  | [], m, value, bestCol, _, _ => some (m, value, bestCol)
  | c :: cs, m, value, bestCol, alpha, beta =>
    match cell (deref m bd) 0 c with
    | none => none
    | some top =>
      if top ≠ 0 then maxLoopM child bd cs m value bestCol alpha beta
      else
        match copyGridM m bd with
        | none => none
        | some (m1, b) =>
          match dropPieceM m1 b c 2 with
          | none => none
          | some (m2, _, _) =>
            match child m2 b alpha beta with
            | none => none
            | some (m3, sc, _) =>
              let value1 := if sc > value then sc else value
              let bestCol1 := if sc > value then c else bestCol
              let alpha1 := if value1 > alpha then value1 else alpha
              if alpha1 ≥ beta then some (m3, value1, bestCol1)
              else maxLoopM child bd cs m3 value1 bestCol1 alpha1 beta

/-- The loop of the minimizing branch of `minimax`, in memory. -/
def minLoopM (child : Mem → BoardRef → Int → Int → Option (Mem × Int × Int))
    (bd : BoardRef) : List Int → Mem → Int → Int → Int → Int → Option (Mem × Int × Int)
  | [], m, value, bestCol, _, _ => some (m, value, bestCol)
  | c :: cs, m, value, bestCol, alpha, beta =>
    match cell (deref m bd) 0 c with
    | none => none
    | some top =>
      if top ≠ 0 then minLoopM child bd cs m value bestCol alpha beta
      else
        match copyGridM m bd with
        | none => none
        | some (m1, b) =>
          match dropPieceM m1 b c 1 with
          | none => none
          | some (m2, _, _) =>
            match child m2 b alpha beta with
            | none => none
            | some (m3, sc, _) =>
              let value1 := if sc < value then sc else value
              let bestCol1 := if sc < value then c else bestCol
              let beta1 := if value1 < beta then value1 else beta
              if alpha ≥ beta1 then some (m3, value1, bestCol1)
              else minLoopM child bd cs m3 value1 bestCol1 alpha beta1

/-- The function `minimax`, in memory, with a budget of nested calls: the memory
after the call, the score and the column. -/
def minimaxFuelM : Nat → Mem → BoardRef → Int → Int → Int → Bool → Option (Mem × Int × Int)
  | 0, _, _, _, _, _, _ => none
  | fuel + 1, m, bd, depth, alpha, beta, maximizing =>
    match deref m bd with
    | [] => none
    | row0 :: _ =>
      let moves := emptyTops row0
      match immediateScanM bd moves m with
      | none => none
      | some (m1, some res) => some (m1, res)
      | some (m1, none) =>
        if depth = 0 ∨ moves.length = 0 then
          (evaluateBoard (deref m1 bd)).map (fun s => (m1, s, -1))
        else
          match moves.head? with
          | none => none
          | some bestCol =>
            if maximizing then
              maxLoopM (fun m2 b a be => minimaxFuelM fuel m2 b (depth - 1) a be false) bd
                (preferredOrder row0.length) m1 MinInt32 bestCol alpha beta
            else
              minLoopM (fun m2 b a be => minimaxFuelM fuel m2 b (depth - 1) a be true) bd
                (preferredOrder row0.length) m1 MaxInt32 bestCol alpha beta

/-- The function `minimax`, in memory. -/
def minimaxM (m : Mem) (bd : BoardRef) (depth alpha beta : Int) (maximizing : Bool) :
    Option (Mem × Int × Int) :=
  minimaxFuelM (minimaxBudget (deref m bd) depth) m bd depth alpha beta maximizing

/-- The two scanning loops of the amateur branch of `AIPickMove`, in memory. -/
def amateurScanM (g : GameRef) (player : Int) : List Int → Mem → Option (Mem × Option Int)
  | [], m => some (m, none)
  | c :: cs, m =>
    match cloneBoardM m g with
    | none => none
    | some (m1, b) =>
      match dropPieceM m1 b c player with
      | none => none
      | some (m2, r, _) =>
        match checkWinBoard (deref m2 b) r c player with
        | none => none
        | some true => some (m2, some c)
        | some false => amateurScanM g player cs m2

/-- The method `AIPickMove`, in memory: the memory and the game after the call, and
the column. The body has no assignment to a field of `g`. -/
def AIPickMoveM (m : Mem) (g : GameRef) (seed : Nat) : Option (Mem × GameRef × Int) :=
  match ValidMoves (load m g) with
  | none => none
  | some moves =>
    if moves.length = 0 then some (m, g, -1)
    else if g.AIDifficulty = "debutant" then (randomMove moves seed).map (fun c => (m, g, c))
    else if g.AIDifficulty = "amateur" then
      match amateurScanM g 2 moves m with
      | none => none
      | some (m1, some c) => some (m1, g, c)
      | some (m1, none) =>
        match amateurScanM g 1 moves m1 with
        | none => none
        | some (m2, some c) => some (m2, g, c)
        | some (m2, none) =>
          match width (deref m2 g.Board) with
          | none => none
          | some w =>
            match moves.find? (fun c => c = ((w / 2 : Nat) : Int)) with
            | some c => some (m2, g, c)
            | none => (randomMove moves seed).map (fun c => (m2, g, c))
    else
      match cloneBoardM m g with
      | none => none
      | some (m1, b) =>
        match minimaxM m1 b 4 MinInt32 MaxInt32 true with
        | none => none
        | some (m2, _, col) =>
          if col < 0 then (randomMove moves seed).map (fun c => (m2, g, c))
          else some (m2, g, col)

/-- Every row of the board is an allocated buffer. -/
def Valid (m : Mem) (bd : BoardRef) : Prop := ∀ a ∈ bd, a < m.length

instance (m : Mem) (bd : BoardRef) : Decidable (Valid m bd) := by
  unfold Valid; infer_instance

/-- The memory of a fresh game: six rows of seven empty cells. -/
def startMem : Mem := List.replicate 6 (List.replicate 7 0)

/-- The fresh game in `startMem`, with the expert bot. -/
def startRef : GameRef :=
  { Board := [0, 1, 2, 3, 4, 5]
    CurrentPlayer := 1
    Winner := 0
    PlayerNames := ("Joueur 1", "Joueur 2")
    PlayerBalls := ("", "")
    Mode := "solo"
    AIDifficulty := "expert" }

/-! ## Specification vocabulary -/

/-- A board of `h` rows of `w` cells each. -/
def Shape (b : Grid) (h w : Nat) : Prop :=
  b.length = h ∧ ∀ row ∈ b, row.length = w

instance (b : Grid) (h w : Nat) : Decidable (Shape b h w) := by
  unfold Shape; infer_instance

/-- The cell `(r, c)` lies on the board and holds `p`. The board is what the engine
takes it to be: `len(b)` rows of `len(b[0])` cells. -/
def owned (b : Grid) (p r c : Int) : Prop :=
  inBoard b r c ∧ cell b r c = some p

instance (b : Grid) (p r c : Int) : Decidable (owned b p r c) := by
  unfold owned; infer_instance

/-- Walking from `(r, c)` in direction `(dr, dc)`, the first `n` cells are owned by
`p` and the next one is not (it is off the board or holds something else). -/
def runFrom (b : Grid) (p r c dr dc : Int) (n : Nat) : Prop :=
  (∀ i : Nat, 1 ≤ i → i ≤ n → owned b p (r + i * dr) (c + i * dc)) ∧
  ¬ owned b p (r + ((n + 1 : Nat) : Int) * dr) (c + ((n + 1 : Nat) : Int) * dc)

/-- On the axis `d` there is a segment of at least four contiguous cells owned by
`p` that contains `(r, c)`: the cells from `a` steps back to `k` steps ahead. -/
def lineAlong (b : Grid) (p r c : Int) (d : Int × Int) : Prop :=
  ∃ a k : Nat, 4 ≤ a + k + 1 ∧
    ∀ i : Int, -(a : Int) ≤ i → i ≤ (k : Int) → owned b p (r + i * d.1) (c + i * d.2)

/-- The cell `(r, c)` lies on a horizontal, vertical or diagonal line of at least
four contiguous cells owned by `p`. -/
def OnLine (b : Grid) (p r c : Int) : Prop :=
  ∃ d ∈ directions, lineAlong b p r c d

/-- The maximal contiguous run of cells owned by `p` through `(r, c)` on the axis
`d` reaches from `a` steps back to `k` steps ahead: its length is `a + k + 1`. -/
def IsMaxRun (b : Grid) (p r c : Int) (d : Int × Int) (a k : Nat) : Prop :=
  (∀ i : Int, -(a : Int) ≤ i → i ≤ (k : Int) → owned b p (r + i * d.1) (c + i * d.2)) ∧
  ¬ owned b p (r + ((k : Int) + 1) * d.1) (c + ((k : Int) + 1) * d.2) ∧
  ¬ owned b p (r - ((a : Int) + 1) * d.1) (c - ((a : Int) + 1) * d.2)

/-- A step of the counting loops: one of the eight neighbours. -/
def IsStep (dr dc : Int) : Prop :=
  (dr = 0 ∨ dr = 1 ∨ dr = -1) ∧ (dc = 0 ∨ dc = 1 ∨ dc = -1) ∧ (dr ≠ 0 ∨ dc ≠ 0)

/-- The number of cells from `(r, c)` to the edge that the step `(dr, dc)` heads
for, the cell itself included. -/
def stepsLeft (h w : Nat) (dr dc r c : Int) : Int :=
  if dr = 1 then h - r else if dr = -1 then r + 1 else if dc = 1 then w - c else c + 1

/-- The states of a game: a fresh game, and every state that a returning `PlayMove`
call leaves behind. -/
inductive Reachable : Game → Prop
  | start (name1 name2 : String) : Reachable (NewGameWithNames name1 name2)
  | move {g g1 : Game} {ok : Bool} (col : Int) :
      Reachable g → PlayMove g col = some (ok, g1) → Reachable g1

/-- Pieces rest on pieces: below a non-empty cell there is no empty cell. -/
def Gravity (b : Grid) : Prop :=
  ∀ (r c v : Int), cell b r c = some v → v ≠ 0 →
    ∀ v1, cell b (r + 1) c = some v1 → v1 ≠ 0

/-- The invariant of the reachable states. -/
def Inv (g : Game) : Prop :=
  Shape g.Board 6 7 ∧ (g.CurrentPlayer = 1 ∨ g.CurrentPlayer = 2) ∧ Gravity g.Board

/-- The game `NewGame` after `main.go` assigned the mode and the difficulty. -/
def soloGame : Game := { NewGame with Mode := "solo", AIDifficulty := "expert" }

/-- A 6x7 board with three pieces of player 1 in the bottom row. -/
def threeInRow : Grid :=
  [[0, 0, 0, 0, 0, 0, 0], [0, 0, 0, 0, 0, 0, 0], [0, 0, 0, 0, 0, 0, 0],
   [0, 0, 0, 0, 0, 0, 0], [0, 0, 0, 0, 0, 0, 0], [1, 1, 1, 0, 2, 2, 0]]

/-- A 6x7 board whose top row is occupied except in columns 2 and 5. -/
def twoOpen : Grid :=
  [[1, 2, 0, 2, 1, 0, 2], [2, 1, 1, 1, 2, 2, 1], [1, 2, 2, 1, 1, 2, 2],
   [2, 1, 1, 2, 2, 1, 1], [1, 2, 2, 1, 1, 2, 2], [2, 1, 1, 2, 2, 1, 1]]

/-- Dropping a piece of `p` into column `c` completes a line of four: `(r, c)` is
the lowest empty cell of the column, and once `p` is written there the cell lies on
a line of at least four contiguous cells owned by `p`. -/
def WinsAt (b : Grid) (p c : Int) : Prop :=
  ∃ (r : Int) (b1 : Grid), cell b r c = some 0 ∧
    (∀ r1 : Int, r < r1 → r1 < (b.length : Int) → ∃ v, cell b r1 c = some v ∧ v ≠ 0) ∧
    setCell b r c p = some b1 ∧ OnLine b1 p r c

/-- The test made by the scanning loops of the bot: drop `p` into column `c` of
the board and run `checkWinBoard` from the landing cell. -/
def dropWins (b : Grid) (p c : Int) : Bool :=
  match dropPiece b c p with
  | some (b1, r, true) => decide (checkWinBoard b1 r c p = some true)
  | _ => false

/-- A game of the amateur bot on a given board. -/
def amateurOn (b : Grid) : Game := { NewGame with Board := b, AIDifficulty := "amateur" }

/-- The 6x7 board after the moves 0,6,0,6,3,6,0 of a fresh game: player 2 is to
move and wins at once in column 6, player 1 would win at once in column 0. -/
def bothThreaten : Grid :=
  [[0, 0, 0, 0, 0, 0, 0], [0, 0, 0, 0, 0, 0, 0], [0, 0, 0, 0, 0, 0, 0],
   [1, 0, 0, 0, 0, 0, 2], [1, 0, 0, 0, 0, 0, 2], [1, 0, 0, 1, 0, 0, 2]]

/-- A 6x7 board on which player 1 wins at once in column 0 and player 2 nowhere. -/
def oneThreatens : Grid :=
  [[0, 0, 0, 0, 0, 0, 0], [0, 0, 0, 0, 0, 0, 0], [0, 0, 0, 0, 0, 0, 0],
   [1, 0, 0, 0, 0, 0, 0], [1, 0, 0, 0, 0, 0, 2], [1, 0, 0, 0, 0, 0, 2]]

/-- A game of the expert bot on a given board. -/
def expertOn (b : Grid) : Game := { NewGame with Board := b, AIDifficulty := "expert" }

/-- The number of non-empty cells of a board. -/
def filled (b : Grid) : Nat :=
  (b.map (fun row => row.countP (fun v => v ≠ 0))).sum

/-- A run of `PlayMove` calls, every one of which must return: the game after the
last call and the number of calls that returned `true`. -/
def playCount (g : Game) : List Int → Option (Game × Nat)
  | [] => some (g, 0)
  | col :: cols =>
    match PlayMove g col with
    | none => none
    | some (ok, g1) =>
      match playCount g1 cols with
      | none => none
      | some (g2, n) => some (g2, if ok = true then n + 1 else n)

/-- The board contains a horizontal, vertical or diagonal line of at least four
contiguous cells owned by `p`. -/
def HasLine (b : Grid) (p : Int) : Prop :=
  ∃ r c : Int, OnLine b p r c

/-- The invariant that ties `Winner` to the lines on the board. -/
def WinnerInv (g : Game) : Prop :=
  (g.Winner = 0 ∧ ¬ HasLine g.Board 1 ∧ ¬ HasLine g.Board 2) ∨
  (g.Winner = 1 ∧ HasLine g.Board 1 ∧ ¬ HasLine g.Board 2) ∨
  (g.Winner = 2 ∧ HasLine g.Board 2 ∧ ¬ HasLine g.Board 1)

/-- The `k` contiguous cells that start at `(r, c)` and run along `d`. -/
def rayCells (d : Int × Int) : Nat → Int → Int → List (Int × Int)
  | 0, _, _ => []
  | k + 1, r, c => (r, c) :: rayCells d k (r + d.1) (c + d.2)

/-- The number of cells of a list that hold `v`. -/
def countOf (b : Grid) (v : Int) (cells : List (Int × Int)) : Int :=
  ((cells.countP (fun x => decide (cell b x.1 x.2 = some v)) : Nat) : Int)

/-- The number of cells of a list that hold neither 1 nor 2. -/
def countRest (b : Grid) (cells : List (Int × Int)) : Int :=
  ((cells.countP (fun x => decide (cell b x.1 x.2 ≠ some 1 ∧ cell b x.1 x.2 ≠ some 2)) : Nat) : Int)

/-- The weight of `n` pieces of one player with `e` empty cells in a window. -/
def gain (n e : Int) : Int :=
  if n = 4 then 100000 else if n = 3 ∧ e = 1 then 1000 else if n = 2 ∧ e = 2 then 50 else 0

/-- What the window that starts at `(r, c)` and runs along `d` adds to the score of
`evaluateBoard`: nothing when it leaves the board. -/
def contribution (b : Grid) (r c : Int) (d : Int × Int) : Int :=
  if ∀ x ∈ rayCells d 4 r c, inBoard b x.1 x.2 then
    gain (countOf b 2 (rayCells d 4 r c)) (countRest b (rayCells d 4 r c)) -
      gain (countOf b 1 (rayCells d 4 r c)) (countRest b (rayCells d 4 r c))
  else 0

/-- The sum of the contributions of all start cells and directions. -/
def contributionSum (b : Grid) (h w : Nat) : Int :=
  ((List.map Int.ofNat (List.range h)).map (fun r =>
    ((List.map Int.ofNat (List.range w)).map (fun c =>
      (directions.map (fun d => contribution b r c d)).sum)).sum)).sum

/-- The label of the other player; an empty cell stays empty. -/
def swapValue (v : Int) : Int :=
  if v = 1 then 2 else if v = 2 then 1 else v

/-- The board with the two players exchanged. -/
def swapBoard (b : Grid) : Grid :=
  b.map (fun row => row.map swapValue)

/-- Every start cell of an `h` x `w` board with every direction. -/
def allStarts (h w : Nat) : List (Int × Int × (Int × Int)) :=
  (List.map Int.ofNat (List.range h)).flatMap (fun r =>
    (List.map Int.ofNat (List.range w)).flatMap (fun c =>
      directions.map (fun d => (r, c, d))))

/-- The window that starts at `x.1, x.2.1` and runs along `x.2.2` lies entirely
inside an `h` x `w` board. -/
def fitsIn (h w : Nat) (x : Int × Int × (Int × Int)) : Prop :=
  ∀ y ∈ rayCells x.2.2 4 x.1 x.2.1, 0 ≤ y.1 ∧ y.1 < (h : Int) ∧ 0 ≤ y.2 ∧ y.2 < (w : Int)

instance (h w : Nat) (x : Int × Int × (Int × Int)) : Decidable (fitsIn h w x) := by
  unfold fitsIn; infer_instance

/-- The 4-cell windows of an `h` x `w` board: the start cells and directions whose
window lies entirely inside the board. -/
def windowsOf (h w : Nat) : List (Int × Int × (Int × Int)) :=
  (allStarts h w).filter (fun x => decide (fitsIn h w x))

/-- The weight of a window by the table of the evaluation: `100000` for four pieces
of player 2, `1000` for three and one empty cell, `50` for two and two empty cells,
the negated values for the same patterns of player 1, and 0 for every other
window. -/
def windowWeight (b : Grid) (x : Int × Int × (Int × Int)) : Int :=
  let n2 := countOf b 2 (rayCells x.2.2 4 x.1 x.2.1)
  let n1 := countOf b 1 (rayCells x.2.2 4 x.1 x.2.1)
  let n0 := countOf b 0 (rayCells x.2.2 4 x.1 x.2.1)
  if n2 = 4 then 100000
  else if n2 = 3 ∧ n0 = 1 then 1000
  else if n2 = 2 ∧ n0 = 2 then 50
  else if n1 = 4 then -100000
  else if n1 = 3 ∧ n0 = 1 then -1000
  else if n1 = 2 ∧ n0 = 2 then -50
  else 0

/-- The sum of the weights of the windows of a 6x7 board. -/
def windowScore (b : Grid) : Int :=
  ((windowsOf 6 7).map (windowWeight b)).sum

/-- The board `b1` is the board `b` after a piece of `p` was dropped into column
`c`: the piece sits in the lowest empty cell of the column. -/
def AfterDrop (b : Grid) (p c : Int) (b1 : Grid) : Prop :=
  ∃ r : Int, cell b r c = some 0 ∧
    (∀ r1 : Int, r < r1 → r1 < (b.length : Int) → ∃ v, cell b r1 c = some v ∧ v ≠ 0) ∧
    setCell b r c p = some b1

/-- Player 1 has no legal column that completes a line of four. -/
def NoReply (b : Grid) : Prop :=
  ∀ x : Int, cell b 0 x = some 0 → ¬ WinsAt b 1 x

/-- The board after the moves 6,5,1,5,2,4,3,0,3,6,6,0,0,1,5,1,6,5,5,1,5,0,1,4,6,1,
4,6,0,3,2,4,4,4,0 of a fresh game: player 2 is to move, nobody has won, nobody wins
at once, and columns 2 and 3 are open. -/
def handsWin : Grid :=
  [[1, 2, 0, 0, 2, 1, 2], [1, 1, 0, 0, 1, 1, 1], [2, 2, 0, 0, 2, 2, 1],
   [1, 2, 0, 2, 1, 1, 1], [2, 2, 1, 1, 2, 2, 2], [2, 1, 1, 1, 2, 2, 1]]

/-- The moves that lead to `handsWin`. -/
def handsWinMoves : List Int :=
  [6, 5, 1, 5, 2, 4, 3, 0, 3, 6, 6, 0, 0, 1, 5, 1, 6, 5, 5, 1, 5, 0, 1, 4, 6, 1,
   4, 6, 0, 3, 2, 4, 4, 4, 0]

/-- The board `handsWin` after player 2 dropped into column 3. -/
def handsWinAfter3 : Grid :=
  [[1, 2, 0, 0, 2, 1, 2], [1, 1, 0, 0, 1, 1, 1], [2, 2, 0, 2, 2, 2, 1],
   [1, 2, 0, 2, 1, 1, 1], [2, 2, 1, 1, 2, 2, 2], [2, 1, 1, 1, 2, 2, 1]]

/-- The board `handsWin` after player 2 dropped into column 2. -/
def handsWinAfter2 : Grid :=
  [[1, 2, 0, 0, 2, 1, 2], [1, 1, 0, 0, 1, 1, 1], [2, 2, 0, 0, 2, 2, 1],
   [1, 2, 2, 2, 1, 1, 1], [2, 2, 1, 1, 2, 2, 2], [2, 1, 1, 1, 2, 2, 1]]

/-- The loop over `order` of the maximizing branch of `minimax` with the alpha-beta
lines left out: no `alpha`, no `beta`, no cut-off. `child b` is the recursive call
on the board after the drop; the arguments after the list are `value` and
`bestCol`. -/
def maxPlain (child : Grid → Option (Int × Int)) (board : Grid) :
    List Int → Int → Int → Option (Int × Int)
  | [], value, bestCol => some (value, bestCol)
  | c :: cs, value, bestCol =>
    match cell board 0 c with
    | none => none
    | some top =>
      if top ≠ 0 then maxPlain child board cs value bestCol
      else
        match copyGrid board with
        | none => none
        | some b0 =>
          match dropPiece b0 c 2 with
          | none => none
          | some (b, _, _) =>
            match child b with
            | none => none
            | some (sc, _) =>
              maxPlain child board cs (if sc > value then sc else value)
                (if sc > value then c else bestCol)

/-- The loop over `order` of the minimizing branch of `minimax` with the alpha-beta
lines left out. -/
def minPlain (child : Grid → Option (Int × Int)) (board : Grid) :
    List Int → Int → Int → Option (Int × Int)
  | [], value, bestCol => some (value, bestCol)
  | c :: cs, value, bestCol =>
    match cell board 0 c with
    | none => none
    | some top =>
      if top ≠ 0 then minPlain child board cs value bestCol
      else
        match copyGrid board with
        | none => none
        | some b0 =>
          match dropPiece b0 c 1 with
          | none => none
          | some (b, _, _) =>
            match child b with
            | none => none
            | some (sc, _) =>
              minPlain child board cs (if sc < value then sc else value)
                (if sc < value then c else bestCol)

/-- The search of `minimax` without pruning: the same scan for an immediate win,
the same leaf evaluation, the same loops and tie-breaking, no alpha-beta cut-off.
The first argument is the budget of nested calls. -/
def plainFuel : Nat → Grid → Int → Bool → Option (Int × Int)
  | 0, _, _, _ => none
  | fuel + 1, board, depth, maximizing =>
    match board with
    | [] => none
    | row0 :: _ =>
      let moves := emptyTops row0
      match immediateScan board moves with
      | none => none
      | some (some res) => some res
      | some none =>
        if depth = 0 ∨ moves.length = 0 then
          (evaluateBoard board).map (fun s => (s, -1))
        else
          match moves.head? with
          | none => none
          | some bestCol =>
            if maximizing then
              maxPlain (fun b => plainFuel fuel b (depth - 1) false) board
                (preferredOrder row0.length) MinInt32 bestCol
            else
              minPlain (fun b => plainFuel fuel b (depth - 1) true) board
                (preferredOrder row0.length) MaxInt32 bestCol

/-- The search without pruning, with the budget of `minimax`. -/
def plainSearch (board : Grid) (depth : Int) (maximizing : Bool) : Option (Int × Int) :=
  plainFuel (minimaxBudget board depth) board depth maximizing

/-- The score that the search without pruning gives to column `c` at the root: its
score, with player 1 to move, of the board after player 2 dropped into `c`. -/
def plainAfter (board : Grid) (depth c : Int) : Option Int :=
  match dropPiece board c 2 with
  | none => none
  | some (b, _, _) => (plainSearch b (depth - 1) false).map (fun res => res.1)

/-- A score strictly between `math.MinInt32` and `math.MaxInt32`. -/
def InRange (s : Int) : Prop := MinInt32 < s ∧ s < MaxInt32

/-- The recursive call `child` gives the score `sc` to column `c`: it returns `sc`
on the board after `p` dropped into `c`. -/
def ChildScore (child : Grid → Option (Int × Int)) (b : Grid) (p c sc : Int) : Prop :=
  ∃ b1 r ok c2, dropPiece b c p = some (b1, r, ok) ∧ child b1 = some (sc, c2)

/-- The result `r` of a search with the window `(a, be)` bounds the result `v` of
the search without pruning: an upper bound when it is at most `a`, a lower bound
when it is at least `be`, and the same value when it lies inside the window. -/
def Bounds (a be r v : Int) : Prop :=
  (r ≤ a → v ≤ r) ∧ (be ≤ r → r ≤ v) ∧ (a < r → r < be → v = r)

/-- The board after the moves 3,3,3,3,3,0,2,6,4,0,2,0,2,6,3,1,0,5,1,1,1,0,6,1,1,6,
6,6,5,4,4,2,0,5,4 of a fresh game: player 2 is to move, nobody has won, nobody wins
at once, and columns 2, 4 and 5 are open. -/
def handsTie : Grid :=
  [[1, 1, 0, 1, 0, 0, 2], [2, 2, 0, 1, 0, 0, 1], [1, 1, 2, 2, 1, 0, 2],
   [2, 2, 1, 1, 1, 2, 1], [2, 1, 1, 2, 2, 1, 2], [2, 2, 1, 1, 1, 2, 2]]

/-- The moves that lead to `handsTie`. -/
def handsTieMoves : List Int :=
  [3, 3, 3, 3, 3, 0, 2, 6, 4, 0, 2, 0, 2, 6, 3, 1, 0, 5, 1, 1, 1, 0, 6, 1, 1, 6,
   6, 6, 5, 4, 4, 2, 0, 5, 4]

/-- The board `handsTie` after player 2 dropped into column 2. -/
def handsTieAfter2 : Grid :=
  [[1, 1, 0, 1, 0, 0, 2], [2, 2, 2, 1, 0, 0, 1], [1, 1, 2, 2, 1, 0, 2],
   [2, 2, 1, 1, 1, 2, 1], [2, 1, 1, 2, 2, 1, 2], [2, 2, 1, 1, 1, 2, 2]]

/-- The board `handsTie` after player 2 dropped into column 4. -/
def handsTieAfter4 : Grid :=
  [[1, 1, 0, 1, 0, 0, 2], [2, 2, 0, 1, 2, 0, 1], [1, 1, 2, 2, 1, 0, 2],
   [2, 2, 1, 1, 1, 2, 1], [2, 1, 1, 2, 2, 1, 2], [2, 2, 1, 1, 1, 2, 2]]

/-! ## Theorems -/

theorem cell_nat (b : Grid) (r c : Nat) :
    cell b r c = (b[r]?).bind (fun row => row[c]?) := by
  unfold cell rowAt
  simp only [Int.toNat_ofNat]
  have h1 : ¬ ((r : Int) < 0) := by omega
  have h2 : ¬ ((c : Int) < 0) := by omega
  simp only [h1, h2, if_false]
  cases b[r]? <;> rfl

theorem cell_some_nonneg {b : Grid} {r c v : Int} (h : cell b r c = some v) :
    0 ≤ r ∧ 0 ≤ c := by
  unfold cell rowAt at h
  by_cases hr : r < 0
  · simp [hr] at h
  · by_cases hc : c < 0
    · simp only [hr, if_false] at h
      cases hrow : b[r.toNat]? with
      | none => simp [hrow] at h
      | some row => simp [hrow, hc] at h
    · omega

theorem cell_some_lt {b : Grid} {r c v : Int} (h : cell b r c = some v) :
    r < (b.length : Int) := by
  have hn := cell_some_nonneg h
  obtain ⟨r, rfl⟩ := Int.eq_ofNat_of_zero_le hn.1
  obtain ⟨c, rfl⟩ := Int.eq_ofNat_of_zero_le hn.2
  rw [cell_nat] at h
  cases hrow : b[r]? with
  | none => simp [hrow] at h
  | some row =>
    have := (List.getElem?_eq_some_iff.mp hrow).1
    omega

theorem cell_of_shape {b : Grid} {h w : Nat} (hs : Shape b h w) {r c : Int}
    (hr0 : 0 ≤ r) (hr : r < h) (hc0 : 0 ≤ c) (hc : c < w) : ∃ v, cell b r c = some v := by
  obtain ⟨r, rfl⟩ := Int.eq_ofNat_of_zero_le hr0
  obtain ⟨c, rfl⟩ := Int.eq_ofNat_of_zero_le hc0
  rw [cell_nat]
  have hr' : r < b.length := by rw [hs.1]; omega
  have hrow : b[r]? = some b[r] := List.getElem?_eq_getElem hr'
  have hlen : (b[r]).length = w := hs.2 _ (List.getElem_mem hr')
  have hc' : c < (b[r]).length := by rw [hlen]; omega
  exact ⟨(b[r])[c], by simp [hrow, List.getElem?_eq_getElem hc']⟩

theorem cell_some_lt_width {b : Grid} {h w : Nat} (hs : Shape b h w) {r c v : Int}
    (hc : cell b r c = some v) : c < (w : Int) := by
  have hn := cell_some_nonneg hc
  obtain ⟨r, rfl⟩ := Int.eq_ofNat_of_zero_le hn.1
  obtain ⟨c, rfl⟩ := Int.eq_ofNat_of_zero_le hn.2
  rw [cell_nat] at hc
  cases hrow : b[r]? with
  | none => simp [hrow] at hc
  | some row =>
    simp only [hrow, Option.some_bind] at hc
    have hmem : row ∈ b := List.getElem?_mem hrow
    have := hs.2 row hmem
    have := (List.getElem?_eq_some_iff.mp hc).1
    omega

theorem headD_length_of_shape {b : Grid} {h w : Nat} (hs : Shape b h w) (hh : 0 < h) :
    (b.headD []).length = w := by
  cases b with
  | nil => simp [Shape] at hs; omega
  | cons row rest => exact hs.2 row (List.mem_cons_self _ _)

theorem width_of_shape {b : Grid} {h w : Nat} (hs : Shape b h w) (hh : 0 < h) :
    width b = some w := by
  cases b with
  | nil => simp [Shape] at hs; omega
  | cons row rest => simp [width, hs.2 row (List.mem_cons_self _ _)]

theorem inBoard_of_shape {b : Grid} {h w : Nat} (hs : Shape b h w) (r c : Int) :
    inBoard b r c ↔ 0 ≤ r ∧ r < h ∧ 0 ≤ c ∧ c < w := by
  unfold inBoard
  by_cases hh : 0 < h
  · rw [headD_length_of_shape hs hh, hs.1]
  · rw [hs.1]
    constructor <;> intro hx <;> omega

/-- Reading a cell after the write `b[r][c] = v`. -/
theorem cell_setCell {b b1 : Grid} {r c v : Int} (h : setCell b r c v = some b1)
    (r1 c1 : Int) :
    cell b1 r1 c1 = if r1 = r ∧ c1 = c then some v else cell b r1 c1 := by
  unfold setCell at h
  cases hc : cell b r c with
  | none => simp [hc] at h
  | some x =>
    simp only [hc, Option.some.injEq] at h
    have hn := cell_some_nonneg hc
    have hlt := cell_some_lt hc
    subst h
    obtain ⟨r, rfl⟩ := Int.eq_ofNat_of_zero_le hn.1
    obtain ⟨c, rfl⟩ := Int.eq_ofNat_of_zero_le hn.2
    by_cases hr1 : r1 < 0
    · have : ¬ (r1 = (r : Int) ∧ c1 = c) := by omega
      simp [this, cell, rowAt, hr1]
    by_cases hc1 : c1 < 0
    · have : ¬ (r1 = (r : Int) ∧ c1 = c) := by omega
      simp only [this, if_false]
      unfold cell
      cases rowAt _ r1 <;> cases rowAt b r1 <;> simp [hc1]
    obtain ⟨r1, rfl⟩ := Int.eq_ofNat_of_zero_le (by omega : 0 ≤ r1)
    obtain ⟨c1, rfl⟩ := Int.eq_ofNat_of_zero_le (by omega : 0 ≤ c1)
    rw [cell_nat, cell_nat] at *
    simp only [Int.toNat_ofNat]
    have hr : r < b.length := by omega
    rw [List.getElem?_set]
    by_cases e : r = r1
    · subst e
      simp only [hr, if_true, Option.some_bind, true_and, Nat.cast_inj]
      rw [List.getD_eq_getElem _ _ hr, List.getElem?_set]
      have hrow : b[r]? = some b[r] := List.getElem?_eq_getElem hr
      rw [hrow] at hc ⊢
      simp only [Option.some_bind] at hc ⊢
      have hcl := (List.getElem?_eq_some_iff.mp hc).1
      by_cases e2 : c = c1
      · subst e2; simp [hcl]
      · have : ¬ (c1 = c) := fun hx => e2 hx.symm
        simp [e2, this]
    · have h3 : ¬ (r1 = r ∧ c1 = c) := fun hx => e hx.1.symm
      simp [e, h3]

theorem setCell_length {b b1 : Grid} {r c v : Int} (h : setCell b r c v = some b1) :
    b1.length = b.length := by
  unfold setCell at h
  cases hc : cell b r c with
  | none => simp [hc] at h
  | some x => simp only [hc, Option.some.injEq] at h; subst h; simp

theorem setCell_shape {b b1 : Grid} {r c v : Int} {h w : Nat}
    (hset : setCell b r c v = some b1) (hs : Shape b h w) : Shape b1 h w := by
  refine ⟨by rw [setCell_length hset, hs.1], ?_⟩
  unfold setCell at hset
  cases hc : cell b r c with
  | none => simp [hc] at hset
  | some x =>
    simp only [hc, Option.some.injEq] at hset; subst hset
    intro row hrow
    rcases List.mem_or_eq_of_mem_set hrow with hm | he
    · exact hs.2 row hm
    · subst he
      rw [List.length_set]
      have hn := cell_some_nonneg hc
      have hlt := cell_some_lt hc
      have hr : r.toNat < b.length := by omega
      rw [List.getD_eq_getElem _ _ hr]
      exact hs.2 _ (List.getElem_mem hr)

theorem setCell_some_of_cell {b : Grid} {r c x : Int} (v : Int) (h : cell b r c = some x) :
    ∃ b1, setCell b r c v = some b1 := by
  unfold setCell; rw [h]; exact ⟨_, rfl⟩

theorem setCell_headD_length {b b1 : Grid} {r c v : Int} (h : setCell b r c v = some b1) :
    (b1.headD []).length = (b.headD []).length := by
  unfold setCell at h
  cases hc : cell b r c with
  | none => simp [hc] at h
  | some x =>
    simp only [hc, Option.some.injEq] at h; subst h
    cases b with
    | nil => simp
    | cons row rest =>
      cases hr : r.toNat with
      | zero => simp
      | succ n => simp

theorem inBoard_setCell {b b1 : Grid} {r c v : Int} (h : setCell b r c v = some b1)
    (r1 c1 : Int) : inBoard b1 r1 c1 ↔ inBoard b r1 c1 := by
  unfold inBoard
  rw [setCell_length h, setCell_headD_length h]

theorem runFrom_unique {b : Grid} {p r c dr dc : Int} {n m : Nat}
    (hn : runFrom b p r c dr dc n) (hm : runFrom b p r c dr dc m) : n = m := by
  rcases Nat.lt_trichotomy n m with h | h | h
  · exact absurd (hm.1 (n + 1) (by omega) (by omega)) hn.2
  · exact h
  · exact absurd (hn.1 (m + 1) (by omega) (by omega)) hm.2

/-- What a counting loop returns, if it returns: the count it started with plus
the length of the run ahead of the cursor. -/
theorem countLoop_spec (b : Grid) (dr dc p : Int) :
    ∀ (fuel : Nat) (r c : Int) (count m : Nat),
      countLoop b dr dc p fuel r c count = some m →
      ∃ n, m = count + n ∧ runFrom b p r c dr dc n := by
  intro fuel
  induction fuel with
  | zero => intro r c count m h; simp [countLoop] at h
  | succ fuel ih =>
    intro r c count m h
    unfold countLoop at h
    by_cases hin : inBoard b (r + dr) (c + dc)
    · simp only [hin, not_true_eq_false, if_false] at h
      cases hc : cell b (r + dr) (c + dc) with
      | none => simp [hc] at h
      | some v =>
        simp only [hc] at h
        by_cases hv : v = p
        · subst hv
          simp only [ne_eq, not_true_eq_false, if_false] at h
          obtain ⟨n, hm, hrun⟩ := ih _ _ _ _ h
          refine ⟨n + 1, by omega, ?_, ?_⟩
          · intro i hi1 hin1
            rcases Nat.eq_or_lt_of_le hi1 with e | hlt
            · subst e
              simpa [owned] using And.intro hin hc
            · obtain ⟨j, rfl⟩ : ∃ j, i = j + 1 := ⟨i - 1, by omega⟩
              have := hrun.1 j (by omega) (by omega)
              have e1 : r + ((j + 1 : Nat) : Int) * dr = r + dr + (j : Int) * dr := by
                push_cast; ring
              have e2 : c + ((j + 1 : Nat) : Int) * dc = c + dc + (j : Int) * dc := by
                push_cast; ring
              rw [e1, e2]; exact this
          · have e1 : r + ((n + 1 + 1 : Nat) : Int) * dr
                = r + dr + ((n + 1 : Nat) : Int) * dr := by push_cast; ring
            have e2 : c + ((n + 1 + 1 : Nat) : Int) * dc
                = c + dc + ((n + 1 : Nat) : Int) * dc := by push_cast; ring
            rw [e1, e2]; exact hrun.2
        · simp only [ne_eq, hv, not_false_eq_true, if_true, Option.some.injEq] at h
          refine ⟨0, by omega, by intro i h1 h2; omega, ?_⟩
          simp only [owned, Nat.zero_add, Nat.cast_one, one_mul, hc, Option.some.injEq]
          exact fun hx => hv hx.2
    · simp only [hin, not_false_eq_true, if_true, Option.some.injEq] at h
      refine ⟨0, by omega, by intro i h1 h2; omega, ?_⟩
      simp only [owned, Nat.zero_add, Nat.cast_one, one_mul]
      exact fun hx => hin hx.1

/-- On a rectangular board a counting loop along a step returns, provided the
budget exceeds the distance to the edge. -/
theorem countLoop_total {b : Grid} {h w : Nat} (hs : Shape b h w) {dr dc : Int}
    (hd : IsStep dr dc) (p : Int) :
    ∀ (fuel : Nat) (r c : Int) (count : Nat), 1 ≤ fuel →
      (inBoard b (r + dr) (c + dc) → stepsLeft h w dr dc (r + dr) (c + dc) < fuel) →
      ∃ m, countLoop b dr dc p fuel r c count = some m := by
  intro fuel
  induction fuel with
  | zero => intro r c count h1; omega
  | succ fuel ih =>
    intro r c count _ hdist
    unfold countLoop
    by_cases hin : inBoard b (r + dr) (c + dc)
    · simp only [hin, not_true_eq_false, if_false]
      have hdist := hdist hin
      have hin' := (inBoard_of_shape hs _ _).mp hin
      obtain ⟨v, hv⟩ := cell_of_shape hs hin'.1 hin'.2.1 hin'.2.2.1 hin'.2.2.2
      simp only [hv]
      by_cases hvp : v = p
      · simp only [hvp, ne_eq, not_true_eq_false, if_false]
        have hpos : 1 ≤ stepsLeft h w dr dc (r + dr) (c + dc) := by
          unfold stepsLeft; split_ifs <;> omega
        apply ih
        · omega
        · intro hin2
          have hin2' := (inBoard_of_shape hs _ _).mp hin2
          obtain ⟨h1, h2, h3⟩ := hd
          unfold stepsLeft at hdist ⊢
          split_ifs at hdist ⊢ <;> omega
      · simp [hvp]
    · simp [hin]

theorem countDirectionBoard_total {b : Grid} {h w : Nat} (hs : Shape b h w) {dr dc : Int}
    (hd : IsStep dr dc) (p r c : Int) :
    ∃ n, countDirectionBoard b r c dr dc p = some n ∧ runFrom b p r c dr dc n := by
  have hbud : countBudget b = h + w + 1 ∨ h = 0 := by
    by_cases hh : 0 < h
    · left; unfold countBudget; rw [headD_length_of_shape hs hh, hs.1]
    · right; omega
  obtain ⟨m, hm⟩ := countLoop_total hs hd p (countBudget b) r c 0
    (by unfold countBudget; omega)
    (by
      intro hin
      have hin' := (inBoard_of_shape hs _ _).mp hin
      rcases hbud with e | e
      · rw [e]; unfold stepsLeft; split_ifs <;> push_cast <;> omega
      · omega)
  obtain ⟨n, hn, hrun⟩ := countLoop_spec b dr dc p _ _ _ _ _ hm
  refine ⟨n, ?_, hrun⟩
  unfold countDirectionBoard
  rw [hm, hn]; simp

/-- With the runs ahead and behind known, a line of four through an owned cell is
the same as a total count of at least four. -/
theorem lineAlong_iff_count {b : Grid} {p r c : Int} {d : Int × Int} {n1 n2 : Nat}
    (hown : owned b p r c) (h1 : runFrom b p r c d.1 d.2 n1)
    (h2 : runFrom b p r c (-d.1) (-d.2) n2) :
    lineAlong b p r c d ↔ 4 ≤ 1 + n1 + n2 := by
  constructor
  · rintro ⟨a, k, hlen, hseg⟩
    have hk : k ≤ n1 := by
      by_contra hcon
      have := hseg ((n1 + 1 : Nat) : Int) (by push_cast; omega) (by push_cast; omega)
      exact h1.2 this
    have ha : a ≤ n2 := by
      by_contra hcon
      have := hseg (-((n2 + 1 : Nat) : Int)) (by push_cast; omega) (by push_cast; omega)
      apply h2.2
      have e1 : r + ((n2 + 1 : Nat) : Int) * -d.1 = r + -((n2 + 1 : Nat) : Int) * d.1 := by ring
      have e2 : c + ((n2 + 1 : Nat) : Int) * -d.2 = c + -((n2 + 1 : Nat) : Int) * d.2 := by ring
      rw [e1, e2]; exact this
    omega
  · intro hlen
    refine ⟨n2, n1, by omega, ?_⟩
    intro i hlo hhi
    rcases lt_trichotomy i 0 with hneg | hz | hpos
    · obtain ⟨j, hj⟩ : ∃ j : Nat, i = -(j : Int) := ⟨(-i).toNat, by omega⟩
      subst hj
      have := h2.1 j (by omega) (by omega)
      have e1 : r + -(j : Int) * d.1 = r + (j : Int) * -d.1 := by ring
      have e2 : c + -(j : Int) * d.2 = c + (j : Int) * -d.2 := by ring
      rw [e1, e2]; exact this
    · subst hz; simpa using hown
    · obtain ⟨j, hj⟩ : ∃ j : Nat, i = (j : Int) := ⟨i.toNat, by omega⟩
      subst hj
      exact h1.1 j (by omega) (by omega)

theorem checkWinScan_eq (g : Game) (r c p : Int) (ds : List (Int × Int)) :
    checkWinScan g r c p ds = checkWinBoardScan g.Board r c p ds := by
  induction ds with
  | nil => rfl
  | cons d ds ih =>
    simp only [checkWinScan, checkWinBoardScan, countDirection, countDirectionBoard, ih]

/-- The loop over the axes, if it returns, returns `true` exactly when one of the
axes carries a line of four through the (owned) cell. -/
theorem checkWinBoardScan_spec {b : Grid} {p r c : Int} (hown : owned b p r c) :
    ∀ (ds : List (Int × Int)) (res : Bool), checkWinBoardScan b r c p ds = some res →
      (res = true ↔ ∃ d ∈ ds, lineAlong b p r c d) := by
  intro ds
  induction ds with
  | nil => intro res h; simp [checkWinBoardScan] at h; simp [← h]
  | cons d ds ih =>
    intro res h
    unfold checkWinBoardScan at h
    cases h1 : countDirectionBoard b r c d.1 d.2 p with
    | none => simp [h1] at h
    | some n1 =>
      cases h2 : countDirectionBoard b r c (-d.1) (-d.2) p with
      | none => simp [h1, h2] at h
      | some n2 =>
        simp only [h1, h2] at h
        obtain ⟨m1, e1, hr1⟩ := countLoop_spec b _ _ p _ _ _ _ _ h1
        obtain ⟨m2, e2, hr2⟩ := countLoop_spec b _ _ p _ _ _ _ _ h2
        have e1 : n1 = m1 := by omega
        have e2 : n2 = m2 := by omega
        subst e1 e2
        have hiff := lineAlong_iff_count hown hr1 hr2
        by_cases hge : 1 + n1 + n2 ≥ 4
        · simp only [hge, if_true, Option.some.injEq] at h
          subst h
          simp only [true_iff]
          exact ⟨d, List.mem_cons_self _ _, hiff.mpr hge⟩
        · simp only [hge, if_false] at h
          rw [ih res h]
          constructor
          · rintro ⟨d1, hd1, hl⟩; exact ⟨d1, List.mem_cons_of_mem _ hd1, hl⟩
          · rintro ⟨d1, hd1, hl⟩
            rcases List.mem_cons.mp hd1 with e | hmem
            · subst e; exact absurd (hiff.mp hl) hge
            · exact ⟨d1, hmem, hl⟩

theorem isStep_of_mem_directions {d : Int × Int} (hd : d ∈ directions) :
    IsStep d.1 d.2 ∧ IsStep (-d.1) (-d.2) := by
  simp only [directions, List.mem_cons, List.mem_singleton, List.not_mem_nil, or_false] at hd
  rcases hd with rfl | rfl | rfl | rfl <;> simp [IsStep]

/-- On a rectangular board the loop over the axes returns. -/
theorem checkWinBoardScan_total {b : Grid} {h w : Nat} (hs : Shape b h w) (p r c : Int) :
    ∀ (ds : List (Int × Int)), (∀ d ∈ ds, d ∈ directions) →
      ∃ res, checkWinBoardScan b r c p ds = some res := by
  intro ds
  induction ds with
  | nil => intro _; exact ⟨false, rfl⟩
  | cons d ds ih =>
    intro hds
    have hd := isStep_of_mem_directions (hds d (List.mem_cons_self _ _))
    obtain ⟨n1, h1, _⟩ := countDirectionBoard_total hs hd.1 p r c
    obtain ⟨n2, h2, _⟩ := countDirectionBoard_total hs hd.2 p r c
    unfold checkWinBoardScan
    simp only [h1, h2]
    by_cases hge : 1 + n1 + n2 ≥ 4
    · simp [hge]
    · simp only [hge, if_false]
      exact ih (fun d1 hd1 => hds d1 (List.mem_cons_of_mem _ hd1))

/-- The budget of a counting loop never runs out, whatever the board: along a step,
with a budget above the distance to the edge, the loop ends without a result only
when it reads a cell that does not exist (a row shorter than the top row). -/
theorem countLoop_none_is_fault (b : Grid) {dr dc : Int} (hd : IsStep dr dc) (p : Int) :
    ∀ (fuel : Nat) (r c : Int) (count : Nat), 1 ≤ fuel →
      (inBoard b (r + dr) (c + dc) →
        stepsLeft b.length (b.headD []).length dr dc (r + dr) (c + dc) < fuel) →
      countLoop b dr dc p fuel r c count = none →
      ∃ r1 c1, inBoard b r1 c1 ∧ cell b r1 c1 = none := by
  intro fuel
  induction fuel with
  | zero => intro r c count h1; omega
  | succ fuel ih =>
    intro r c count _ hdist hnone
    unfold countLoop at hnone
    by_cases hin : inBoard b (r + dr) (c + dc)
    · simp only [hin, not_true_eq_false, if_false] at hnone
      have hdist := hdist hin
      cases hv : cell b (r + dr) (c + dc) with
      | none => exact ⟨_, _, hin, hv⟩
      | some v =>
        simp only [hv] at hnone
        by_cases hvp : v = p
        · simp only [hvp, ne_eq, not_true_eq_false, if_false] at hnone
          have hin' := hin
          unfold inBoard at hin'
          have hpos : 1 ≤ stepsLeft b.length (b.headD []).length dr dc (r + dr) (c + dc) := by
            unfold stepsLeft; split_ifs <;> omega
          refine ih _ _ _ (by omega) ?_ hnone
          intro hin2
          unfold inBoard at hin2
          obtain ⟨h1, h2, h3⟩ := hd
          unfold stepsLeft at hdist ⊢
          split_ifs at hdist ⊢ <;> omega
        · simp [hvp] at hnone
    · simp [hin] at hnone

/-- The function `countDirectionBoard` along a step ends without a result only on
an index fault. -/
theorem countDirectionBoard_none_is_fault (b : Grid) {dr dc : Int} (hd : IsStep dr dc)
    (p r c : Int) (hnone : countDirectionBoard b r c dr dc p = none) :
    ∃ r1 c1, inBoard b r1 c1 ∧ cell b r1 c1 = none := by
  refine countLoop_none_is_fault b hd p (countBudget b) r c 0
    (by unfold countBudget; omega) ?_ hnone
  intro hin
  unfold inBoard at hin
  unfold countBudget stepsLeft
  split_ifs <;> push_cast <;> omega

theorem switchPlayer_fields (g : Game) :
    (switchPlayer g).Board = g.Board ∧ (switchPlayer g).Winner = g.Winner ∧
    (switchPlayer g).PlayerNames = g.PlayerNames ∧
    (switchPlayer g).PlayerBalls = g.PlayerBalls ∧ (switchPlayer g).Mode = g.Mode ∧
    (switchPlayer g).AIDifficulty = g.AIDifficulty ∧
    (switchPlayer g).CurrentPlayer = if g.CurrentPlayer = 1 then 2 else 1 := by
  unfold switchPlayer; split <;> simp_all

/-- What the landing block of `PlayMove` does when it returns. -/
theorem PlayMoveLand_spec {g g1 : Game} {row col : Int}
    (h : PlayMoveLand g row col = some g1) :
    ∃ b won, setCell g.Board row col g.CurrentPlayer = some b ∧
      checkWinBoardScan b row col g.CurrentPlayer directions = some won ∧
      g1.Board = b ∧
      g1.Winner = (if won = true then g.CurrentPlayer else g.Winner) ∧
      g1.CurrentPlayer = (if g.CurrentPlayer = 1 then 2 else 1) := by
  unfold PlayMoveLand at h
  cases hset : setCell g.Board row col g.CurrentPlayer with
  | none => simp [hset] at h
  | some b =>
    simp only [hset] at h
    cases hwin : checkWin { g with Board := b } row col with
    | none => simp [hwin] at h
    | some won =>
      simp only [hwin, Option.some.injEq] at h
      have hcell : cell b row col = some g.CurrentPlayer := by
        rw [cell_setCell hset]; simp
      unfold checkWin at hwin
      simp only [hcell, checkWinScan_eq] at hwin
      refine ⟨b, won, rfl, hwin, ?_⟩
      subst h
      have hf := switchPlayer_fields
        (if won = true then { g with Board := b, Winner := g.CurrentPlayer }
          else { g with Board := b })
      cases won <;> simp_all

/-- What the row loop of `PlayMove` does when it returns: either every cell of the
column below the start row is occupied and nothing changed, or the piece landed in
the lowest empty cell. -/
theorem PlayMoveLoop_spec (g : Game) (col : Int) :
    ∀ (n : Nat) (ok : Bool) (g1 : Game), PlayMoveLoop g col n = some (ok, g1) →
      (ok = false ∧ g1 = g ∧
        ∀ r : Nat, r < n → ∃ v, cell g.Board r col = some v ∧ v ≠ 0) ∨
      (ok = true ∧ ∃ r : Nat, r < n ∧ cell g.Board r col = some 0 ∧
        (∀ r1 : Nat, r < r1 → r1 < n → ∃ v, cell g.Board r1 col = some v ∧ v ≠ 0) ∧
        PlayMoveLand g r col = some g1) := by
  intro n
  induction n with
  | zero =>
    intro ok g1 h
    simp only [PlayMoveLoop, Option.some.injEq, Prod.mk.injEq] at h
    left; exact ⟨h.1.symm, h.2.symm, by intro r hr; omega⟩
  | succ n ih =>
    intro ok g1 h
    unfold PlayMoveLoop at h
    cases hc : cell g.Board n col with
    | none => simp [hc] at h
    | some v =>
      simp only [hc] at h
      by_cases hv : v = 0
      · subst hv
        simp only [if_true, Option.map_eq_some', Prod.mk.injEq] at h
        obtain ⟨g2, hland, hok, hg⟩ := h
        subst hg
        right
        exact ⟨hok.symm, n, by omega, hc, by intro r1 h1 h2; omega, hland⟩
      · simp only [hv, if_false] at h
        rcases ih ok g1 h with ⟨h1, h2, h3⟩ | ⟨h1, r, hr, hcell, hbelow, hland⟩
        · left
          refine ⟨h1, h2, ?_⟩
          intro r hr
          rcases Nat.lt_succ_iff_lt_or_eq.mp hr with hlt | heq
          · exact h3 r hlt
          · subst heq; exact ⟨v, hc, hv⟩
        · right
          refine ⟨h1, r, by omega, hcell, ?_, hland⟩
          intro r1 h1 h2
          rcases Nat.lt_succ_iff_lt_or_eq.mp h2 with hlt | heq
          · exact hbelow r1 h1 hlt
          · subst heq; exact ⟨v, hc, hv⟩

/-- On a rectangular board the landing block returns. -/
theorem PlayMoveLand_total {g : Game} {h w : Nat} (hs : Shape g.Board h w) {row col : Int}
    {x : Int} (hc : cell g.Board row col = some x) :
    ∃ g1, PlayMoveLand g row col = some g1 := by
  obtain ⟨b, hset⟩ := setCell_some_of_cell g.CurrentPlayer hc
  have hsb := setCell_shape hset hs
  obtain ⟨won, hwon⟩ := checkWinBoardScan_total hsb g.CurrentPlayer row col directions
    (fun d hd => hd)
  have hcell : cell b row col = some g.CurrentPlayer := by
    rw [cell_setCell hset]; simp
  unfold PlayMoveLand
  simp only [hset, checkWin, hcell, checkWinScan_eq, hwon]
  exact ⟨_, rfl⟩

/-- On a rectangular board the row loop returns for a column of the board. -/
theorem PlayMoveLoop_total {g : Game} {h w : Nat} (hs : Shape g.Board h w) {col : Int}
    (hc0 : 0 ≤ col) (hcw : col < w) :
    ∀ n : Nat, n ≤ h → ∃ res, PlayMoveLoop g col n = some res := by
  intro n
  induction n with
  | zero => intro _; exact ⟨_, rfl⟩
  | succ n ih =>
    intro hn
    obtain ⟨v, hv⟩ := cell_of_shape hs (r := (n : Int)) (by omega) (by omega) hc0 hcw
    unfold PlayMoveLoop
    simp only [hv]
    by_cases hz : v = 0
    · obtain ⟨g1, hg1⟩ := PlayMoveLand_total hs hv
      simp [hz, hg1]
    · simp only [hz, if_false]
      exact ih (by omega)

/-- On a rectangular board with at least one row `PlayMove` returns. -/
theorem PlayMove_total {g : Game} {h w : Nat} (hs : Shape g.Board h w) (hh : 0 < h)
    (col : Int) : ∃ res, PlayMove g col = some res := by
  unfold PlayMove
  by_cases hneg : col < 0
  · simp [hneg]
  · simp only [hneg, if_false, width_of_shape hs hh]
    by_cases hpre : col ≥ (w : Int) ∨ g.Winner ≠ 0
    · simp [hpre]
    · simp only [hpre, if_false]
      exact PlayMoveLoop_total hs (by omega) (by omega) _ (by rw [hs.1])

/-- The three ways in which a returning `PlayMove` call ends. -/
theorem PlayMove_cases {g g1 : Game} {col : Int} {ok : Bool}
    (h : PlayMove g col = some (ok, g1)) :
    (ok = false ∧ g1 = g ∧ (col < 0 ∨ (∃ w, width g.Board = some w ∧ (w : Int) ≤ col) ∨
        g.Winner ≠ 0)) ∨
    (0 ≤ col ∧ (∃ w, width g.Board = some w ∧ col < (w : Int)) ∧ g.Winner = 0 ∧
      PlayMoveLoop g col g.Board.length = some (ok, g1)) := by
  unfold PlayMove at h
  by_cases hneg : col < 0
  · simp only [hneg, if_true, Option.some.injEq, Prod.mk.injEq] at h
    left; exact ⟨h.1.symm, h.2.symm, Or.inl hneg⟩
  · simp only [hneg, if_false] at h
    cases hw : width g.Board with
    | none => simp [hw] at h
    | some w =>
      simp only [hw] at h
      by_cases hpre : col ≥ (w : Int) ∨ g.Winner ≠ 0
      · simp only [hpre, if_true, Option.some.injEq, Prod.mk.injEq] at h
        left
        refine ⟨h.1.symm, h.2.symm, ?_⟩
        rcases hpre with h1 | h1
        · exact Or.inr (Or.inl ⟨w, rfl, h1⟩)
        · exact Or.inr (Or.inr h1)
      · simp only [hpre, if_false] at h
        right
        refine ⟨by omega, ⟨w, rfl, by omega⟩, by tauto, h⟩

theorem width_headD {b : Grid} {w : Nat} (h : width b = some w) : (b.headD []).length = w := by
  cases b with
  | nil => simp [width] at h
  | cons row rest => simpa [width] using h

/-- An accepted move, unfolded: the landing row, the write, the win check and the
new fields. -/
theorem PlayMove_accept {g g1 : Game} {col : Int} (h : PlayMove g col = some (true, g1)) :
    ∃ (r : Nat) (won : Bool), r < g.Board.length ∧ 0 ≤ col ∧
      col < ((g.Board.headD []).length : Int) ∧ g.Winner = 0 ∧
      cell g.Board r col = some 0 ∧
      (∀ r1 : Nat, r < r1 → r1 < g.Board.length →
        ∃ v, cell g.Board r1 col = some v ∧ v ≠ 0) ∧
      setCell g.Board r col g.CurrentPlayer = some g1.Board ∧
      checkWinBoardScan g1.Board r col g.CurrentPlayer directions = some won ∧
      g1.Winner = (if won = true then g.CurrentPlayer else 0) ∧
      g1.CurrentPlayer = (if g.CurrentPlayer = 1 then 2 else 1) := by
  rcases PlayMove_cases h with ⟨h1, _, _⟩ | ⟨hc0, ⟨w, hw, hcw⟩, hwin, hloop⟩
  · exact absurd h1 (by decide)
  · rcases PlayMoveLoop_spec g col _ _ _ hloop with ⟨h1, _, _⟩ | ⟨_, r, hr, hcell, hbelow, hland⟩
    · exact absurd h1 (by decide)
    · obtain ⟨b, won, hset, hscan, hb, hwinner, hcp⟩ := PlayMoveLand_spec hland
      subst hb
      refine ⟨r, won, hr, hc0, ?_, hwin, hcell, hbelow, hset, hscan, ?_, hcp⟩
      · rw [width_headD hw]; exact hcw
      · rw [hwinner, hwin]

/-- A rejected move changes nothing. -/
theorem PlayMove_reject {g g1 : Game} {col : Int} (h : PlayMove g col = some (false, g1)) :
    g1 = g := by
  rcases PlayMove_cases h with ⟨_, h2, _⟩ | ⟨_, _, _, hloop⟩
  · exact h2
  · rcases PlayMoveLoop_spec g col _ _ _ hloop with ⟨_, h2, _⟩ | ⟨h1, _⟩
    · exact h2
    · exact absurd h1 (by decide)

theorem gravity_start : Gravity (List.replicate 6 (List.replicate 7 (0 : Int))) := by
  intro r c v hc hv
  exfalso
  have hs : Shape (List.replicate 6 (List.replicate 7 (0 : Int))) 6 7 := by decide
  have hn := cell_some_nonneg hc
  have h1 := cell_some_lt hc
  have h2 := cell_some_lt_width hs hc
  simp only [List.length_replicate] at h1
  obtain ⟨r, rfl⟩ := Int.eq_ofNat_of_zero_le hn.1
  obtain ⟨c, rfl⟩ := Int.eq_ofNat_of_zero_le hn.2
  have hr : r < 6 := by omega
  have hc' : c < 7 := by omega
  rw [cell_nat] at hc
  interval_cases r <;> interval_cases c <;> simp at hc <;> exact hv hc.symm

theorem inv_start (name1 name2 : String) : Inv (NewGameWithNames name1 name2) :=
  ⟨by show Shape (List.replicate 6 (List.replicate 7 (0 : Int))) 6 7; decide, Or.inl rfl,
    gravity_start⟩

theorem inv_move {g g1 : Game} {col : Int} {ok : Bool} (hinv : Inv g)
    (h : PlayMove g col = some (ok, g1)) : Inv g1 := by
  cases ok with
  | false => rw [PlayMove_reject h]; exact hinv
  | true =>
    obtain ⟨hs, hcp, hgrav⟩ := hinv
    obtain ⟨r, won, hr, hc0, hcw, hwin, hcell, hbelow, hset, hscan, hwinner, hcp1⟩ :=
      PlayMove_accept h
    refine ⟨setCell_shape hset hs, ?_, ?_⟩
    · rw [hcp1]; split <;> simp
    · have hne : g.CurrentPlayer ≠ 0 := by rcases hcp with e | e <;> rw [e] <;> decide
      intro r0 c0 v hv hv0 v1 hv1
      rw [cell_setCell hset] at hv hv1
      by_cases e1 : r0 + 1 = (r : Int) ∧ c0 = col
      · simp only [e1, and_self, if_true, Option.some.injEq] at hv1
        rw [← hv1]; exact hne
      · simp only [e1, if_false] at hv1
        by_cases e0 : r0 = (r : Int) ∧ c0 = col
        · obtain ⟨e01, e02⟩ := e0
          subst e02
          have hlt := cell_some_lt hv1
          obtain ⟨v2, hv2, hv2ne⟩ := hbelow (r + 1) (by omega) (by omega)
          have e3 : ((r + 1 : Nat) : Int) = r0 + 1 := by omega
          rw [e3, hv1] at hv2
          simp only [Option.some.injEq] at hv2
          rw [hv2]; exact hv2ne
        · simp only [e0, if_false] at hv
          exact hgrav r0 c0 v hv hv0 v1 hv1

theorem inv_of_reachable {g : Game} (h : Reachable g) : Inv g := by
  induction h with
  | start name1 name2 => exact inv_start name1 name2
  | move col _ hmove ih => exact inv_move ih hmove

/-- Under gravity a column with an occupied top cell is full. -/
theorem column_full_of_top {b : Grid} {h w : Nat} (hs : Shape b h w) (hgrav : Gravity b)
    {c v : Int} (htop : cell b 0 c = some v) (hv : v ≠ 0) :
    ∀ r : Nat, r < h → ∃ v1, cell b r c = some v1 ∧ v1 ≠ 0 := by
  intro r
  induction r with
  | zero => intro _; exact ⟨v, htop, hv⟩
  | succ r ih =>
    intro hr
    obtain ⟨v0, hv0, hv0ne⟩ := ih (by omega)
    have hcn := cell_some_nonneg htop
    have hcw := cell_some_lt_width hs htop
    obtain ⟨v1, hv1⟩ := cell_of_shape hs (r := ((r + 1 : Nat) : Int)) (by omega)
      (by omega) hcn.2 hcw
    refine ⟨v1, hv1, ?_⟩
    have e : ((r + 1 : Nat) : Int) = (r : Int) + 1 := by omega
    rw [e] at hv1
    exact hgrav r c v0 hv0 hv0ne v1 hv1

/-- Claim C1. In every state reachable from `NewGameWithNames` through `PlayMove`
calls, and for every integer `col`, the call `PlayMove(col)` returns without a
fault; it returns `false` exactly when `col < 0`, or `col >= 7`, or `Winner != 0`,
or the top cell `Board[0][col]` is not empty; and when it returns `false` the whole
game (board, current player, winner, names, tokens, mode, difficulty) is as it was. -/
theorem C1_PlayMove_rejects (g : Game) (hreach : Reachable g) (col : Int) :
    ∃ (ok : Bool) (g1 : Game), PlayMove g col = some (ok, g1) ∧
      (ok = false ↔ (col < 0 ∨ 7 ≤ col ∨ g.Winner ≠ 0 ∨
        ∃ v, cell g.Board 0 col = some v ∧ v ≠ 0)) ∧
      (ok = false → g1 = g) := by
  obtain ⟨hs, hcp, hgrav⟩ := inv_of_reachable hreach
  obtain ⟨⟨ok, g1⟩, hres⟩ := PlayMove_total hs (by decide) col
  refine ⟨ok, g1, hres, ?_, ?_⟩
  · have hw : width g.Board = some 7 := width_of_shape hs (by decide)
    constructor
    · intro hok
      subst hok
      rcases PlayMove_cases hres with ⟨_, _, h3⟩ | ⟨_, _, _, hloop⟩
      · rcases h3 with h3 | ⟨w, hw1, h3⟩ | h3
        · exact Or.inl h3
        · rw [hw] at hw1
          simp only [Option.some.injEq] at hw1
          subst hw1
          exact Or.inr (Or.inl (by exact_mod_cast h3))
        · exact Or.inr (Or.inr (Or.inl h3))
      · rcases PlayMoveLoop_spec g col _ _ _ hloop with ⟨_, _, hall⟩ | ⟨h1, _⟩
        · have := hall 0 (by rw [hs.1]; decide)
          exact Or.inr (Or.inr (Or.inr (by simpa using this)))
        · exact absurd h1 (by decide)
    · intro hcond
      cases ok with
      | false => rfl
      | true =>
        exfalso
        obtain ⟨r, won, hr, hc0, hcw, hwin, hcell, _⟩ := PlayMove_accept hres
        rw [headD_length_of_shape hs (by decide)] at hcw
        rcases hcond with h1 | h1 | h1 | ⟨v, hv, hvne⟩
        · omega
        · omega
        · exact h1 hwin
        · obtain ⟨v1, hv1, hv1ne⟩ := column_full_of_top hs hgrav hv hvne r
            (by rw [← hs.1]; exact hr)
          rw [hcell] at hv1
          simp only [Option.some.injEq] at hv1
          exact hv1ne hv1.symm
  · intro hok
    subst hok
    exact PlayMove_reject hres

/-- The statement of C1 at the fresh game and column 3. -/
theorem C1_PlayMove_rejects_witness :
    ∃ (ok : Bool) (g1 : Game), PlayMove NewGame 3 = some (ok, g1) ∧
      (ok = false ↔ ((3 : Int) < 0 ∨ (7 : Int) ≤ 3 ∨ NewGame.Winner ≠ 0 ∨
        ∃ v, cell NewGame.Board 0 3 = some v ∧ v ≠ 0)) ∧
      (ok = false → g1 = NewGame) :=
  C1_PlayMove_rejects NewGame (Reachable.start "Joueur 1" "Joueur 2") 3

/-- What an accepted `PlayMove` does to a 6x7 board when `CurrentPlayer` is not 0. -/
theorem playMove_lands (g g1 : Game) (col : Int) (hs : Shape g.Board 6 7)
    (hcp : g.CurrentPlayer ≠ 0) (h : PlayMove g col = some (true, g1)) :
    ∃ r : Int, 0 ≤ r ∧ r < 6 ∧ 0 ≤ col ∧ col < 7 ∧
      cell g.Board r col = some 0 ∧
      (∀ r1 : Int, r < r1 → r1 < 6 → ∃ v, cell g.Board r1 col = some v ∧ v ≠ 0) ∧
      cell g1.Board r col = some g.CurrentPlayer ∧
      cell g1.Board r col ≠ cell g.Board r col ∧
      (∀ r1 c1 : Int, ¬ (r1 = r ∧ c1 = col) → cell g1.Board r1 c1 = cell g.Board r1 c1) ∧
      Shape g1.Board 6 7 := by
  obtain ⟨r, won, hr, hc0, hcw, hwin, hcell, hbelow, hset, hscan, hwinner, hcp1⟩ :=
    PlayMove_accept h
  rw [headD_length_of_shape hs (by decide)] at hcw
  rw [hs.1] at hr hbelow
  have hnew : cell g1.Board r col = some g.CurrentPlayer := by
    rw [cell_setCell hset]; simp
  refine ⟨r, by omega, by omega, hc0, by exact_mod_cast hcw, hcell, ?_, hnew, ?_, ?_,
    setCell_shape hset hs⟩
  · intro r1 h1 h2
    obtain ⟨n, rfl⟩ := Int.eq_ofNat_of_zero_le (by omega : 0 ≤ r1)
    exact hbelow n (by omega) (by omega)
  · rw [hnew, hcell]
    intro hx
    simp only [Option.some.injEq] at hx
    exact hcp hx
  · intro r1 c1 hne
    rw [cell_setCell hset]; simp [hne]

/-- Claim C2. For every game state with a 6x7 board, that is, every state `g0`
reached from `NewGameWithNames` through `PlayMove` calls, whatever names, tokens,
mode and difficulty were assigned to it since (`g` has the board and the current
player of `g0`), and every `col` for which `PlayMove(col)` returns `true`: the
board after the call differs from the board before it in exactly one cell
`(r, col)`, where `r` is the largest row index whose cell in column `col` was
empty; that cell now holds the former `CurrentPlayer`, which is 1 or 2, and every
other cell is unchanged. -/
theorem C2_PlayMove_lands (g0 g g1 : Game) (col : Int) (hreach : Reachable g0)
    (hboard : g.Board = g0.Board) (hplayer : g.CurrentPlayer = g0.CurrentPlayer)
    (h : PlayMove g col = some (true, g1)) :
    Shape g.Board 6 7 ∧ (g.CurrentPlayer = 1 ∨ g.CurrentPlayer = 2) ∧
    ∃ r : Int, 0 ≤ r ∧ r < 6 ∧ 0 ≤ col ∧ col < 7 ∧
      cell g.Board r col = some 0 ∧
      (∀ r1 : Int, r < r1 → r1 < 6 → ∃ v, cell g.Board r1 col = some v ∧ v ≠ 0) ∧
      cell g1.Board r col = some g.CurrentPlayer ∧
      cell g1.Board r col ≠ cell g.Board r col ∧
      (∀ r1 c1 : Int, ¬ (r1 = r ∧ c1 = col) → cell g1.Board r1 c1 = cell g.Board r1 c1) ∧
      Shape g1.Board 6 7 := by
  obtain ⟨hs, hcp, _⟩ := inv_of_reachable hreach
  rw [← hboard] at hs
  rw [← hplayer] at hcp
  refine ⟨hs, hcp, playMove_lands g g1 col hs ?_ h⟩
  rcases hcp with e | e <;> rw [e] <;> decide

/-- The statement of C2 at the fresh game with the mode and the difficulty set, and
column 3. -/
theorem C2_PlayMove_lands_witness :
    Shape soloGame.Board 6 7 ∧ (soloGame.CurrentPlayer = 1 ∨ soloGame.CurrentPlayer = 2) ∧
    ∃ r : Int, 0 ≤ r ∧ r < 6 ∧ (0 : Int) ≤ 3 ∧ (3 : Int) < 7 ∧
      cell soloGame.Board r 3 = some 0 ∧
      (∀ r1 : Int, r < r1 → r1 < 6 → ∃ v, cell soloGame.Board r1 3 = some v ∧ v ≠ 0) ∧
      cell ((PlayMove soloGame 3).get (by decide)).2.Board r 3
        = some soloGame.CurrentPlayer ∧
      cell ((PlayMove soloGame 3).get (by decide)).2.Board r 3 ≠ cell soloGame.Board r 3 ∧
      (∀ r1 c1 : Int, ¬ (r1 = r ∧ c1 = 3) →
        cell ((PlayMove soloGame 3).get (by decide)).2.Board r1 c1
          = cell soloGame.Board r1 c1) ∧
      Shape ((PlayMove soloGame 3).get (by decide)).2.Board 6 7 :=
  C2_PlayMove_lands NewGame soloGame ((PlayMove soloGame 3).get (by decide)).2 3
    (Reachable.start "Joueur 1" "Joueur 2") (by decide) (by decide) (by decide)

/-- Claim C3. For every game with `Winner = 0` and `CurrentPlayer = p` in {1, 2}, and
every `col` that `PlayMove` accepts: with `r` the row where the piece landed, after
the call `Winner = p` if the landing cell lies on a horizontal, vertical or diagonal
line of at least four contiguous cells owned by `p`, and `Winner = 0` otherwise; it
is never the other player. From `NewGame`, the moves 3,4,3,4,3,4,3 leave
`Winner = 1`. -/
theorem C3_winner_after_move :
    (∀ (g g1 : Game) (col p : Int), g.Winner = 0 → g.CurrentPlayer = p → (p = 1 ∨ p = 2) →
      PlayMove g col = some (true, g1) →
      ∃ r : Int, cell g.Board r col = some 0 ∧
        (∀ r1 : Int, r < r1 → r1 < g.Board.length →
          ∃ v, cell g.Board r1 col = some v ∧ v ≠ 0) ∧
        cell g1.Board r col = some p ∧
        (OnLine g1.Board p r col → g1.Winner = p) ∧
        (¬ OnLine g1.Board p r col → g1.Winner = 0) ∧
        g1.Winner ≠ 3 - p) ∧
    (playAll NewGame [3, 4, 3, 4, 3, 4, 3]).map (fun g => g.Winner) = some 1 := by
  refine ⟨?_, by decide⟩
  intro g g1 col p hw hp hp12 h
  obtain ⟨r, won, hr, hc0, hcw, hwin, hcell, hbelow, hset, hscan, hwinner, hcp1⟩ :=
    PlayMove_accept h
  rw [hp] at hset hscan hwinner
  have hnew : cell g1.Board r col = some p := by
    rw [cell_setCell hset]; simp
  have hown : owned g1.Board p r col := by
    refine ⟨?_, hnew⟩
    rw [inBoard_setCell hset]
    exact ⟨by omega, by exact_mod_cast hr, hc0, hcw⟩
  have hiff := checkWinBoardScan_spec hown directions won hscan
  refine ⟨r, hcell, ?_, hnew, ?_, ?_, ?_⟩
  · intro r1 h1 h2
    obtain ⟨n, rfl⟩ := Int.eq_ofNat_of_zero_le (by omega : 0 ≤ r1)
    exact hbelow n (by omega) (by omega)
  · intro hline
    have : won = true := hiff.mpr hline
    rw [hwinner, this]; simp
  · intro hline
    have : won = false := by
      cases won with
      | false => rfl
      | true => exact absurd (hiff.mp rfl) hline
    rw [hwinner, this]; simp
  · rw [hwinner]
    rcases hp12 with e | e <;> subst e <;> cases won <;> simp

/-- The statement of C3 at the fresh game and column 3. -/
theorem C3_winner_after_move_witness :
    ∃ r : Int, cell NewGame.Board r 3 = some 0 ∧
      (∀ r1 : Int, r < r1 → r1 < NewGame.Board.length →
        ∃ v, cell NewGame.Board r1 3 = some v ∧ v ≠ 0) ∧
      cell ((PlayMove NewGame 3).get (by decide)).2.Board r 3 = some 1 ∧
      (OnLine ((PlayMove NewGame 3).get (by decide)).2.Board 1 r 3 →
        ((PlayMove NewGame 3).get (by decide)).2.Winner = 1) ∧
      (¬ OnLine ((PlayMove NewGame 3).get (by decide)).2.Board 1 r 3 →
        ((PlayMove NewGame 3).get (by decide)).2.Winner = 0) ∧
      ((PlayMove NewGame 3).get (by decide)).2.Winner ≠ 3 - 1 :=
  C3_winner_after_move.1 NewGame ((PlayMove NewGame 3).get (by decide)).2 3 1 (by decide)
    (by decide) (by decide) (by decide)

/-- A maximal run through an owned cell is the pair of the runs ahead and behind. -/
theorem isMaxRun_iff {b : Grid} {p r c : Int} {d : Int × Int} {a k : Nat}
    (hown : owned b p r c) :
    IsMaxRun b p r c d a k ↔ runFrom b p r c d.1 d.2 k ∧ runFrom b p r c (-d.1) (-d.2) a := by
  have e1 : r + ((k + 1 : Nat) : Int) * d.1 = r + ((k : Int) + 1) * d.1 := by push_cast; ring
  have e2 : c + ((k + 1 : Nat) : Int) * d.2 = c + ((k : Int) + 1) * d.2 := by push_cast; ring
  have e3 : r + ((a + 1 : Nat) : Int) * -d.1 = r - ((a : Int) + 1) * d.1 := by push_cast; ring
  have e4 : c + ((a + 1 : Nat) : Int) * -d.2 = c - ((a : Int) + 1) * d.2 := by push_cast; ring
  constructor
  · rintro ⟨hseg, hk, ha⟩
    refine ⟨⟨?_, by rw [e1, e2]; exact hk⟩, ⟨?_, by rw [e3, e4]; exact ha⟩⟩
    · intro i h1 h2
      exact hseg i (by omega) (by omega)
    · intro i h1 h2
      have := hseg (-(i : Int)) (by omega) (by omega)
      have f1 : r + (i : Int) * -d.1 = r + -(i : Int) * d.1 := by ring
      have f2 : c + (i : Int) * -d.2 = c + -(i : Int) * d.2 := by ring
      rw [f1, f2]; exact this
  · rintro ⟨⟨hk1, hk2⟩, ⟨ha1, ha2⟩⟩
    refine ⟨?_, by rw [← e1, ← e2]; exact hk2, by rw [← e3, ← e4]; exact ha2⟩
    intro i hlo hhi
    rcases lt_trichotomy i 0 with hneg | hz | hpos
    · obtain ⟨j, hj⟩ : ∃ j : Nat, i = -(j : Int) := ⟨(-i).toNat, by omega⟩
      subst hj
      have := ha1 j (by omega) (by omega)
      have f1 : r + -(j : Int) * d.1 = r + (j : Int) * -d.1 := by ring
      have f2 : c + -(j : Int) * d.2 = c + (j : Int) * -d.2 := by ring
      rw [f1, f2]; exact this
    · subst hz; simpa using hown
    · obtain ⟨j, hj⟩ : ∃ j : Nat, i = (j : Int) := ⟨i.toNat, by omega⟩
      subst hj
      exact hk1 j (by omega) (by omega)

/-- On a rectangular board, `checkWinBoard` from a cell that holds `p` returns, and
returns `true` exactly when the cell lies on a line of four of `p`. -/
theorem checkWinBoard_onLine {b : Grid} {h w : Nat} (hs : Shape b h w) {p r c : Int}
    (hcell : cell b r c = some p) :
    ∃ res, checkWinBoard b r c p = some res ∧ (res = true ↔ OnLine b p r c) := by
  have hn := cell_some_nonneg hcell
  have hown : owned b p r c :=
    ⟨(inBoard_of_shape hs r c).mpr ⟨hn.1, by have := cell_some_lt hcell; rw [hs.1] at this; exact this,
      hn.2, cell_some_lt_width hs hcell⟩, hcell⟩
  obtain ⟨res, hres⟩ := checkWinBoardScan_total hs p r c directions (fun d hd => hd)
  refine ⟨res, ?_, checkWinBoardScan_spec hown directions res hres⟩
  unfold checkWinBoard
  have : ¬ (r < 0 ∨ c < 0) := by omega
  simp only [this, if_false, hres]

/-- Claim C4. For every 6x7 board and every cell `(r, c)` of it that holds `P` (a
player, 1 or 2, or any other value): `checkWinBoard(board, r, c, P)` returns, and returns `true` if and
only if on at least one of the four axes the maximal contiguous run of cells owned
by `P` through `(r, c)` has length at least 4; `checkWin(r, c)` on a game with this
board returns the same; the result is `false` when no axis has a run longer than 3;
and on every axis the two counts are the extents of the maximal run: counting stops
at the board edge or at the first cell not owned by `P`. -/
theorem C4_checkWin_runs (b : Grid) (r c P : Int) (hs : Shape b 6 7)
    (hcell : cell b r c = some P) :
    (∃ res, checkWinBoard b r c P = some res ∧
      (res = true ↔ ∃ d ∈ directions, ∃ a k, IsMaxRun b P r c d a k ∧ 4 ≤ a + k + 1)) ∧
    (∀ g : Game, g.Board = b → checkWin g r c = checkWinBoard b r c P) ∧
    ((∀ d ∈ directions, ∀ a k, IsMaxRun b P r c d a k → a + k + 1 ≤ 3) →
      checkWinBoard b r c P = some false) ∧
    (∀ d ∈ directions, ∃ a k, IsMaxRun b P r c d a k ∧
      countDirectionBoard b r c d.1 d.2 P = some k ∧
      countDirectionBoard b r c (-d.1) (-d.2) P = some a) := by
  have hn := cell_some_nonneg hcell
  have hown : owned b P r c :=
    ⟨(inBoard_of_shape hs r c).mpr ⟨hn.1, by have := cell_some_lt hcell; rw [hs.1] at this; exact this,
      hn.2, cell_some_lt_width hs hcell⟩, hcell⟩
  have hruns : ∀ d ∈ directions, ∃ a k, IsMaxRun b P r c d a k ∧
      countDirectionBoard b r c d.1 d.2 P = some k ∧
      countDirectionBoard b r c (-d.1) (-d.2) P = some a := by
    intro d hd
    have hstep := isStep_of_mem_directions hd
    obtain ⟨k, hk, hrk⟩ := countDirectionBoard_total hs hstep.1 P r c
    obtain ⟨a, ha, hra⟩ := countDirectionBoard_total hs hstep.2 P r c
    exact ⟨a, k, (isMaxRun_iff hown).mpr ⟨hrk, hra⟩, hk, ha⟩
  have hline : OnLine b P r c ↔
      ∃ d ∈ directions, ∃ a k, IsMaxRun b P r c d a k ∧ 4 ≤ a + k + 1 := by
    constructor
    · rintro ⟨d, hd, hl⟩
      obtain ⟨a, k, hmax, _, _⟩ := hruns d hd
      have hr := (isMaxRun_iff hown).mp hmax
      have := (lineAlong_iff_count hown hr.1 hr.2).mp hl
      exact ⟨d, hd, a, k, hmax, by omega⟩
    · rintro ⟨d, hd, a, k, hmax, hlen⟩
      exact ⟨d, hd, a, k, hlen, hmax.1⟩
  obtain ⟨res, hres, hiff⟩ := checkWinBoard_onLine hs hcell
  refine ⟨⟨res, hres, hiff.trans hline⟩, ?_, ?_, hruns⟩
  · intro g hg
    subst hg
    unfold checkWin checkWinBoard
    have : ¬ (r < 0 ∨ c < 0) := by omega
    simp only [hcell, checkWinScan_eq, this, if_false]
  · intro hshort
    cases res with
    | false => exact hres
    | true =>
      obtain ⟨d, hd, a, k, hmax, hlen⟩ := (hiff.trans hline).mp rfl
      have := hshort d hd a k hmax
      omega

/-- The statement of C4 at the middle piece of a run of exactly three. -/
theorem C4_checkWin_runs_witness :
    (∃ res, checkWinBoard threeInRow 5 1 1 = some res ∧
      (res = true ↔
        ∃ d ∈ directions, ∃ a k, IsMaxRun threeInRow 1 5 1 d a k ∧ 4 ≤ a + k + 1)) ∧
    (∀ g : Game, g.Board = threeInRow → checkWin g 5 1 = checkWinBoard threeInRow 5 1 1) ∧
    ((∀ d ∈ directions, ∀ a k, IsMaxRun threeInRow 1 5 1 d a k → a + k + 1 ≤ 3) →
      checkWinBoard threeInRow 5 1 1 = some false) ∧
    (∀ d ∈ directions, ∃ a k, IsMaxRun threeInRow 1 5 1 d a k ∧
      countDirectionBoard threeInRow 5 1 d.1 d.2 1 = some k ∧
      countDirectionBoard threeInRow 5 1 (-d.1) (-d.2) 1 = some a) :=
  C4_checkWin_runs threeInRow 5 1 1 (by decide) (by decide)

/-- Claim C5. For every game with `CurrentPlayer` in {1, 2} and every `col`: if
`PlayMove(col)` returns `true` then `CurrentPlayer` afterwards is the other player
(1 becomes 2, 2 becomes 1), whether or not the move set `Winner`; if it returns
`false` then `CurrentPlayer` is unchanged. On a 6x7 board the call always returns. -/
theorem C5_player_alternates (g : Game) (col : Int)
    (hcp : g.CurrentPlayer = 1 ∨ g.CurrentPlayer = 2) :
    (Shape g.Board 6 7 → ∃ ok g1, PlayMove g col = some (ok, g1)) ∧
    (∀ g1, PlayMove g col = some (true, g1) →
      g1.CurrentPlayer = 3 - g.CurrentPlayer ∧ g1.CurrentPlayer ≠ g.CurrentPlayer ∧
      (g1.CurrentPlayer = 1 ∨ g1.CurrentPlayer = 2)) ∧
    (∀ g1, PlayMove g col = some (false, g1) → g1.CurrentPlayer = g.CurrentPlayer) := by
  refine ⟨?_, ?_, ?_⟩
  · intro hs
    obtain ⟨⟨ok, g1⟩, h⟩ := PlayMove_total hs (by decide) col
    exact ⟨ok, g1, h⟩
  · intro g1 h
    obtain ⟨r, won, _, _, _, _, _, _, _, _, _, hcp1⟩ := PlayMove_accept h
    rw [hcp1]
    rcases hcp with e | e <;> rw [e] <;> decide
  · intro g1 h
    rw [PlayMove_reject h]

/-- The statement of C5 at the fresh game and column 3. -/
theorem C5_player_alternates_witness :
    (Shape NewGame.Board 6 7 → ∃ ok g1, PlayMove NewGame 3 = some (ok, g1)) ∧
    (∀ g1, PlayMove NewGame 3 = some (true, g1) →
      g1.CurrentPlayer = 3 - NewGame.CurrentPlayer ∧
      g1.CurrentPlayer ≠ NewGame.CurrentPlayer ∧
      (g1.CurrentPlayer = 1 ∨ g1.CurrentPlayer = 2)) ∧
    (∀ g1, PlayMove NewGame 3 = some (false, g1) →
      g1.CurrentPlayer = NewGame.CurrentPlayer) :=
  C5_player_alternates NewGame 3 (by decide)

theorem cell_top (row0 : List Int) (rest : Grid) (c : Int) :
    cell (row0 :: rest) 0 c = if c < 0 then none else row0[c.toNat]? := by
  simp [cell, rowAt]

theorem mem_emptyTops (row0 : List Int) (c : Int) :
    c ∈ emptyTops row0 ↔ 0 ≤ c ∧ row0[c.toNat]? = some 0 := by
  unfold emptyTops
  simp only [List.mem_map, List.mem_filter, List.mem_range, decide_eq_true_eq]
  constructor
  · rintro ⟨n, ⟨_, hn⟩, rfl⟩
    exact ⟨Int.ofNat_nonneg n, by simpa using hn⟩
  · rintro ⟨h0, hc⟩
    exact ⟨c.toNat, ⟨(List.getElem?_eq_some_iff.mp hc).1, hc⟩, Int.toNat_of_nonneg h0⟩

theorem emptyTops_pairwise (row0 : List Int) : (emptyTops row0).Pairwise (· < ·) := by
  unfold emptyTops
  refine List.Pairwise.map _ (fun a b hab => ?_)
    (List.Pairwise.filter _ (List.pairwise_lt_range _))
  exact Int.ofNat_lt.mpr hab

/-- The legal columns of a board with a top row: members, order and emptiness. -/
theorem mem_emptyTops_iff_cell (row0 : List Int) (rest : Grid) (c : Int) :
    c ∈ emptyTops row0 ↔ cell (row0 :: rest) 0 c = some 0 := by
  rw [mem_emptyTops, cell_top]
  by_cases hc : c < 0
  · simp only [hc, if_true]
    constructor
    · intro h; omega
    · intro h; simp at h
  · simp only [hc, if_false]
    constructor
    · exact fun h => h.2
    · exact fun h => ⟨by omega, h⟩

/-- Claim C6. For every game with a 6x7 board, `ValidMoves` returns exactly the column
indices `c` in 0..6 with `Board[0][c] = 0`, each once, in strictly increasing order;
the list is empty if and only if every cell of the top row is occupied; and it is
the same list whatever `Winner` is. -/
theorem C6_ValidMoves (g : Game) (hs : Shape g.Board 6 7) :
    ∃ moves, ValidMoves g = some moves ∧
      (∀ c : Int, c ∈ moves ↔ (0 ≤ c ∧ c < 7 ∧ cell g.Board 0 c = some 0)) ∧
      moves.Pairwise (· < ·) ∧ moves.Nodup ∧
      (moves = [] ↔ ∀ c : Int, 0 ≤ c → c < 7 → ∃ v, cell g.Board 0 c = some v ∧ v ≠ 0) ∧
      (∀ w : Int, ValidMoves { g with Winner := w } = some moves) := by
  cases hb : g.Board with
  | nil => rw [hb] at hs; exact absurd hs.1 (by decide)
  | cons row0 rest =>
    rw [hb] at hs
    have hmem : ∀ c : Int, c ∈ emptyTops row0 ↔
        (0 ≤ c ∧ c < 7 ∧ cell (row0 :: rest) 0 c = some 0) := by
      intro c
      rw [mem_emptyTops_iff_cell row0 rest]
      constructor
      · intro h
        exact ⟨(cell_some_nonneg h).2, by exact_mod_cast cell_some_lt_width hs h, h⟩
      · exact fun h => h.2.2
    have hpw := emptyTops_pairwise row0
    refine ⟨emptyTops row0, by simp [ValidMoves, hb], hmem, hpw, ?_, ?_, ?_⟩
    · exact hpw.imp (fun h => ne_of_lt h)
    · rw [List.eq_nil_iff_forall_not_mem]
      constructor
      · intro hnone c h0 h7
        obtain ⟨v, hv⟩ := cell_of_shape hs (r := 0) (c := c) (by decide) (by decide) h0
          (by exact_mod_cast h7)
        refine ⟨v, hv, ?_⟩
        intro hv0
        subst hv0
        exact hnone c ((hmem c).mpr ⟨h0, h7, hv⟩)
      · intro hall c hc
        obtain ⟨h0, h7, hcell⟩ := (hmem c).mp hc
        obtain ⟨v, hv, hvne⟩ := hall c h0 h7
        rw [hcell] at hv
        simp only [Option.some.injEq] at hv
        exact hvne hv.symm
    · intro w
      simp [ValidMoves, hb]

/-- The statement of C6 at a game whose board has two open columns. -/
theorem C6_ValidMoves_witness :
    ∃ moves, ValidMoves { NewGame with Board := twoOpen } = some moves ∧
      (∀ c : Int, c ∈ moves ↔ (0 ≤ c ∧ c < 7 ∧ cell twoOpen 0 c = some 0)) ∧
      moves.Pairwise (· < ·) ∧ moves.Nodup ∧
      (moves = [] ↔ ∀ c : Int, 0 ≤ c → c < 7 → ∃ v, cell twoOpen 0 c = some v ∧ v ≠ 0) ∧
      (∀ w : Int, ValidMoves { { NewGame with Board := twoOpen } with Winner := w }
        = some moves) :=
  C6_ValidMoves { NewGame with Board := twoOpen } (by decide)

theorem copyRow_of_length {w : Nat} {row : List Int} (h : row.length = w) :
    copyRow w row = row := by
  unfold copyRow
  rw [← h]; simp

/-- Copying a rectangular board gives an equal board. -/
theorem copyGrid_of_shape {b : Grid} {h w : Nat} (hs : Shape b h w) (hh : 0 < h) :
    copyGrid b = some b := by
  have : b.map (copyRow w) = b.map id :=
    List.map_congr_left (fun row hrow => copyRow_of_length (hs.2 row hrow))
  simp only [copyGrid, width_of_shape hs hh, this, List.map_id]

/-- What the row loop of `dropPiece` does when it returns. -/
theorem dropPieceLoop_spec (b : Grid) (col p : Int) :
    ∀ (n : Nat) (b1 : Grid) (r : Int) (ok : Bool),
      dropPieceLoop b col p n = some (b1, r, ok) →
      (ok = false ∧ b1 = b ∧ r = -1 ∧
        ∀ r1 : Nat, r1 < n → ∃ v, cell b r1 col = some v ∧ v ≠ 0) ∨
      (ok = true ∧ ∃ rn : Nat, r = rn ∧ rn < n ∧ cell b rn col = some 0 ∧
        (∀ r1 : Nat, rn < r1 → r1 < n → ∃ v, cell b r1 col = some v ∧ v ≠ 0) ∧
        setCell b rn col p = some b1) := by
  intro n
  induction n with
  | zero =>
    intro b1 r ok h
    simp only [dropPieceLoop, Option.some.injEq, Prod.mk.injEq] at h
    left; exact ⟨h.2.2.symm, h.1.symm, h.2.1.symm, by intro r1 hr; omega⟩
  | succ n ih =>
    intro b1 r ok h
    unfold dropPieceLoop at h
    cases hc : cell b n col with
    | none => simp [hc] at h
    | some v =>
      simp only [hc] at h
      by_cases hv : v = 0
      · subst hv
        simp only [if_true, Option.map_eq_some', Prod.mk.injEq] at h
        obtain ⟨b2, hset, hb, hr, hok⟩ := h
        subst hb
        right
        exact ⟨hok.symm, n, hr.symm, by omega, hc, by intro r1 h1 h2; omega, hset⟩
      · simp only [hv, if_false] at h
        rcases ih b1 r ok h with ⟨h1, h2, h3, h4⟩ | ⟨h1, rn, hrn, hlt, hcell, hbelow, hset⟩
        · left
          refine ⟨h1, h2, h3, ?_⟩
          intro r1 hr1
          rcases Nat.lt_succ_iff_lt_or_eq.mp hr1 with hlt | heq
          · exact h4 r1 hlt
          · subst heq; exact ⟨v, hc, hv⟩
        · right
          refine ⟨h1, rn, hrn, by omega, hcell, ?_, hset⟩
          intro r1 h1 h2
          rcases Nat.lt_succ_iff_lt_or_eq.mp h2 with hlt | heq
          · exact hbelow r1 h1 hlt
          · subst heq; exact ⟨v, hc, hv⟩

/-- On a rectangular board the row loop of `dropPiece` returns for a column of the
board. -/
theorem dropPieceLoop_total {b : Grid} {h w : Nat} (hs : Shape b h w) {col : Int}
    (hc0 : 0 ≤ col) (hcw : col < w) (p : Int) :
    ∀ n : Nat, n ≤ h → ∃ res, dropPieceLoop b col p n = some res := by
  intro n
  induction n with
  | zero => intro _; exact ⟨_, rfl⟩
  | succ n ih =>
    intro hn
    obtain ⟨v, hv⟩ := cell_of_shape hs (r := (n : Int)) (by omega) (by omega) hc0 hcw
    unfold dropPieceLoop
    simp only [hv]
    by_cases hz : v = 0
    · obtain ⟨b1, hb1⟩ := setCell_some_of_cell p hv
      simp [hz, hb1]
    · simp only [hz, if_false]
      exact ih (by omega)

/-- `dropPiece` on a rectangular board, in a column of the board: it returns, the
board keeps its shape, and the piece lands when the top cell is empty. -/
theorem dropPiece_of_shape {b : Grid} {h w : Nat} (hs : Shape b h w) {col : Int}
    (hc0 : 0 ≤ col) (hcw : col < w) (p : Int) :
    ∃ b1 r ok, dropPiece b col p = some (b1, r, ok) ∧ Shape b1 h w ∧
      (cell b 0 col = some 0 → ok = true) := by
  obtain ⟨⟨b1, r, ok⟩, hres⟩ := dropPieceLoop_total hs hc0 hcw p b.length (by rw [hs.1])
  refine ⟨b1, r, ok, hres, ?_, ?_⟩
  · rcases dropPieceLoop_spec b col p _ _ _ _ hres with ⟨_, h2, _⟩ | ⟨_, rn, _, _, _, _, hset⟩
    · rw [h2]; exact hs
    · exact setCell_shape hset hs
  · intro htop
    rcases dropPieceLoop_spec b col p _ _ _ _ hres with ⟨_, _, _, hall⟩ | ⟨h1, _⟩
    · have hlt := cell_some_lt htop
      obtain ⟨v, hv, hvne⟩ := hall 0 (by omega)
      simp only [Nat.cast_zero] at hv
      rw [htop] at hv
      simp only [Option.some.injEq] at hv
      exact absurd hv.symm hvne
    · exact h1

/-- On a rectangular board `checkWinBoard` returns, whatever the cell. -/
theorem checkWinBoard_total {b : Grid} {h w : Nat} (hs : Shape b h w) (r c p : Int) :
    ∃ res, checkWinBoard b r c p = some res := by
  unfold checkWinBoard
  by_cases hneg : r < 0 ∨ c < 0
  · simp [hneg]
  · simp only [hneg, if_false]
    exact checkWinBoardScan_total hs p r c directions (fun d hd => hd)

/-- A fold in `Option` returns when every step does. -/
theorem foldlM_total {α β : Type} (f : β → α → Option β) (l : List α)
    (hf : ∀ s a, a ∈ l → ∃ s1, f s a = some s1) : ∀ s, ∃ s1, l.foldlM f s = some s1 := by
  induction l with
  | nil => intro s; exact ⟨s, rfl⟩
  | cons a l ih =>
    intro s
    obtain ⟨s1, h1⟩ := hf s a (List.mem_cons_self _ _)
    obtain ⟨s2, h2⟩ := ih (fun s a ha => hf s a (List.mem_cons_of_mem _ ha)) s1
    exact ⟨s2, by simp [List.foldlM_cons, h1, h2]⟩

theorem windowLoop_total {b : Grid} {h w : Nat} (hs : Shape b h w) (d : Int × Int) :
    ∀ (k : Nat) (rr cc cnt1 cnt2 empty : Int),
      ∃ res, windowLoop b d k rr cc cnt1 cnt2 empty = some res := by
  intro k
  induction k with
  | zero => intro rr cc cnt1 cnt2 empty; exact ⟨_, rfl⟩
  | succ k ih =>
    intro rr cc cnt1 cnt2 empty
    unfold windowLoop
    by_cases hin : inBoard b rr cc
    · simp only [hin, not_true_eq_false, if_false]
      have hin' := (inBoard_of_shape hs _ _).mp hin
      obtain ⟨v, hv⟩ := cell_of_shape hs hin'.1 hin'.2.1 hin'.2.2.1 hin'.2.2.2
      simp only [hv]
      split_ifs <;> exact ih _ _ _ _ _
    · simp [hin]

theorem evalWindow_total {b : Grid} {h w : Nat} (hs : Shape b h w) (r c score : Int)
    (d : Int × Int) : ∃ s1, evalWindow b r c score d = some s1 := by
  obtain ⟨⟨cnt1, cnt2, empty⟩, hres⟩ := windowLoop_total hs d 4 r c 0 0 0
  unfold evalWindow
  simp only [hres]
  split_ifs <;> exact ⟨_, rfl⟩

/-- On a rectangular board with a row `evaluateBoard` returns. -/
theorem evaluateBoard_total {b : Grid} {h w : Nat} (hs : Shape b h w) (hh : 0 < h) :
    ∃ s, evaluateBoard b = some s := by
  unfold evaluateBoard
  simp only [width_of_shape hs hh]
  apply foldlM_total
  intro s r _
  apply foldlM_total
  intro s c _
  apply foldlM_total
  intro s d _
  exact evalWindow_total hs _ _ s d

/-- On a rectangular board the scan for an immediate win returns, and a column it
returns is one of the columns it was given, with score `1000000` or `-1000000`. -/
theorem immediateScan_total {b : Grid} {h w : Nat} (hs : Shape b h w) (hh : 0 < h) :
    ∀ cs : List Int, (∀ c ∈ cs, 0 ≤ c ∧ c < (w : Int)) →
      ∃ res, immediateScan b cs = some res ∧
        ∀ s c, res = some (s, c) → c ∈ cs ∧ (s = 1000000 ∨ s = -1000000) := by
  intro cs
  induction cs with
  | nil => intro _; exact ⟨none, rfl, by intro s c hx; simp at hx⟩
  | cons c cs ih =>
    intro hcs
    have hc := hcs c (List.mem_cons_self _ _)
    obtain ⟨res, hres, hmem⟩ := ih (fun c1 h1 => hcs c1 (List.mem_cons_of_mem _ h1))
    obtain ⟨b1, r1, ok1, hd1, hs1, _⟩ := dropPiece_of_shape hs hc.1 hc.2 2
    obtain ⟨b2, r2, ok2, hd2, hs2, _⟩ := dropPiece_of_shape hs hc.1 hc.2 1
    obtain ⟨w1, hw1⟩ := checkWinBoard_total hs1 r1 c 2
    obtain ⟨w2, hw2⟩ := checkWinBoard_total hs2 r2 c 1
    unfold immediateScan
    simp only [copyGrid_of_shape hs hh, hd1, hd2]
    have e1 : ∃ x, (if ok1 = true then checkWinBoard b1 r1 c 2 else some false) = some x := by
      cases ok1 <;> simp [hw1]
    have e2 : ∃ x, (if ok2 = true then checkWinBoard b2 r2 c 1 else some false) = some x := by
      cases ok2 <;> simp [hw2]
    obtain ⟨x1, hx1⟩ := e1
    obtain ⟨x2, hx2⟩ := e2
    rw [hx1]
    cases x1 with
    | true =>
      refine ⟨_, rfl, ?_⟩
      intro s c1 hx
      simp only [Option.some.injEq, Prod.mk.injEq] at hx
      exact ⟨by rw [← hx.2]; exact List.mem_cons_self _ _, Or.inl hx.1.symm⟩
    | false =>
      simp only [hx2]
      cases x2 with
      | true =>
        refine ⟨_, rfl, ?_⟩
        intro s c1 hx
        simp only [Option.some.injEq, Prod.mk.injEq] at hx
        exact ⟨by rw [← hx.2]; exact List.mem_cons_self _ _, Or.inr hx.1.symm⟩
      | false =>
        refine ⟨res, hres, ?_⟩
        intro s c1 hx
        exact ⟨List.mem_cons_of_mem _ (hmem s c1 hx).1, (hmem s c1 hx).2⟩

/-- The maximizing loop returns when its recursive calls do, and the column it
returns is the initial one or an open column of the order. -/
theorem maxLoop_total {child : Grid → Int → Int → Option (Int × Int)} {b : Grid} {h w : Nat}
    (hs : Shape b h w) (hh : 0 < h)
    (hchild : ∀ b1 a be, Shape b1 h w → ∃ res, child b1 a be = some res) :
    ∀ cs : List Int, (∀ c ∈ cs, 0 ≤ c ∧ c < (w : Int)) →
      ∀ value bestCol alpha beta, ∃ v col,
        maxLoop child b cs value bestCol alpha beta = some (v, col) ∧
        (col = bestCol ∨ (col ∈ cs ∧ cell b 0 col = some 0)) := by
  intro cs
  induction cs with
  | nil => intro _ value bestCol alpha beta; exact ⟨value, bestCol, rfl, Or.inl rfl⟩
  | cons c cs ih =>
    intro hcs value bestCol alpha beta
    have hc := hcs c (List.mem_cons_self _ _)
    have ih := ih (fun c1 h1 => hcs c1 (List.mem_cons_of_mem _ h1))
    obtain ⟨top, htop⟩ := cell_of_shape hs (r := 0) (by decide) (by exact_mod_cast hh)
      hc.1 hc.2
    unfold maxLoop
    simp only [htop]
    by_cases hz : top = 0
    · subst hz
      obtain ⟨b1, r1, ok1, hd1, hs1, _⟩ := dropPiece_of_shape hs hc.1 hc.2 2
      obtain ⟨⟨sc, c2⟩, hch⟩ := hchild b1 alpha beta hs1
      simp only [ne_eq, not_true_eq_false, if_false, copyGrid_of_shape hs hh, hd1, hch]
      have hb : (if sc > value then c else bestCol) = c ∨
          (if sc > value then c else bestCol) = bestCol := by
        split_ifs
        · exact Or.inl rfl
        · exact Or.inr rfl
      generalize (if sc > value then c else bestCol) = bestCol1 at hb ⊢
      generalize (if sc > value then sc else value) = value1
      generalize (if value1 > alpha then value1 else alpha) = alpha1
      have hcol1 : bestCol1 = bestCol ∨ (bestCol1 ∈ c :: cs ∧ cell b 0 bestCol1 = some 0) := by
        rcases hb with e | e
        · exact Or.inr ⟨by rw [e]; exact List.mem_cons_self _ _, by rw [e]; exact htop⟩
        · exact Or.inl e
      by_cases hcut : alpha1 ≥ beta
      · simp only [hcut, if_true]
        exact ⟨_, _, rfl, hcol1⟩
      · simp only [hcut, if_false]
        obtain ⟨v, col, hres, hcol⟩ := ih value1 bestCol1 alpha1 beta
        refine ⟨v, col, hres, ?_⟩
        rcases hcol with e | ⟨e1, e2⟩
        · rw [e]; exact hcol1
        · exact Or.inr ⟨List.mem_cons_of_mem _ e1, e2⟩
    · simp only [ne_eq, hz, not_false_eq_true, if_true]
      obtain ⟨v, col, hres, hcol⟩ := ih value bestCol alpha beta
      refine ⟨v, col, hres, ?_⟩
      rcases hcol with e | ⟨e1, e2⟩
      · exact Or.inl e
      · exact Or.inr ⟨List.mem_cons_of_mem _ e1, e2⟩

/-- The minimizing loop returns when its recursive calls do, and the column it
returns is the initial one or an open column of the order. -/
theorem minLoop_total {child : Grid → Int → Int → Option (Int × Int)} {b : Grid} {h w : Nat}
    (hs : Shape b h w) (hh : 0 < h)
    (hchild : ∀ b1 a be, Shape b1 h w → ∃ res, child b1 a be = some res) :
    ∀ cs : List Int, (∀ c ∈ cs, 0 ≤ c ∧ c < (w : Int)) →
      ∀ value bestCol alpha beta, ∃ v col,
        minLoop child b cs value bestCol alpha beta = some (v, col) ∧
        (col = bestCol ∨ (col ∈ cs ∧ cell b 0 col = some 0)) := by
  intro cs
  induction cs with
  | nil => intro _ value bestCol alpha beta; exact ⟨value, bestCol, rfl, Or.inl rfl⟩
  | cons c cs ih =>
    intro hcs value bestCol alpha beta
    have hc := hcs c (List.mem_cons_self _ _)
    have ih := ih (fun c1 h1 => hcs c1 (List.mem_cons_of_mem _ h1))
    obtain ⟨top, htop⟩ := cell_of_shape hs (r := 0) (by decide) (by exact_mod_cast hh)
      hc.1 hc.2
    unfold minLoop
    simp only [htop]
    by_cases hz : top = 0
    · subst hz
      obtain ⟨b1, r1, ok1, hd1, hs1, _⟩ := dropPiece_of_shape hs hc.1 hc.2 1
      obtain ⟨⟨sc, c2⟩, hch⟩ := hchild b1 alpha beta hs1
      simp only [ne_eq, not_true_eq_false, if_false, copyGrid_of_shape hs hh, hd1, hch]
      have hb : (if sc < value then c else bestCol) = c ∨
          (if sc < value then c else bestCol) = bestCol := by
        split_ifs
        · exact Or.inl rfl
        · exact Or.inr rfl
      generalize (if sc < value then c else bestCol) = bestCol1 at hb ⊢
      generalize (if sc < value then sc else value) = value1
      generalize (if value1 < beta then value1 else beta) = beta1
      have hcol1 : bestCol1 = bestCol ∨ (bestCol1 ∈ c :: cs ∧ cell b 0 bestCol1 = some 0) := by
        rcases hb with e | e
        · exact Or.inr ⟨by rw [e]; exact List.mem_cons_self _ _, by rw [e]; exact htop⟩
        · exact Or.inl e
      by_cases hcut : alpha ≥ beta1
      · simp only [hcut, if_true]
        exact ⟨_, _, rfl, hcol1⟩
      · simp only [hcut, if_false]
        obtain ⟨v, col, hres, hcol⟩ := ih value1 bestCol1 alpha beta1
        refine ⟨v, col, hres, ?_⟩
        rcases hcol with e | ⟨e1, e2⟩
        · rw [e]; exact hcol1
        · exact Or.inr ⟨List.mem_cons_of_mem _ e1, e2⟩
    · simp only [ne_eq, hz, not_false_eq_true, if_true]
      obtain ⟨v, col, hres, hcol⟩ := ih value bestCol alpha beta
      refine ⟨v, col, hres, ?_⟩
      rcases hcol with e | ⟨e1, e2⟩
      · exact Or.inl e
      · exact Or.inr ⟨List.mem_cons_of_mem _ e1, e2⟩

theorem mem_preferredOrder {w : Nat} (hw : 0 < w) {c : Int} (hc : c ∈ preferredOrder w) :
    0 ≤ c ∧ c < (w : Int) := by
  unfold preferredOrder at hc
  simp only [List.mem_cons, List.mem_flatMap, List.mem_range, List.mem_append] at hc
  rcases hc with e | ⟨j, hj, h1 | h1⟩
  · subst e; omega
  · split_ifs at h1 with hge
    · simp only [List.mem_singleton] at h1; subst h1; omega
    · simp at h1
  · split_ifs at h1 with hlt
    · simp only [List.mem_singleton] at h1; subst h1; omega
    · simp at h1

/-- On a rectangular board `minimax` with a budget above a non-negative depth
returns; the column is an open column of the board, or it is `-1` and the depth is
0 or the top row is full. -/
theorem minimaxFuel_total {h w : Nat} (hh : 0 < h) (hw : 0 < w) :
    ∀ (fuel : Nat) (b : Grid) (depth alpha beta : Int) (maximizing : Bool),
      Shape b h w → 0 ≤ depth → depth < (fuel : Int) →
      ∃ s col, minimaxFuel fuel b depth alpha beta maximizing = some (s, col) ∧
        (cell b 0 col = some 0 ∨
          (col = -1 ∧ (depth = 0 ∨ ∀ c, cell b 0 c ≠ some 0))) := by
  intro fuel
  induction fuel with
  | zero => intro b depth alpha beta maximizing _ h0 h1; omega
  | succ fuel ih =>
    intro b depth alpha beta maximizing hs hd0 hdf
    cases hb : b with
    | nil => rw [hb] at hs; have := hs.1; simp at this; omega
    | cons row0 rest =>
      rw [hb] at hs
      have hrow : row0.length = w := hs.2 row0 (List.mem_cons_self _ _)
      have hmoves : ∀ c ∈ emptyTops row0, 0 ≤ c ∧ c < (w : Int) := by
        intro c hc
        have hcell := (mem_emptyTops_iff_cell row0 rest c).mp hc
        exact ⟨(cell_some_nonneg hcell).2, cell_some_lt_width hs hcell⟩
      obtain ⟨res, hscan, hscanmem⟩ := immediateScan_total hs hh (emptyTops row0) hmoves
      unfold minimaxFuel
      simp only [hscan]
      cases res with
      | some res =>
        obtain ⟨s, c⟩ := res
        refine ⟨s, c, rfl, Or.inl ?_⟩
        exact (mem_emptyTops_iff_cell row0 rest c).mp (hscanmem s c rfl).1
      | none =>
        simp only
        by_cases hleaf : depth = 0 ∨ (emptyTops row0).length = 0
        · obtain ⟨s, hsv⟩ := evaluateBoard_total hs hh
          simp only [hleaf, if_true, hsv, Option.map_some']
          refine ⟨s, -1, rfl, Or.inr ⟨rfl, ?_⟩⟩
          rcases hleaf with e | e
          · exact Or.inl e
          · right
            intro c hc
            have := (mem_emptyTops_iff_cell row0 rest c).mpr hc
            rw [List.length_eq_zero] at e
            rw [e] at this
            simp at this
        · simp only [hleaf, if_false]
          have hne : emptyTops row0 ≠ [] := by
            intro e; apply hleaf; right; rw [e]; rfl
          obtain ⟨c0, cs0, hc0⟩ := List.exists_cons_of_ne_nil hne
          have hhead : (emptyTops row0).head? = some c0 := by rw [hc0]; rfl
          have hc0top : cell (row0 :: rest) 0 c0 = some 0 :=
            (mem_emptyTops_iff_cell row0 rest c0).mp (by rw [hc0]; exact List.mem_cons_self _ _)
          simp only [hhead]
          have horder : ∀ c ∈ preferredOrder row0.length, 0 ≤ c ∧ c < (w : Int) := by
            intro c hc; rw [hrow] at hc; exact mem_preferredOrder hw hc
          have hdepth : 0 ≤ depth - 1 ∧ depth - 1 < (fuel : Int) := by
            have : depth ≠ 0 := fun e => hleaf (Or.inl e)
            push_cast at hdf
            omega
          cases maximizing with
          | true =>
            have hch : ∀ b1 a be, Shape b1 h w →
                ∃ res, (fun b a be => minimaxFuel fuel b (depth - 1) a be false) b1 a be
                  = some res := by
              intro b1 a be hs1
              obtain ⟨s, c, hx, _⟩ := ih b1 (depth - 1) a be false hs1 hdepth.1 hdepth.2
              exact ⟨_, hx⟩
            obtain ⟨v, col, hres, hcol⟩ := maxLoop_total hs hh hch
              (preferredOrder row0.length) horder MinInt32 c0 alpha beta
            simp only [if_true]
            refine ⟨v, col, hres, Or.inl ?_⟩
            rcases hcol with e | ⟨_, e⟩
            · rw [e]; exact hc0top
            · exact e
          | false =>
            have hch : ∀ b1 a be, Shape b1 h w →
                ∃ res, (fun b a be => minimaxFuel fuel b (depth - 1) a be true) b1 a be
                  = some res := by
              intro b1 a be hs1
              obtain ⟨s, c, hx, _⟩ := ih b1 (depth - 1) a be true hs1 hdepth.1 hdepth.2
              exact ⟨_, hx⟩
            obtain ⟨v, col, hres, hcol⟩ := minLoop_total hs hh hch
              (preferredOrder row0.length) horder MaxInt32 c0 alpha beta
            simp only [Bool.false_eq_true, if_false]
            refine ⟨v, col, hres, Or.inl ?_⟩
            rcases hcol with e | ⟨_, e⟩
            · rw [e]; exact hc0top
            · exact e

/-- The function `minimax` at a non-negative depth on a rectangular board. -/
theorem minimax_total {h w : Nat} (hh : 0 < h) (hw : 0 < w) {b : Grid} (hs : Shape b h w)
    {depth : Int} (hd : 0 ≤ depth) (alpha beta : Int) (maximizing : Bool) :
    ∃ s col, minimax b depth alpha beta maximizing = some (s, col) ∧
      (cell b 0 col = some 0 ∨ (col = -1 ∧ (depth = 0 ∨ ∀ c, cell b 0 c ≠ some 0))) := by
  unfold minimax
  apply minimaxFuel_total hh hw _ _ _ _ _ _ hs hd
  unfold minimaxBudget
  simp only [hd, if_true]
  push_cast
  omega

/-- On a rectangular board the test of the scanning loops decides `WinsAt`. -/
theorem winsAt_iff_dropWins {b : Grid} {h w : Nat} (hs : Shape b h w) {c : Int}
    (hc0 : 0 ≤ c) (hcw : c < w) (p : Int) : WinsAt b p c ↔ dropWins b p c = true := by
  obtain ⟨b1, r, ok, hdrop, hs1, _⟩ := dropPiece_of_shape hs hc0 hcw p
  unfold dropWins
  rcases dropPieceLoop_spec b c p _ _ _ _ hdrop with
    ⟨h1, _, _, hall⟩ | ⟨h1, rn, hrn, hlt, hcell, hbelow, hset⟩
  · subst h1
    simp only [hdrop, Bool.false_eq_true, iff_false]
    rintro ⟨r0, b0, hz, _⟩
    have hn := cell_some_nonneg hz
    have hl := cell_some_lt hz
    obtain ⟨n, rfl⟩ := Int.eq_ofNat_of_zero_le hn.1
    obtain ⟨v, hv, hvne⟩ := hall n (by omega)
    rw [hz] at hv
    simp only [Option.some.injEq] at hv
    exact hvne hv.symm
  · subst h1
    subst hrn
    have hnew : cell b1 rn c = some p := by rw [cell_setCell hset]; simp
    obtain ⟨res, hres, hiff⟩ := checkWinBoard_onLine hs1 hnew
    simp only [hdrop, hres, Option.some.injEq, decide_eq_true_eq]
    rw [hiff]
    constructor
    · rintro ⟨r0, b0, hz, hbelow0, hset0, hline⟩
      have hn := cell_some_nonneg hz
      have hl := cell_some_lt hz
      have e : r0 = (rn : Int) := by
        rcases lt_trichotomy r0 (rn : Int) with hlt1 | heq | hgt
        · obtain ⟨v, hv, hvne⟩ := hbelow0 rn hlt1 (by omega)
          rw [hcell] at hv
          simp only [Option.some.injEq] at hv
          exact absurd hv.symm hvne
        · exact heq
        · obtain ⟨n, rfl⟩ := Int.eq_ofNat_of_zero_le hn.1
          obtain ⟨v, hv, hvne⟩ := hbelow n (by omega) (by omega)
          rw [hz] at hv
          simp only [Option.some.injEq] at hv
          exact absurd hv.symm hvne
      subst e
      rw [hset] at hset0
      simp only [Option.some.injEq] at hset0
      subst hset0
      exact hline
    · intro hline
      refine ⟨rn, b1, hcell, ?_, hset, hline⟩
      intro r1 h1 h2
      obtain ⟨n, rfl⟩ := Int.eq_ofNat_of_zero_le (by omega : 0 ≤ r1)
      exact hbelow n (by omega) (by omega)

/-- On a rectangular board a scanning loop of the amateur bot returns the first
column of its list where the drop wins. -/
theorem amateurScan_eq_find {g : Game} {h w : Nat} (hs : Shape g.Board h w) (hh : 0 < h)
    (p : Int) : ∀ cs : List Int, (∀ c ∈ cs, 0 ≤ c ∧ c < (w : Int)) →
      amateurScan g p cs = some (cs.find? (fun c => dropWins g.Board p c)) := by
  intro cs
  induction cs with
  | nil => intro _; rfl
  | cons c cs ih =>
    intro hcs
    have hc := hcs c (List.mem_cons_self _ _)
    have ih := ih (fun c1 h1 => hcs c1 (List.mem_cons_of_mem _ h1))
    obtain ⟨b1, r, ok, hdrop, hs1, _⟩ := dropPiece_of_shape hs hc.1 hc.2 p
    obtain ⟨res, hres⟩ := checkWinBoard_total hs1 r c p
    have hdw : dropWins g.Board p c = res := by
      unfold dropWins
      rw [hdrop]
      cases ok with
      | true => cases res <;> simp [hres]
      | false =>
        rcases dropPieceLoop_spec g.Board c p _ _ _ _ hdrop with
          ⟨_, _, hr, _⟩ | ⟨h1, _⟩
        · subst hr
          simp only [checkWinBoard] at hres
          simp at hres
          simp [← hres]
        · exact absurd h1 (by decide)
    unfold amateurScan
    simp only [cloneBoard, copyGrid_of_shape hs hh, hdrop, hres, List.find?_cons, hdw]
    cases res with
    | true => rfl
    | false => exact ih

/-- In a strictly increasing list, the first element with a property is the least
member with it. -/
theorem find_of_least {l : List Int} (hl : l.Pairwise (· < ·)) (P : Int → Bool) {c : Int}
    (hc : c ∈ l) (hP : P c = true) (hleast : ∀ x ∈ l, x < c → P x = false) :
    l.find? P = some c := by
  induction l with
  | nil => simp at hc
  | cons a l ih =>
    rw [List.pairwise_cons] at hl
    rcases List.mem_cons.mp hc with e | hmem
    · subst e; simp [List.find?_cons, hP]
    · have hac : a < c := hl.1 c hmem
      have hPa : P a = false := hleast a (List.mem_cons_self _ _) hac
      rw [List.find?_cons, hPa]
      exact ih hl.2 hmem (fun x hx hxc => hleast x (List.mem_cons_of_mem _ hx) hxc)

theorem find_none_of_all {l : List Int} (P : Int → Bool) (h : ∀ x ∈ l, P x = false) :
    l.find? P = none := by
  rw [List.find?_eq_none]
  intro x hx
  simp [h x hx]

/-- The legal columns of a game on a rectangular board. -/
theorem validMoves_of_shape {g : Game} {h w : Nat} (hs : Shape g.Board h w) (hh : 0 < h) :
    ∃ moves, ValidMoves g = some moves ∧
      (∀ c : Int, c ∈ moves ↔ cell g.Board 0 c = some 0) ∧
      moves.Pairwise (· < ·) ∧ (∀ c ∈ moves, 0 ≤ c ∧ c < (w : Int)) := by
  cases hb : g.Board with
  | nil => rw [hb] at hs; have := hs.1; simp at this; omega
  | cons row0 rest =>
    rw [hb] at hs
    refine ⟨emptyTops row0, by simp [ValidMoves, hb],
      fun c => mem_emptyTops_iff_cell row0 rest c, emptyTops_pairwise row0, ?_⟩
    intro c hc
    have hcell := (mem_emptyTops_iff_cell row0 rest c).mp hc
    exact ⟨(cell_some_nonneg hcell).2, cell_some_lt_width hs hcell⟩

theorem randomMove_mem {moves : List Int} (hne : moves ≠ []) (seed : Nat) :
    ∃ c, randomMove moves seed = some c ∧ c ∈ moves := by
  have hpos : 0 < moves.length := List.length_pos.mpr hne
  have hlt : seed % moves.length < moves.length := Nat.mod_lt _ hpos
  refine ⟨moves[seed % moves.length], ?_, List.getElem_mem hlt⟩
  unfold randomMove
  exact List.getElem?_eq_getElem hlt

/-- Claim C7. For every game with a 6x7 board, every value of `AIDifficulty` and
every state of the random source: `AIPickMove` returns, it returns `-1` if and only
if `ValidMoves` is empty, and otherwise it returns a member of `ValidMoves`; when
exactly one column is legal it returns that column. -/
theorem C7_AIPickMove_legal (g : Game) (seed : Nat) (hs : Shape g.Board 6 7) :
    ∃ moves col, ValidMoves g = some moves ∧ AIPickMove g seed = some col ∧
      (col = -1 ↔ moves = []) ∧ (moves ≠ [] → col ∈ moves) ∧
      (∀ c, moves = [c] → col = c) := by
  obtain ⟨moves, hvm, hmem, hpw, hrange⟩ := validMoves_of_shape hs (by decide)
  have key : ∃ col, AIPickMove g seed = some col ∧
      ((moves = [] ∧ col = -1) ∨ (moves ≠ [] ∧ col ∈ moves)) := by
    unfold AIPickMove
    simp only [hvm]
    by_cases hlen : moves.length = 0
    · simp only [hlen, if_true]
      exact ⟨-1, rfl, Or.inl ⟨List.length_eq_zero.mp hlen, rfl⟩⟩
    · have hne : moves ≠ [] := fun e => hlen (by rw [e]; rfl)
      obtain ⟨cr, hcr, hcrm⟩ := randomMove_mem hne seed
      simp only [hlen, if_false]
      by_cases hdeb : g.AIDifficulty = "debutant"
      · simp only [hdeb, if_true]
        exact ⟨cr, hcr, Or.inr ⟨hne, hcrm⟩⟩
      · simp only [hdeb, if_false]
        by_cases hama : g.AIDifficulty = "amateur"
        · simp only [hama, if_true, amateurScan_eq_find hs (by decide) _ moves hrange,
            width_of_shape hs (by decide)]
          cases h2 : moves.find? (fun c => dropWins g.Board 2 c) with
          | some c => exact ⟨c, rfl, Or.inr ⟨hne, List.mem_of_find?_eq_some h2⟩⟩
          | none =>
            simp only
            cases h1 : moves.find? (fun c => dropWins g.Board 1 c) with
            | some c => exact ⟨c, rfl, Or.inr ⟨hne, List.mem_of_find?_eq_some h1⟩⟩
            | none =>
              simp only
              cases h3 : moves.find? (fun c => decide (c = ((7 / 2 : Nat) : Int))) with
              | some c => exact ⟨c, rfl, Or.inr ⟨hne, List.mem_of_find?_eq_some h3⟩⟩
              | none => exact ⟨cr, hcr, Or.inr ⟨hne, hcrm⟩⟩
        · simp only [hama, if_false, cloneBoard, copyGrid_of_shape hs (by decide : 0 < 6)]
          obtain ⟨s, col, hmm, hcol⟩ := minimax_total (by decide : 0 < 6) (by decide : 0 < 7)
            hs (by decide : (0 : Int) ≤ 4) MinInt32 MaxInt32 true
          simp only [hmm]
          have htop : cell g.Board 0 col = some 0 := by
            rcases hcol with e | ⟨_, e | e⟩
            · exact e
            · exact absurd e (by decide)
            · obtain ⟨c0, cs0, hc0⟩ := List.exists_cons_of_ne_nil hne
              exact absurd ((hmem c0).mp (by rw [hc0]; exact List.mem_cons_self _ _)) (e c0)
          have hcm : col ∈ moves := (hmem col).mpr htop
          have hnn : ¬ col < 0 := by have := (hrange col hcm).1; omega
          simp only [hnn, if_false]
          exact ⟨col, rfl, Or.inr ⟨hne, hcm⟩⟩
  obtain ⟨col, hai, hcol⟩ := key
  refine ⟨moves, col, hvm, hai, ?_, ?_, ?_⟩
  · constructor
    · intro e
      rcases hcol with ⟨h1, _⟩ | ⟨_, h2⟩
      · exact h1
      · have := (hrange col h2).1; omega
    · intro e
      rcases hcol with ⟨_, h1⟩ | ⟨h2, _⟩
      · exact h1
      · exact absurd e h2
  · intro hne
    rcases hcol with ⟨h1, _⟩ | ⟨_, h2⟩
    · exact absurd h1 hne
    · exact h2
  · intro c hc
    rcases hcol with ⟨h1, _⟩ | ⟨_, h2⟩
    · rw [hc] at h1; simp at h1
    · rw [hc] at h2; simpa using h2

/-- The statement of C7 at an expert game whose board has two open columns. -/
theorem C7_AIPickMove_legal_witness :
    ∃ moves col, ValidMoves { NewGame with Board := twoOpen, AIDifficulty := "expert" }
        = some moves ∧
      AIPickMove { NewGame with Board := twoOpen, AIDifficulty := "expert" } 5 = some col ∧
      (col = -1 ↔ moves = []) ∧ (moves ≠ [] → col ∈ moves) ∧
      (∀ c, moves = [c] → col = c) :=
  C7_AIPickMove_legal { NewGame with Board := twoOpen, AIDifficulty := "expert" } 5 (by decide)

/-- Claim C8. For every game with a 6x7 board and `AIDifficulty = "amateur"`: if some
legal column is such that dropping a piece of player 2 there completes a line of
four for player 2, then `AIPickMove` returns the leftmost such column, whatever
player 1 could win elsewhere and whatever the random source. -/
theorem C8_amateur_takes_win (g : Game) (seed : Nat) (c : Int) (hs : Shape g.Board 6 7)
    (hd : g.AIDifficulty = "amateur") (hlegal : cell g.Board 0 c = some 0)
    (hwin : WinsAt g.Board 2 c)
    (hleft : ∀ c1 : Int, c1 < c → cell g.Board 0 c1 = some 0 → ¬ WinsAt g.Board 2 c1) :
    AIPickMove g seed = some c := by
  obtain ⟨moves, hvm, hmem, hpw, hrange⟩ := validMoves_of_shape hs (by decide)
  have hcm : c ∈ moves := (hmem c).mpr hlegal
  have hlen : moves.length ≠ 0 := by
    intro e; rw [List.length_eq_zero.mp e] at hcm; simp at hcm
  have hfind : moves.find? (fun c => dropWins g.Board 2 c) = some c := by
    apply find_of_least hpw _ hcm
    · exact (winsAt_iff_dropWins hs (hrange c hcm).1 (hrange c hcm).2 2).mp hwin
    · intro x hx hxc
      have hnot := hleft x hxc ((hmem x).mp hx)
      rw [winsAt_iff_dropWins hs (hrange x hx).1 (hrange x hx).2 2] at hnot
      simpa using hnot
  unfold AIPickMove
  have hnd : ¬ ("amateur" = "debutant") := by decide
  simp only [hvm, hlen, if_false, hd, hnd, if_true,
    amateurScan_eq_find hs (by decide) _ moves hrange, hfind]

/-- The statement of C8 on a board where both players threaten: the amateur bot
plays its own winning column 6. -/
theorem C8_amateur_takes_win_witness : AIPickMove (amateurOn bothThreaten) 0 = some 6 :=
  C8_amateur_takes_win (amateurOn bothThreaten) 0 6 (by decide) (by decide) (by decide)
    ((winsAt_iff_dropWins (b := bothThreaten) (h := 6) (w := 7) (by decide) (by decide)
      (by decide) 2).mpr (by decide))
    (by
      intro c1 h1 h2
      have h0 := (cell_some_nonneg h2).2
      have hsb : Shape (amateurOn bothThreaten).Board 6 7 := by decide
      rw [winsAt_iff_dropWins hsb h0 (by omega) 2]
      interval_cases c1 <;> decide)

/-- Claim C9. For every game with a 6x7 board and `AIDifficulty = "amateur"` in which
no legal column wins at once for player 2: if some legal column would complete a
line of four for player 1, `AIPickMove` returns the leftmost such column; otherwise,
if the center column 3 is legal, it returns 3; in both cases for every state of the
random source. When neither applies the result is `-1` without a legal column and
the draw `moves[rand.Intn(len(moves))]` with one. -/
theorem C9_amateur_blocks (g : Game) (seed : Nat) (hs : Shape g.Board 6 7)
    (hd : g.AIDifficulty = "amateur")
    (hno2 : ∀ c : Int, cell g.Board 0 c = some 0 → ¬ WinsAt g.Board 2 c) :
    (∀ c : Int, cell g.Board 0 c = some 0 → WinsAt g.Board 1 c →
      (∀ c1 : Int, c1 < c → cell g.Board 0 c1 = some 0 → ¬ WinsAt g.Board 1 c1) →
      AIPickMove g seed = some c) ∧
    ((∀ c : Int, cell g.Board 0 c = some 0 → ¬ WinsAt g.Board 1 c) →
      (cell g.Board 0 3 = some 0 → AIPickMove g seed = some 3) ∧
      (cell g.Board 0 3 ≠ some 0 → ∃ moves, ValidMoves g = some moves ∧
        AIPickMove g seed = if moves = [] then some (-1) else randomMove moves seed)) := by
  obtain ⟨moves, hvm, hmem, hpw, hrange⟩ := validMoves_of_shape hs (by decide)
  have hnd : ¬ ("amateur" = "debutant") := by decide
  have hnone : ∀ p : Int, (∀ c : Int, cell g.Board 0 c = some 0 → ¬ WinsAt g.Board p c) →
      moves.find? (fun c => dropWins g.Board p c) = none := by
    intro p hno
    apply find_none_of_all
    intro x hx
    have hnot := hno x ((hmem x).mp hx)
    rw [winsAt_iff_dropWins hs (hrange x hx).1 (hrange x hx).2 p] at hnot
    simpa using hnot
  have h2 := hnone 2 hno2
  constructor
  · intro c hlegal hwin hleft
    have hcm : c ∈ moves := (hmem c).mpr hlegal
    have hlen : moves.length ≠ 0 := by
      intro e; rw [List.length_eq_zero.mp e] at hcm; simp at hcm
    have hfind : moves.find? (fun c => dropWins g.Board 1 c) = some c := by
      apply find_of_least hpw _ hcm
      · exact (winsAt_iff_dropWins hs (hrange c hcm).1 (hrange c hcm).2 1).mp hwin
      · intro x hx hxc
        have hnot := hleft x hxc ((hmem x).mp hx)
        rw [winsAt_iff_dropWins hs (hrange x hx).1 (hrange x hx).2 1] at hnot
        simpa using hnot
    unfold AIPickMove
    simp only [hvm, hlen, if_false, hd, hnd, if_true,
      amateurScan_eq_find hs (by decide) _ moves hrange, h2, hfind]
  · intro hno1
    have h1 := hnone 1 hno1
    constructor
    · intro hcenter
      have hcm : (3 : Int) ∈ moves := (hmem 3).mpr hcenter
      have hlen : moves.length ≠ 0 := by
        intro e; rw [List.length_eq_zero.mp e] at hcm; simp at hcm
      have hfind : moves.find? (fun c => decide (c = ((7 / 2 : Nat) : Int))) = some 3 := by
        cases hf : moves.find? (fun c => decide (c = ((7 / 2 : Nat) : Int))) with
        | none =>
          rw [List.find?_eq_none] at hf
          exact absurd (hf 3 hcm) (by decide)
        | some x =>
          have := List.find?_some hf
          simp only [decide_eq_true_eq] at this
          rw [this]; rfl
      unfold AIPickMove
      simp only [hvm, hlen, if_false, hd, hnd, if_true,
        amateurScan_eq_find hs (by decide) _ moves hrange, h2, h1,
        width_of_shape hs (by decide), hfind]
    · intro hcenter
      refine ⟨moves, hvm, ?_⟩
      by_cases hempty : moves = []
      · subst hempty
        unfold AIPickMove
        simp [hvm]
      · have hlen : moves.length ≠ 0 := fun e => hempty (List.length_eq_zero.mp e)
        have hfind : moves.find? (fun c => decide (c = ((7 / 2 : Nat) : Int))) = none := by
          rw [List.find?_eq_none]
          intro x hx hx3
          simp only [decide_eq_true_eq] at hx3
          apply hcenter
          have : x = 3 := by rw [hx3]; rfl
          rw [← this]
          exact (hmem x).mp hx
        unfold AIPickMove
        simp only [hvm, hlen, if_false, hd, hnd, if_true,
          amateurScan_eq_find hs (by decide) _ moves hrange, h2, h1,
          width_of_shape hs (by decide), hfind, hempty]

theorem not_winsAt_of_dropWins {b : Grid} (hs : Shape b 6 7) (p : Int)
    (hall : ∀ c : Int, 0 ≤ c → c < 7 → dropWins b p c = false) :
    ∀ c : Int, cell b 0 c = some 0 → ¬ WinsAt b p c := by
  intro c hc
  have h0 := (cell_some_nonneg hc).2
  have h7 := cell_some_lt_width hs hc
  rw [winsAt_iff_dropWins hs h0 h7 p, hall c h0 (by exact_mod_cast h7)]
  decide

/-- The statement of C9 on a board where only player 1 threatens: the amateur bot
blocks column 0. -/
theorem C9_amateur_blocks_witness :
    (∀ c : Int, cell (amateurOn oneThreatens).Board 0 c = some 0 →
        WinsAt (amateurOn oneThreatens).Board 1 c →
      (∀ c1 : Int, c1 < c → cell (amateurOn oneThreatens).Board 0 c1 = some 0 →
        ¬ WinsAt (amateurOn oneThreatens).Board 1 c1) →
      AIPickMove (amateurOn oneThreatens) 0 = some c) ∧
    ((∀ c : Int, cell (amateurOn oneThreatens).Board 0 c = some 0 →
        ¬ WinsAt (amateurOn oneThreatens).Board 1 c) →
      (cell (amateurOn oneThreatens).Board 0 3 = some 0 →
        AIPickMove (amateurOn oneThreatens) 0 = some 3) ∧
      (cell (amateurOn oneThreatens).Board 0 3 ≠ some 0 → ∃ moves,
        ValidMoves (amateurOn oneThreatens) = some moves ∧
        AIPickMove (amateurOn oneThreatens) 0
          = if moves = [] then some (-1) else randomMove moves 0)) :=
  C9_amateur_blocks (amateurOn oneThreatens) 0 (by decide) (by decide)
    (not_winsAt_of_dropWins (b := oneThreatens) (by decide) 2
      (by intro c h0 h7; interval_cases c <;> decide))

/-- Claim C10 fails on the code. The board `bothThreaten` is reached from a fresh
game by the moves 0,6,0,6,3,6,0, with player 2 to move and no winner. Column 6 is
legal and completes a line of four for player 2, yet for every depth, alpha, beta
and maximizing flag `minimax` returns the score `-1000000` with column 0, the
column where player 1 would win, and `AIPickMove` of the expert bot returns
column 0, where a piece of player 2 wins nothing. -/
theorem C10_minimax_blocks_before_winning :
    (playAll NewGame [0, 6, 0, 6, 3, 6, 0]).map
      (fun g => (g.Board, g.CurrentPlayer, g.Winner)) = some (bothThreaten, 2, 0) ∧
    Shape bothThreaten 6 7 ∧ cell bothThreaten 0 6 = some 0 ∧
    WinsAt bothThreaten 2 6 ∧ ¬ WinsAt bothThreaten 2 0 ∧
    (∀ (depth alpha beta : Int) (maximizing : Bool),
      minimax bothThreaten depth alpha beta maximizing = some (-1000000, 0)) ∧
    (∀ seed : Nat, AIPickMove (expertOn bothThreaten) seed = some 0) := by
  have hs : Shape bothThreaten 6 7 := by decide
  have hmm : ∀ (depth alpha beta : Int) (maximizing : Bool),
      minimax bothThreaten depth alpha beta maximizing = some (-1000000, 0) := by
    intro depth alpha beta maximizing
    obtain ⟨n, hn⟩ : ∃ n, minimaxBudget bothThreaten depth = n + 1 := by
      unfold minimaxBudget; split_ifs <;> exact ⟨_, rfl⟩
    have hscan : immediateScan bothThreaten (emptyTops [0, 0, 0, 0, 0, 0, 0])
        = some (some (-1000000, 0)) := by decide
    unfold minimax
    rw [hn]
    unfold minimaxFuel bothThreaten
    simp only
    unfold bothThreaten at hscan
    rw [hscan]
  refine ⟨by decide, hs, by decide, ?_, ?_, hmm, ?_⟩
  · exact (winsAt_iff_dropWins hs (by decide) (by decide) 2).mpr (by decide)
  · rw [winsAt_iff_dropWins hs (by decide) (by decide) 2]; decide
  · intro seed
    have hvm : ValidMoves (expertOn bothThreaten) = some [0, 1, 2, 3, 4, 5, 6] := by decide
    have hclone : cloneBoard (expertOn bothThreaten) = some bothThreaten := by decide
    have h1 : ¬ ((expertOn bothThreaten).AIDifficulty = "debutant") := by decide
    have h2 : ¬ ((expertOn bothThreaten).AIDifficulty = "amateur") := by decide
    unfold AIPickMove
    simp only [hvm, h1, h2, hclone, hmm]
    simp

/-- The value of the guarded win check of the scan, on a rectangular board. -/
theorem guarded_check_eq_dropWins {b : Grid} {h w : Nat} (hs : Shape b h w) {c : Int}
    (hc0 : 0 ≤ c) (hcw : c < w) (p : Int) :
    ∃ b1 r ok, dropPiece b c p = some (b1, r, ok) ∧
      (if ok = true then checkWinBoard b1 r c p else some false) = some (dropWins b p c) := by
  obtain ⟨b1, r, ok, hdrop, hs1, _⟩ := dropPiece_of_shape hs hc0 hcw p
  obtain ⟨res, hres⟩ := checkWinBoard_total hs1 r c p
  refine ⟨b1, r, ok, hdrop, ?_⟩
  unfold dropWins
  rw [hdrop]
  cases ok with
  | true => cases res <;> simp [hres]
  | false => simp

/-- On a rectangular board the scan for an immediate win stops at the first column
of its list where the drop of either player wins: with `1000000` when the drop of
player 2 wins there, with `-1000000` otherwise. -/
theorem immediateScan_eq_find {b : Grid} {h w : Nat} (hs : Shape b h w) (hh : 0 < h) :
    ∀ cs : List Int, (∀ c ∈ cs, 0 ≤ c ∧ c < (w : Int)) →
      immediateScan b cs = some
        ((cs.find? (fun c => dropWins b 2 c || dropWins b 1 c)).map
          (fun c => if dropWins b 2 c = true then (1000000, c) else (-1000000, c))) := by
  intro cs
  induction cs with
  | nil => intro _; rfl
  | cons c cs ih =>
    intro hcs
    have hc := hcs c (List.mem_cons_self _ _)
    have ih := ih (fun c1 h1 => hcs c1 (List.mem_cons_of_mem _ h1))
    obtain ⟨b1, r1, ok1, hd1, hg1⟩ := guarded_check_eq_dropWins hs hc.1 hc.2 2
    obtain ⟨b2, r2, ok2, hd2, hg2⟩ := guarded_check_eq_dropWins hs hc.1 hc.2 1
    unfold immediateScan
    simp only [copyGrid_of_shape hs hh, hd1, hd2, hg1, hg2, List.find?_cons]
    cases h2 : dropWins b 2 c with
    | true => simp [h2]
    | false =>
      cases h1 : dropWins b 1 c with
      | true => simp [h2]
      | false => simpa using ih

/-- The head of `minimax`: when the scan finds a column, that is the result. -/
theorem minimaxFuel_of_scan {fuel : Nat} {row0 : List Int} {rest : Grid} {res : Int × Int}
    (hscan : immediateScan (row0 :: rest) (emptyTops row0) = some (some res))
    (depth alpha beta : Int) (maximizing : Bool) :
    minimaxFuel (fuel + 1) (row0 :: rest) depth alpha beta maximizing = some res := by
  unfold minimaxFuel
  simp only [hscan]

theorem minimaxBudget_pos (b : Grid) (depth : Int) : ∃ n, minimaxBudget b depth = n + 1 := by
  unfold minimaxBudget; split_ifs <;> exact ⟨_, rfl⟩

/-- Claim C11. For every game with a 6x7 board and `AIDifficulty = "expert"` in
which no legal column wins at once for player 2 and exactly one legal column `c`
would complete a line of four for player 1: `AIPickMove` returns `c`, and the
`minimax` call it makes returns the score `-1000000` with column `c`. -/
theorem C11_expert_blocks (g : Game) (seed : Nat) (c : Int) (hs : Shape g.Board 6 7)
    (hd : g.AIDifficulty = "expert")
    (hno2 : ∀ c1 : Int, cell g.Board 0 c1 = some 0 → ¬ WinsAt g.Board 2 c1)
    (hlegal : cell g.Board 0 c = some 0) (hwin : WinsAt g.Board 1 c)
    (honly : ∀ c1 : Int, cell g.Board 0 c1 = some 0 → WinsAt g.Board 1 c1 → c1 = c) :
    AIPickMove g seed = some c ∧
    ∃ b, cloneBoard g = some b ∧ minimax b 4 MinInt32 MaxInt32 true = some (-1000000, c) := by
  obtain ⟨moves, hvm, hmem, hpw, hrange⟩ := validMoves_of_shape hs (by decide)
  have hcm : c ∈ moves := (hmem c).mpr hlegal
  have hclone : cloneBoard g = some g.Board := copyGrid_of_shape hs (by decide)
  have hw2 : ∀ x ∈ moves, dropWins g.Board 2 x = false := by
    intro x hx
    have hnot := hno2 x ((hmem x).mp hx)
    rw [winsAt_iff_dropWins hs (hrange x hx).1 (hrange x hx).2 2] at hnot
    simpa using hnot
  have hw1 : dropWins g.Board 1 c = true :=
    (winsAt_iff_dropWins hs (hrange c hcm).1 (hrange c hcm).2 1).mp hwin
  have hfind : moves.find? (fun x => dropWins g.Board 2 x || dropWins g.Board 1 x)
      = some c := by
    apply find_of_least hpw _ hcm
    · simp [hw1]
    · intro x hx hxc
      have h1 : dropWins g.Board 1 x = false := by
        cases hx1 : dropWins g.Board 1 x with
        | false => rfl
        | true =>
          have := honly x ((hmem x).mp hx)
            ((winsAt_iff_dropWins hs (hrange x hx).1 (hrange x hx).2 1).mpr hx1)
          omega
      simp [hw2 x hx, h1]
  have hmm : minimax g.Board 4 MinInt32 MaxInt32 true = some (-1000000, c) := by
    cases hb : g.Board with
    | nil => rw [hb] at hs; exact absurd hs.1 (by decide)
    | cons row0 rest =>
      have hmoves : moves = emptyTops row0 := by
        have : ValidMoves g = some (emptyTops row0) := by simp [ValidMoves, hb]
        rw [hvm] at this
        exact Option.some.inj this
      have hscan := immediateScan_eq_find hs (by decide) moves hrange
      rw [hfind] at hscan
      simp only [Option.map_some', hw2 c hcm, Bool.false_eq_true, if_false] at hscan
      rw [hb, hmoves] at hscan
      obtain ⟨n, hn⟩ := minimaxBudget_pos (row0 :: rest) 4
      unfold minimax
      rw [hn]
      exact minimaxFuel_of_scan hscan _ _ _ _
  refine ⟨?_, g.Board, hclone, hmm⟩
  have hlen : moves.length ≠ 0 := by
    intro e; rw [List.length_eq_zero.mp e] at hcm; simp at hcm
  have h1 : ¬ ("expert" = "debutant") := by decide
  have h2 : ¬ ("expert" = "amateur") := by decide
  have hnn : ¬ c < 0 := by have := (hrange c hcm).1; omega
  unfold AIPickMove
  simp only [hvm, hlen, if_false, hd, h1, h2, hclone, hmm, hnn]

/-- The statement of C11 on a board where only player 1 threatens, in column 0. -/
theorem C11_expert_blocks_witness :
    AIPickMove (expertOn oneThreatens) 0 = some 0 ∧
    ∃ b, cloneBoard (expertOn oneThreatens) = some b ∧
      minimax b 4 MinInt32 MaxInt32 true = some (-1000000, 0) :=
  C11_expert_blocks (expertOn oneThreatens) 0 0 (by decide) (by decide)
    (not_winsAt_of_dropWins (b := oneThreatens) (by decide) 2
      (by intro c h0 h7; interval_cases c <;> decide))
    (by decide)
    ((winsAt_iff_dropWins (b := oneThreatens) (h := 6) (w := 7) (by decide) (by decide)
      (by decide) 1).mpr (by decide))
    (by
      intro c1 hc1 hw
      have h0 := (cell_some_nonneg hc1).2
      have hsb : Shape (expertOn oneThreatens).Board 6 7 := by decide
      have h7 := cell_some_lt_width hsb hc1
      rw [winsAt_iff_dropWins hsb h0 h7 1] at hw
      have h7' : c1 < 7 := by exact_mod_cast h7
      interval_cases c1 <;> first | rfl | exact absurd hw (by decide))

/-- Claim C20. For every game with a 6x7 board that has a legal column and an
`AIDifficulty` that is neither `"debutant"` nor `"amateur"`: the `minimax` call
made by `AIPickMove` returns a column `>= 0`, which `AIPickMove` returns, so the
random fallback is not taken and the result is the same for every state of the
random source. -/
theorem C20_expert_deterministic (g : Game) (hs : Shape g.Board 6 7)
    (hlegal : ∃ c : Int, cell g.Board 0 c = some 0)
    (hd1 : g.AIDifficulty ≠ "debutant") (hd2 : g.AIDifficulty ≠ "amateur") :
    ∃ b s col, cloneBoard g = some b ∧ minimax b 4 MinInt32 MaxInt32 true = some (s, col) ∧
      0 ≤ col ∧ (∀ seed : Nat, AIPickMove g seed = some col) ∧
      (∀ seed1 seed2 : Nat, AIPickMove g seed1 = AIPickMove g seed2) := by
  obtain ⟨moves, hvm, hmem, hpw, hrange⟩ := validMoves_of_shape hs (by decide)
  obtain ⟨c0, hc0⟩ := hlegal
  have hcm : c0 ∈ moves := (hmem c0).mpr hc0
  have hlen : moves.length ≠ 0 := by
    intro e; rw [List.length_eq_zero.mp e] at hcm; simp at hcm
  have hclone : cloneBoard g = some g.Board := copyGrid_of_shape hs (by decide)
  obtain ⟨s, col, hmm, hcol⟩ := minimax_total (by decide : 0 < 6) (by decide : 0 < 7)
    hs (by decide : (0 : Int) ≤ 4) MinInt32 MaxInt32 true
  have htop : cell g.Board 0 col = some 0 := by
    rcases hcol with e | ⟨_, e | e⟩
    · exact e
    · exact absurd e (by decide)
    · exact absurd hc0 (e c0)
  have hnn : 0 ≤ col := (cell_some_nonneg htop).2
  have hall : ∀ seed : Nat, AIPickMove g seed = some col := by
    intro seed
    have hnn' : ¬ col < 0 := by omega
    unfold AIPickMove
    simp only [hvm, hlen, if_false, hd1, hd2, hclone, hmm, hnn']
  exact ⟨g.Board, s, col, hclone, hmm, hnn, hall, fun s1 s2 => by rw [hall s1, hall s2]⟩

/-- The statement of C20 at a game with the empty difficulty string on a board with
two open columns. -/
theorem C20_expert_deterministic_witness :
    ∃ b s col, cloneBoard { NewGame with Board := twoOpen } = some b ∧
      minimax b 4 MinInt32 MaxInt32 true = some (s, col) ∧ 0 ≤ col ∧
      (∀ seed : Nat, AIPickMove { NewGame with Board := twoOpen } seed = some col) ∧
      (∀ seed1 seed2 : Nat, AIPickMove { NewGame with Board := twoOpen } seed1
        = AIPickMove { NewGame with Board := twoOpen } seed2) :=
  C20_expert_deterministic { NewGame with Board := twoOpen } (by decide) ⟨2, by decide⟩
    (by decide) (by decide)

/-- In a reachable state `PlayMove` accepts exactly the columns of the board with an
empty top cell, as long as there is no winner. -/
theorem playMove_accepts_iff {g : Game} (hinv : Inv g) (col : Int) :
    (∃ g1, PlayMove g col = some (true, g1)) ↔
      (0 ≤ col ∧ col < 7 ∧ g.Winner = 0 ∧ cell g.Board 0 col = some 0) := by
  obtain ⟨hs, hcp, hgrav⟩ := hinv
  constructor
  · rintro ⟨g1, h⟩
    obtain ⟨r, won, hr, hc0, hcw, hwin, hcell, _⟩ := PlayMove_accept h
    rw [headD_length_of_shape hs (by decide)] at hcw
    refine ⟨hc0, by exact_mod_cast hcw, hwin, ?_⟩
    obtain ⟨v, hv⟩ := cell_of_shape hs (r := 0) (c := col) (by decide) (by decide) hc0 hcw
    by_cases hz : v = 0
    · rw [hv, hz]
    · obtain ⟨v1, hv1, hv1ne⟩ := column_full_of_top hs hgrav hv hz r (by rw [← hs.1]; exact hr)
      rw [hcell] at hv1
      simp only [Option.some.injEq] at hv1
      exact absurd hv1.symm hv1ne
  · rintro ⟨hc0, hc7, hwin, htop⟩
    obtain ⟨⟨ok, g1⟩, hres⟩ := PlayMove_total hs (by decide) col
    cases ok with
    | true => exact ⟨g1, hres⟩
    | false =>
      exfalso
      rcases PlayMove_cases hres with ⟨_, _, h3⟩ | ⟨_, _, _, hloop⟩
      · rcases h3 with h3 | ⟨w, hw1, h3⟩ | h3
        · omega
        · rw [width_of_shape hs (by decide)] at hw1
          simp only [Option.some.injEq] at hw1
          subst hw1
          have : (7 : Int) ≤ col := by exact_mod_cast h3
          omega
        · exact h3 hwin
      · rcases PlayMoveLoop_spec g col _ _ _ hloop with ⟨_, _, hall⟩ | ⟨h1, _⟩
        · obtain ⟨v, hv, hvne⟩ := hall 0 (by rw [hs.1]; decide)
          simp only [Nat.cast_zero] at hv
          rw [htop] at hv
          simp only [Option.some.injEq] at hv
          exact hvne hv.symm
        · exact absurd h1 (by decide)

/-- Claim C18. In every state reachable from `NewGameWithNames` through `PlayMove`
calls the board respects gravity: for every column `c` and row `r < 5`, if
`Board[r][c]` is not empty then `Board[r+1][c]` is not empty; so a column has an
empty cell if and only if its top cell is empty, and when `Winner = 0` the columns
listed by `ValidMoves` are exactly the columns that `PlayMove` accepts. -/
theorem C18_gravity (g : Game) (hreach : Reachable g) :
    (∀ (r c v : Int), 0 ≤ r → r < 5 → cell g.Board r c = some v → v ≠ 0 →
      ∃ v1, cell g.Board (r + 1) c = some v1 ∧ v1 ≠ 0) ∧
    (∀ c : Int, 0 ≤ c → c < 7 →
      ((∃ r : Int, cell g.Board r c = some 0) ↔ cell g.Board 0 c = some 0)) ∧
    (g.Winner = 0 → ∃ moves, ValidMoves g = some moves ∧
      ∀ col : Int, col ∈ moves ↔ ∃ g1, PlayMove g col = some (true, g1)) := by
  have hinv := inv_of_reachable hreach
  obtain ⟨hs, hcp, hgrav⟩ := hinv
  refine ⟨?_, ?_, ?_⟩
  · intro r c v hr0 hr5 hcell hv
    have hcn := cell_some_nonneg hcell
    have hcw := cell_some_lt_width hs hcell
    obtain ⟨v1, hv1⟩ := cell_of_shape hs (r := r + 1) (c := c) (by omega)
      (by push_cast; omega) hcn.2 hcw
    exact ⟨v1, hv1, hgrav r c v hcell hv v1 hv1⟩
  · intro c hc0 hc7
    constructor
    · rintro ⟨r, hr⟩
      obtain ⟨v, hv⟩ := cell_of_shape hs (r := 0) (c := c) (by decide) (by decide) hc0
        (by exact_mod_cast hc7)
      by_cases hz : v = 0
      · rw [hv, hz]
      · have hrn := cell_some_nonneg hr
        have hrl := cell_some_lt hr
        rw [hs.1] at hrl
        obtain ⟨n, rfl⟩ := Int.eq_ofNat_of_zero_le hrn.1
        obtain ⟨v1, hv1, hv1ne⟩ := column_full_of_top hs hgrav hv hz n (by omega)
        rw [hr] at hv1
        simp only [Option.some.injEq] at hv1
        exact absurd hv1.symm hv1ne
    · intro h; exact ⟨0, h⟩
  · intro hwin
    obtain ⟨moves, hvm, hmem, _, hrange⟩ := validMoves_of_shape hs (by decide)
    refine ⟨moves, hvm, ?_⟩
    intro col
    rw [playMove_accepts_iff ⟨hs, hcp, hgrav⟩ col, hmem col]
    constructor
    · intro h
      have := hrange col ((hmem col).mpr h)
      exact ⟨this.1, by exact_mod_cast this.2, hwin, h⟩
    · exact fun h => h.2.2.2

/-- The statement of C18 at the fresh game. -/
theorem C18_gravity_witness :
    (∀ (r c v : Int), 0 ≤ r → r < 5 → cell NewGame.Board r c = some v → v ≠ 0 →
      ∃ v1, cell NewGame.Board (r + 1) c = some v1 ∧ v1 ≠ 0) ∧
    (∀ c : Int, 0 ≤ c → c < 7 →
      ((∃ r : Int, cell NewGame.Board r c = some 0) ↔ cell NewGame.Board 0 c = some 0)) ∧
    (NewGame.Winner = 0 → ∃ moves, ValidMoves NewGame = some moves ∧
      ∀ col : Int, col ∈ moves ↔ ∃ g1, PlayMove NewGame col = some (true, g1)) :=
  C18_gravity NewGame (Reachable.start "Joueur 1" "Joueur 2")

theorem countP_set_zero (row : List Int) (c : Nat) (v : Int) (hc : row[c]? = some 0)
    (hv : v ≠ 0) :
    (row.set c v).countP (fun x => x ≠ 0) = row.countP (fun x => x ≠ 0) + 1 := by
  induction row generalizing c with
  | nil => simp at hc
  | cons x row ih =>
    cases c with
    | zero =>
      simp only [List.getElem?_cons_zero, Option.some.injEq] at hc
      subst hc
      simp [List.set, List.countP_cons, hv]
    | succ c =>
      simp only [List.getElem?_cons_succ] at hc
      simp only [List.set, List.countP_cons, ih c hc]
      omega

theorem filled_set (b : Grid) (r : Nat) (row row1 : List Int) (hr : b[r]? = some row)
    (hcount : row1.countP (fun x => x ≠ 0) = row.countP (fun x => x ≠ 0) + 1) :
    filled (b.set r row1) = filled b + 1 := by
  induction b generalizing r with
  | nil => simp at hr
  | cons x b ih =>
    cases r with
    | zero =>
      simp only [List.getElem?_cons_zero, Option.some.injEq] at hr
      subst hr
      simp only [filled, List.set, List.map_cons, List.sum_cons, hcount]
      omega
    | succ r =>
      simp only [List.getElem?_cons_succ] at hr
      have := ih r hr
      simp only [filled, List.set, List.map_cons, List.sum_cons] at this ⊢
      omega

/-- Writing a non-zero value into an empty cell adds one to the number of
non-empty cells. -/
theorem filled_setCell {b b1 : Grid} {r c v : Int} (hset : setCell b r c v = some b1)
    (hcell : cell b r c = some 0) (hv : v ≠ 0) : filled b1 = filled b + 1 := by
  have hn := cell_some_nonneg hcell
  unfold setCell at hset
  simp only [hcell, Option.some.injEq] at hset
  subst hset
  obtain ⟨r, rfl⟩ := Int.eq_ofNat_of_zero_le hn.1
  obtain ⟨c, rfl⟩ := Int.eq_ofNat_of_zero_le hn.2
  rw [cell_nat] at hcell
  simp only [Int.toNat_ofNat]
  cases hrow : b[r]? with
  | none => simp [hrow] at hcell
  | some row =>
    simp only [hrow, Option.some_bind] at hcell
    have hlt := (List.getElem?_eq_some_iff.mp hrow).1
    have hget : b.getD r [] = row := by
      rw [List.getD_eq_getElem?_getD, hrow]; rfl
    rw [hget]
    exact filled_set b r row _ hrow (countP_set_zero row c v hcell hv)

theorem filled_le (b : Grid) (w : Nat) (hrows : ∀ row ∈ b, row.length = w) :
    filled b ≤ b.length * w := by
  induction b with
  | nil => simp [filled]
  | cons x b ih =>
    have h1 : x.countP (fun v => v ≠ 0) ≤ w := by
      rw [← hrows x (List.mem_cons_self _ _)]; exact List.countP_le_length _
    have h2 := ih (fun row hrow => hrows row (List.mem_cons_of_mem _ hrow))
    simp only [filled, List.map_cons, List.sum_cons, List.length_cons] at h2 ⊢
    rw [Nat.add_mul]
    omega

/-- What one `PlayMove` call does to the non-empty cells of a reachable state. -/
theorem playMove_filled {g g1 : Game} {col : Int} {ok : Bool} (hinv : Inv g)
    (h : PlayMove g col = some (ok, g1)) :
    (ok = true → filled g1.Board = filled g.Board + 1 ∧
      ∀ (r c v : Int), cell g.Board r c = some v → v ≠ 0 → cell g1.Board r c = some v) ∧
    (ok = false → filled g1.Board = filled g.Board) := by
  constructor
  · intro hok
    subst hok
    obtain ⟨r, won, hr, hc0, hcw, hwin, hcell, hbelow, hset, _⟩ := PlayMove_accept h
    have hne : g.CurrentPlayer ≠ 0 := by
      rcases hinv.2.1 with e | e <;> rw [e] <;> decide
    refine ⟨filled_setCell hset hcell hne, ?_⟩
    intro r0 c0 v hv hvne
    rw [cell_setCell hset]
    by_cases e : r0 = (r : Int) ∧ c0 = col
    · obtain ⟨e1, e2⟩ := e
      subst e1 e2
      rw [hcell] at hv
      simp only [Option.some.injEq] at hv
      exact absurd hv.symm hvne
    · simp only [e, if_false]; exact hv
  · intro hok
    subst hok
    rw [PlayMove_reject h]

/-- A run of `PlayMove` calls from a reachable state returns, and adds to the
non-empty cells the number of accepted moves. -/
theorem playCount_filled : ∀ (cols : List Int) (g : Game), Reachable g →
    ∃ g2 n, playCount g cols = some (g2, n) ∧ Reachable g2 ∧
      filled g2.Board = filled g.Board + n := by
  intro cols
  induction cols with
  | nil => intro g hg; exact ⟨g, 0, rfl, hg, rfl⟩
  | cons col cols ih =>
    intro g hg
    have hinv := inv_of_reachable hg
    obtain ⟨⟨ok, g1⟩, hres⟩ := PlayMove_total hinv.1 (by decide) col
    obtain ⟨g2, n, hrun, hreach2, hfill⟩ := ih g1 (Reachable.move col hg hres)
    have hstep := playMove_filled hinv hres
    unfold playCount
    simp only [hres, hrun]
    refine ⟨g2, _, rfl, hreach2, ?_⟩
    cases ok with
    | true =>
      have := (hstep.1 rfl).1
      simp only [if_true]
      omega
    | false =>
      have := hstep.2 rfl
      simp only [Bool.false_eq_true, if_false]
      omega

/-- Claim C16. For every sequence of `PlayMove` calls that starts from
`NewGameWithNames`: each call that returns `true` increases the number of non-empty
cells of the board by exactly 1 and changes no cell that was non-empty, each call
that returns `false` leaves the number unchanged, so the number of non-empty cells
equals the number of accepted moves and never exceeds 42. -/
theorem C16_cell_count (name1 name2 : String) (cols : List Int) :
    (∃ g n, playCount (NewGameWithNames name1 name2) cols = some (g, n) ∧
      filled g.Board = n ∧ n ≤ 42) ∧
    (∀ (g g1 : Game) (col : Int) (ok : Bool), Reachable g → PlayMove g col = some (ok, g1) →
      (ok = true → filled g1.Board = filled g.Board + 1 ∧
        ∀ (r c v : Int), cell g.Board r c = some v → v ≠ 0 → cell g1.Board r c = some v) ∧
      (ok = false → filled g1.Board = filled g.Board)) := by
  constructor
  · obtain ⟨g, n, hrun, hreach, hfill⟩ :=
      playCount_filled cols (NewGameWithNames name1 name2) (Reachable.start name1 name2)
    have h0 : filled (NewGameWithNames name1 name2).Board = 0 := by
      show filled (List.replicate 6 (List.replicate 7 (0 : Int))) = 0
      decide
    have hs := (inv_of_reachable hreach).1
    have hle := filled_le g.Board 7 hs.2
    rw [hs.1] at hle
    exact ⟨g, n, hrun, by omega, by omega⟩
  · intro g g1 col ok hreach h
    exact playMove_filled (inv_of_reachable hreach) h

/-- The statement of C16 for the run 3, 3, 9, 4 of a fresh game. -/
theorem C16_cell_count_witness :
    (∃ g n, playCount (NewGameWithNames "a" "b") [3, 3, 9, 4] = some (g, n) ∧
      filled g.Board = n ∧ n ≤ 42) :=
  (C16_cell_count "a" "b" [3, 3, 9, 4]).1

/-- A line on the board after a write either passes through the written cell, and
then belongs to the written value, or was on the board before. -/
theorem onLine_after_set {b b1 : Grid} {r c p : Int} (hset : setCell b r c p = some b1)
    {q r0 c0 : Int} (hline : OnLine b1 q r0 c0) :
    (q = p ∧ OnLine b1 p r c) ∨ OnLine b q r0 c0 := by
  obtain ⟨d, hd, a, k, hlen, hseg⟩ := hline
  by_cases hex : ∃ i : Int, -(a : Int) ≤ i ∧ i ≤ (k : Int) ∧
      r0 + i * d.1 = r ∧ c0 + i * d.2 = c
  · obtain ⟨i, hlo, hhi, hr, hc⟩ := hex
    have hown := hseg i hlo hhi
    rw [hr, hc] at hown
    have hq : q = p := by
      have h1 := hown.2
      rw [cell_setCell hset] at h1
      simp only [and_self, if_true, Option.some.injEq] at h1
      exact h1.symm
    left
    refine ⟨hq, d, hd, (a + i).toNat, (k - i).toNat, by omega, ?_⟩
    intro j hjlo hjhi
    have := hseg (i + j) (by omega) (by omega)
    rw [← hq]
    have e1 : r + j * d.1 = r0 + (i + j) * d.1 := by rw [← hr]; ring
    have e2 : c + j * d.2 = c0 + (i + j) * d.2 := by rw [← hc]; ring
    rw [e1, e2]; exact this
  · right
    refine ⟨d, hd, a, k, hlen, ?_⟩
    intro i hlo hhi
    have hown := hseg i hlo hhi
    have hne : ¬ (r0 + i * d.1 = r ∧ c0 + i * d.2 = c) := by
      intro hx; exact hex ⟨i, hlo, hhi, hx.1, hx.2⟩
    refine ⟨(inBoard_setCell hset _ _).mp hown.1, ?_⟩
    have h1 := hown.2
    rw [cell_setCell hset] at h1
    simpa [hne] using h1

theorem no_line_start (q : Int) (hq : q ≠ 0) :
    ¬ HasLine (List.replicate 6 (List.replicate 7 (0 : Int))) q := by
  rintro ⟨r, c, d, hd, a, k, hlen, hseg⟩
  have hown := hseg 0 (by omega) (by omega)
  simp only [zero_mul, add_zero] at hown
  have hc := hown.2
  have hs : Shape (List.replicate 6 (List.replicate 7 (0 : Int))) 6 7 := by decide
  have hn := cell_some_nonneg hc
  have h1 := cell_some_lt hc
  have h2 := cell_some_lt_width hs hc
  simp only [List.length_replicate] at h1
  obtain ⟨r, rfl⟩ := Int.eq_ofNat_of_zero_le hn.1
  obtain ⟨c, rfl⟩ := Int.eq_ofNat_of_zero_le hn.2
  have hr : r < 6 := by omega
  have hc' : c < 7 := by omega
  rw [cell_nat] at hc
  interval_cases r <;> interval_cases c <;> simp at hc <;> exact hq hc.symm

theorem winnerInv_move {g g1 : Game} {col : Int} {ok : Bool} (hinv : Inv g)
    (hw : WinnerInv g) (h : PlayMove g col = some (ok, g1)) : WinnerInv g1 := by
  cases ok with
  | false => rw [PlayMove_reject h]; exact hw
  | true =>
    obtain ⟨r, won, hr, hc0, hcw, hwin, hcell, hbelow, hset, hscan, hwinner, _⟩ :=
      PlayMove_accept h
    have hno : ¬ HasLine g.Board 1 ∧ ¬ HasLine g.Board 2 := by
      rcases hw with ⟨_, h1, h2⟩ | ⟨e, _⟩ | ⟨e, _⟩
      · exact ⟨h1, h2⟩
      · rw [hwin] at e; exact absurd e (by decide)
      · rw [hwin] at e; exact absurd e (by decide)
    have hnew : cell g1.Board r col = some g.CurrentPlayer := by
      rw [cell_setCell hset]; simp
    have hown : owned g1.Board g.CurrentPlayer r col := by
      refine ⟨?_, hnew⟩
      rw [inBoard_setCell hset]
      exact ⟨by omega, by exact_mod_cast hr, hc0, hcw⟩
    have hiff := checkWinBoardScan_spec hown directions won hscan
    have hold : ∀ q : Int, (q = 1 ∨ q = 2) → HasLine g1.Board q →
        q = g.CurrentPlayer ∧ OnLine g1.Board g.CurrentPlayer r col := by
      intro q hq ⟨r0, c0, hline⟩
      rcases onLine_after_set hset hline with hx | hx
      · exact hx
      · exfalso
        rcases hq with e | e
        · subst e; exact hno.1 ⟨r0, c0, hx⟩
        · subst e; exact hno.2 ⟨r0, c0, hx⟩
    cases won with
    | true =>
      have hline : OnLine g1.Board g.CurrentPlayer r col := hiff.mp rfl
      simp only [if_true] at hwinner
      rcases hinv.2.1 with e | e
      · right; left
        rw [e] at hwinner hline
        refine ⟨hwinner, ⟨r, col, hline⟩, ?_⟩
        intro h2
        have := (hold 2 (Or.inr rfl) h2).1
        rw [e] at this
        exact absurd this (by decide)
      · right; right
        rw [e] at hwinner hline
        refine ⟨hwinner, ⟨r, col, hline⟩, ?_⟩
        intro h1
        have := (hold 1 (Or.inl rfl) h1).1
        rw [e] at this
        exact absurd this (by decide)
    | false =>
      have hnoline : ¬ OnLine g1.Board g.CurrentPlayer r col := by
        intro hx; exact absurd (hiff.mpr hx) (by decide)
      simp only [Bool.false_eq_true, if_false] at hwinner
      left
      exact ⟨hwinner, fun h1 => hnoline (hold 1 (Or.inl rfl) h1).2,
        fun h2 => hnoline (hold 2 (Or.inr rfl) h2).2⟩

theorem winnerInv_of_reachable {g : Game} (h : Reachable g) : WinnerInv g := by
  induction h with
  | start name1 name2 =>
    left
    exact ⟨rfl, no_line_start 1 (by decide), no_line_start 2 (by decide)⟩
  | move col hreach hmove ih => exact winnerInv_move (inv_of_reachable hreach) ih hmove

/-- Claim C19. In every state reachable from `NewGameWithNames` through `PlayMove`
calls: `Winner = 0` if and only if the board contains no horizontal, vertical or
diagonal line of four contiguous cells owned by one player; and when
`Winner = p != 0`, `p` is 1 or 2, the board contains such a line owned by `p` and
none owned by the other player. -/
theorem C19_winner_iff_line (g : Game) (hreach : Reachable g) :
    (g.Winner = 0 ↔ (¬ HasLine g.Board 1 ∧ ¬ HasLine g.Board 2)) ∧
    (∀ p : Int, g.Winner = p → p ≠ 0 →
      (p = 1 ∨ p = 2) ∧ HasLine g.Board p ∧ ¬ HasLine g.Board (3 - p)) := by
  have hw := winnerInv_of_reachable hreach
  constructor
  · constructor
    · intro h0
      rcases hw with ⟨_, h1, h2⟩ | ⟨e, _⟩ | ⟨e, _⟩
      · exact ⟨h1, h2⟩
      · rw [h0] at e; exact absurd e (by decide)
      · rw [h0] at e; exact absurd e (by decide)
    · intro hno
      rcases hw with ⟨e, _⟩ | ⟨_, h1, _⟩ | ⟨_, h2, _⟩
      · exact e
      · exact absurd h1 hno.1
      · exact absurd h2 hno.2
  · intro p hp hp0
    rcases hw with ⟨e, _⟩ | ⟨e, h1, h2⟩ | ⟨e, h2, h1⟩
    · rw [e] at hp; exact absurd hp.symm hp0
    · rw [e] at hp; subst hp; exact ⟨Or.inl rfl, h1, h2⟩
    · rw [e] at hp; subst hp; exact ⟨Or.inr rfl, h2, h1⟩

/-- The statement of C19 at the fresh game. -/
theorem C19_winner_iff_line_witness :
    (NewGame.Winner = 0 ↔ (¬ HasLine NewGame.Board 1 ∧ ¬ HasLine NewGame.Board 2)) ∧
    (∀ p : Int, NewGame.Winner = p → p ≠ 0 →
      (p = 1 ∨ p = 2) ∧ HasLine NewGame.Board p ∧ ¬ HasLine NewGame.Board (3 - p)) :=
  C19_winner_iff_line NewGame (Reachable.start "Joueur 1" "Joueur 2")

/-- The list that the row and column loops of `evaluateBoard` run over. -/
theorem bind_pure_cast (l : List Nat) :
    (l >>= fun a => (pure (a : Int) : List Int)) = List.map Int.ofNat l := by
  induction l with
  | nil => rfl
  | cons a l ih =>
    simp only [List.bind_eq_flatMap, List.flatMap_cons, List.map_cons, List.pure_def] at ih ⊢
    rw [ih]; rfl

theorem addWindow_eq (score c1 c2 e : Int) :
    addWindow score c1 c2 e = score + (gain c2 e - gain c1 e) := by
  unfold addWindow gain
  simp only
  split_ifs <;> omega

theorem countOf_nonneg (b : Grid) (v : Int) (cells : List (Int × Int)) :
    0 ≤ countOf b v cells := by
  unfold countOf; omega

theorem countOf_cons (b : Grid) (v : Int) (x : Int × Int) (cells : List (Int × Int)) :
    countOf b v (x :: cells) =
      (if cell b x.1 x.2 = some v then 1 else 0) + countOf b v cells := by
  unfold countOf
  rw [List.countP_cons]
  by_cases h : cell b x.1 x.2 = some v
  · rw [if_pos h, if_pos (decide_eq_true h)]; push_cast; omega
  · rw [if_neg h, if_neg (by simpa using h)]; push_cast; omega

theorem countRest_cons (b : Grid) (x : Int × Int) (cells : List (Int × Int)) :
    countRest b (x :: cells) =
      (if cell b x.1 x.2 ≠ some 1 ∧ cell b x.1 x.2 ≠ some 2 then 1 else 0) +
        countRest b cells := by
  unfold countRest
  rw [List.countP_cons]
  by_cases h : cell b x.1 x.2 ≠ some 1 ∧ cell b x.1 x.2 ≠ some 2
  · rw [if_pos h, if_pos (decide_eq_true h)]; push_cast; omega
  · rw [if_neg h, if_neg (by simpa using h)]; push_cast; omega

/-- The window loop of `evaluateBoard` on cells that all lie on the board: the
counters grow by the numbers of 1s, of 2s and of other cells. -/
theorem windowLoop_inside {b : Grid} {h w : Nat} (hs : Shape b h w) (d : Int × Int) :
    ∀ (k : Nat) (rr cc c1 c2 e : Int), (∀ x ∈ rayCells d k rr cc, inBoard b x.1 x.2) →
      windowLoop b d k rr cc c1 c2 e =
        some (c1 + countOf b 1 (rayCells d k rr cc), c2 + countOf b 2 (rayCells d k rr cc),
          e + countRest b (rayCells d k rr cc)) := by
  intro k
  induction k with
  | zero =>
    intro rr cc c1 c2 e _
    simp [windowLoop, rayCells, countOf, countRest]
  | succ k ih =>
    intro rr cc c1 c2 e hall
    have hin : inBoard b rr cc := hall (rr, cc) (by simp [rayCells])
    have hrest : ∀ x ∈ rayCells d k (rr + d.1) (cc + d.2), inBoard b x.1 x.2 := by
      intro x hx; exact hall x (by simp [rayCells, hx])
    have hin' := (inBoard_of_shape hs _ _).mp hin
    obtain ⟨v, hv⟩ := cell_of_shape hs hin'.1 hin'.2.1 hin'.2.2.1 hin'.2.2.2
    unfold windowLoop
    simp only [hin, not_true_eq_false, if_false, hv, rayCells, countOf_cons, countRest_cons,
      Option.some.injEq]
    by_cases h1 : v = 1
    · subst h1
      rw [if_pos rfl, ih _ _ _ _ _ hrest]
      simp only [Option.some.injEq, Prod.mk.injEq]
      refine ⟨by simp; ring, by simp, by simp⟩
    · by_cases h2 : v = 2
      · subst h2
        rw [if_neg h1, if_pos rfl, ih _ _ _ _ _ hrest]
        simp only [Option.some.injEq, Prod.mk.injEq]
        refine ⟨by simp, by simp; ring, by simp⟩
      · rw [if_neg h1, if_neg h2, ih _ _ _ _ _ hrest]
        simp only [Option.some.injEq, Prod.mk.injEq]
        refine ⟨by simp [h1], by simp [h2], by simp [h1, h2]; ring⟩

/-- The window loop of `evaluateBoard` on cells one of which is off the board: the
first counter comes back as `-1`. -/
theorem windowLoop_outside {b : Grid} {h w : Nat} (hs : Shape b h w) (d : Int × Int) :
    ∀ (k : Nat) (rr cc c1 c2 e : Int), ¬ (∀ x ∈ rayCells d k rr cc, inBoard b x.1 x.2) →
      ∃ c2a ea, windowLoop b d k rr cc c1 c2 e = some (-1, c2a, ea) := by
  intro k
  induction k with
  | zero => intro rr cc c1 c2 e hnot; exact absurd (by simp [rayCells]) hnot
  | succ k ih =>
    intro rr cc c1 c2 e hnot
    unfold windowLoop
    by_cases hin : inBoard b rr cc
    · have hin' := (inBoard_of_shape hs _ _).mp hin
      obtain ⟨v, hv⟩ := cell_of_shape hs hin'.1 hin'.2.1 hin'.2.2.1 hin'.2.2.2
      have hrest : ¬ (∀ x ∈ rayCells d k (rr + d.1) (cc + d.2), inBoard b x.1 x.2) := by
        intro hall
        apply hnot
        intro x hx
        simp only [rayCells, List.mem_cons] at hx
        rcases hx with e1 | e1
        · rw [e1]; exact hin
        · exact hall x e1
      simp only [hin, not_true_eq_false, if_false, hv]
      split_ifs <;> exact ih _ _ _ _ _ hrest
    · simp only [hin, not_false_eq_true, if_true]
      exact ⟨_, _, rfl⟩

/-- One window step of `evaluateBoard` adds the contribution of the window. -/
theorem evalWindow_eq {b : Grid} {h w : Nat} (hs : Shape b h w) (r c score : Int)
    (d : Int × Int) : evalWindow b r c score d = some (score + contribution b r c d) := by
  unfold evalWindow contribution
  by_cases hall : ∀ x ∈ rayCells d 4 r c, inBoard b x.1 x.2
  · rw [windowLoop_inside hs d 4 r c 0 0 0 hall]
    have hne : ¬ (countOf b 1 (rayCells d 4 r c) = -1) := by
      have := countOf_nonneg b 1 (rayCells d 4 r c); omega
    simp only [zero_add, hne, if_false, if_pos hall, addWindow_eq]
  · obtain ⟨c2a, ea, hres⟩ := windowLoop_outside hs d 4 r c 0 0 0 hall
    rw [hres, if_neg hall]
    simp

/-- A fold in `Option` whose steps add a term returns the sum. -/
theorem foldlM_add {α : Type} (f : Int → α → Option Int) (g : α → Int) (l : List α)
    (hf : ∀ s a, a ∈ l → f s a = some (s + g a)) :
    ∀ s, l.foldlM f s = some (s + (l.map g).sum) := by
  induction l with
  | nil => intro s; simp
  | cons a l ih =>
    intro s
    rw [List.foldlM_cons, hf s a (List.mem_cons_self _ _)]
    simp only [Option.bind_eq_bind, Option.some_bind]
    rw [ih (fun s a ha => hf s a (List.mem_cons_of_mem _ ha))]
    simp only [List.map_cons, List.sum_cons]
    congr 1; ring

/-- On a rectangular board with a row, `evaluateBoard` returns the sum of the
contributions of all windows. -/
theorem evaluateBoard_eq {b : Grid} {h w : Nat} (hs : Shape b h w) (hh : 0 < h) :
    evaluateBoard b = some (contributionSum b h w) := by
  unfold evaluateBoard contributionSum
  simp only [width_of_shape hs hh, hs.1, bind_pure_cast]
  rw [foldlM_add _ (fun r : Int =>
    ((List.map Int.ofNat (List.range w)).map (fun c : Int =>
      (directions.map (fun d => contribution b r c d)).sum)).sum)]
  · simp
  · intro s r _
    rw [foldlM_add _ (fun c : Int => (directions.map (fun d => contribution b r c d)).sum)]
    intro s c _
    rw [foldlM_add _ (fun d => contribution b r c d)]
    intro s d _
    exact evalWindow_eq hs r c s d

theorem cell_swapBoard (b : Grid) (r c : Int) :
    cell (swapBoard b) r c = (cell b r c).map swapValue := by
  unfold cell rowAt swapBoard
  by_cases hr : r < 0
  · simp [hr]
  · simp only [hr, if_false, List.getElem?_map]
    cases hrow : b[r.toNat]? with
    | none => simp
    | some row =>
      simp only [Option.map_some']
      by_cases hc : c < 0
      · simp [hc]
      · simp [hc, List.getElem?_map]

theorem inBoard_swapBoard (b : Grid) (r c : Int) : inBoard (swapBoard b) r c ↔ inBoard b r c := by
  unfold inBoard swapBoard
  cases b with
  | nil => simp
  | cons row rest => simp

theorem swapBoard_shape {b : Grid} {h w : Nat} (hs : Shape b h w) : Shape (swapBoard b) h w := by
  refine ⟨by simp [swapBoard, hs.1], ?_⟩
  intro row hrow
  simp only [swapBoard, List.mem_map] at hrow
  obtain ⟨row0, h0, rfl⟩ := hrow
  simp [hs.2 row0 h0]

theorem countOf_swapBoard (b : Grid) (cells : List (Int × Int)) :
    countOf (swapBoard b) 2 cells = countOf b 1 cells ∧
    countOf (swapBoard b) 1 cells = countOf b 2 cells ∧
    countRest (swapBoard b) cells = countRest b cells := by
  have key : ∀ x : Int × Int,
      (cell (swapBoard b) x.1 x.2 = some 2 ↔ cell b x.1 x.2 = some 1) ∧
      (cell (swapBoard b) x.1 x.2 = some 1 ↔ cell b x.1 x.2 = some 2) := by
    intro x
    rw [cell_swapBoard]
    cases hv : cell b x.1 x.2 with
    | none => simp
    | some v =>
      simp only [Option.map_some', Option.some.injEq, swapValue]
      constructor <;> split_ifs <;> constructor <;> intro hx <;> omega
  induction cells with
  | nil => simp [countOf, countRest]
  | cons x cells ih =>
    have hrest : (cell (swapBoard b) x.1 x.2 ≠ some 1 ∧ cell (swapBoard b) x.1 x.2 ≠ some 2) ↔
        (cell b x.1 x.2 ≠ some 1 ∧ cell b x.1 x.2 ≠ some 2) := by
      rw [ne_eq, ne_eq, (key x).1, (key x).2]
      exact And.comm
    simp only [countOf_cons, countRest_cons, ih.1, ih.2.1, ih.2.2, (key x).1, (key x).2]
    refine ⟨trivial, trivial, ?_⟩
    rw [if_congr hrest rfl rfl]

theorem contribution_swapBoard (b : Grid) (r c : Int) (d : Int × Int) :
    contribution (swapBoard b) r c d = -contribution b r c d := by
  unfold contribution
  have hcount := countOf_swapBoard b (rayCells d 4 r c)
  simp only [inBoard_swapBoard, hcount.1, hcount.2.1, hcount.2.2]
  split_ifs <;> ring

theorem sum_map_neg {α : Type} (l : List α) (f g : α → Int) (h : ∀ a ∈ l, f a = -g a) :
    (l.map f).sum = -(l.map g).sum := by
  induction l with
  | nil => simp
  | cons a l ih =>
    simp only [List.map_cons, List.sum_cons, h a (List.mem_cons_self _ _),
      ih (fun x hx => h x (List.mem_cons_of_mem _ hx))]
    ring

theorem contributionSum_swapBoard (b : Grid) (h w : Nat) :
    contributionSum (swapBoard b) h w = -contributionSum b h w := by
  unfold contributionSum
  apply sum_map_neg
  intro r _
  apply sum_map_neg
  intro c _
  apply sum_map_neg
  intro d _
  exact contribution_swapBoard b r c d

theorem swapBoard_zero (h w : Nat) :
    swapBoard (List.replicate h (List.replicate w (0 : Int)))
      = List.replicate h (List.replicate w 0) := by
  simp [swapBoard, swapValue]

/-- Claim C13. For every rectangular board (its cells may hold 0, 1 or 2, or any
other value): `evaluateBoard(swap(board)) = -evaluateBoard(board)`, where `swap`
replaces every 1 by 2 and every 2 by 1 and leaves the other cells unchanged; the
evaluation returns when the board has a row; and `evaluateBoard` of the empty 6x7
board, and of every empty board with a row, is 0. -/
theorem C13_evaluate_antisymmetric (b : Grid) (h w : Nat) (hs : Shape b h w) :
    evaluateBoard (swapBoard b) = (evaluateBoard b).map (fun s => -s) ∧
    (0 < h → ∃ s, evaluateBoard b = some s ∧ evaluateBoard (swapBoard b) = some (-s)) ∧
    evaluateBoard (List.replicate 6 (List.replicate 7 0)) = some 0 ∧
    (∀ h1 w1 : Nat, 0 < h1 →
      evaluateBoard (List.replicate h1 (List.replicate w1 0)) = some 0) := by
  have hpos : 0 < h → evaluateBoard b = some (contributionSum b h w) ∧
      evaluateBoard (swapBoard b) = some (-contributionSum b h w) := by
    intro hh
    refine ⟨evaluateBoard_eq hs hh, ?_⟩
    rw [evaluateBoard_eq (swapBoard_shape hs) hh, contributionSum_swapBoard]
  have hzero : ∀ h1 w1 : Nat, 0 < h1 →
      evaluateBoard (List.replicate h1 (List.replicate w1 0)) = some 0 := by
    intro h1 w1 hh
    have hs1 : Shape (List.replicate h1 (List.replicate w1 (0 : Int))) h1 w1 := by
      refine ⟨by simp, ?_⟩
      intro row hrow
      rw [List.eq_of_mem_replicate hrow]; simp
    have e := contributionSum_swapBoard (List.replicate h1 (List.replicate w1 (0 : Int))) h1 w1
    rw [swapBoard_zero] at e
    rw [evaluateBoard_eq hs1 hh]
    congr 1
    omega
  refine ⟨?_, ?_, hzero 6 7 (by decide), hzero⟩
  · by_cases hh : 0 < h
    · rw [(hpos hh).1, (hpos hh).2]; rfl
    · have hb : b = [] := List.length_eq_zero.mp (by rw [hs.1]; omega)
      subst hb
      rfl
  · intro hh
    exact ⟨_, (hpos hh).1, (hpos hh).2⟩

/-- The statement of C13 at a board with pieces of both players. -/
theorem C13_evaluate_antisymmetric_witness :
    evaluateBoard (swapBoard twoOpen) = (evaluateBoard twoOpen).map (fun s => -s) ∧
    (0 < 6 → ∃ s, evaluateBoard twoOpen = some s ∧
      evaluateBoard (swapBoard twoOpen) = some (-s)) ∧
    evaluateBoard (List.replicate 6 (List.replicate 7 0)) = some 0 ∧
    (∀ h1 w1 : Nat, 0 < h1 →
      evaluateBoard (List.replicate h1 (List.replicate w1 0)) = some 0) :=
  C13_evaluate_antisymmetric twoOpen 6 7 (by decide)

theorem sum_flatMap {α β : Type} (l : List α) (f : α → List β) (g : β → Int) :
    ((l.flatMap f).map g).sum = (l.map (fun a => ((f a).map g).sum)).sum := by
  induction l with
  | nil => simp
  | cons a l ih => simp [List.flatMap_cons, List.map_append, List.sum_append, ih]

theorem sum_filter {α : Type} (l : List α) (p : α → Bool) (g : α → Int) :
    ((l.filter p).map g).sum = (l.map (fun a => if p a = true then g a else 0)).sum := by
  induction l with
  | nil => simp
  | cons a l ih =>
    by_cases h : p a = true
    · simp [List.filter_cons, h, ih]
    · simp [List.filter_cons, h, ih]

/-- The sum of the contributions, as one sum over all start cells and directions. -/
theorem contributionSum_eq (b : Grid) (h w : Nat) :
    contributionSum b h w
      = ((allStarts h w).map (fun x => contribution b x.1 x.2.1 x.2.2)).sum := by
  unfold contributionSum allStarts
  rw [sum_flatMap]
  congr 1
  apply List.map_congr_left
  intro r _
  rw [sum_flatMap]
  simp only [List.map_map, Function.comp_def]

/-- On cells that all hold 0, 1 or 2 the three counts add up to the number of
cells, and the cells that hold neither 1 nor 2 are the empty ones. -/
theorem counts_of_cells (b : Grid) (cells : List (Int × Int))
    (hc : ∀ x ∈ cells, cell b x.1 x.2 = some 0 ∨ cell b x.1 x.2 = some 1 ∨
      cell b x.1 x.2 = some 2) :
    countOf b 1 cells + countOf b 2 cells + countOf b 0 cells = (cells.length : Int) ∧
    countRest b cells = countOf b 0 cells := by
  induction cells with
  | nil => simp [countOf, countRest]
  | cons x cells ih =>
    obtain ⟨ih1, ih2⟩ := ih (fun y hy => hc y (List.mem_cons_of_mem _ hy))
    simp only [countOf_cons, countRest_cons, List.length_cons, ih2]
    rcases hc x (List.mem_cons_self _ _) with e | e | e
    · simp only [e]
      refine ⟨by simp; omega, by simp⟩
    · simp only [e]
      refine ⟨by simp; omega, by simp⟩
    · simp only [e]
      refine ⟨by simp; omega, by simp⟩

theorem rayCells_length (d : Int × Int) : ∀ (k : Nat) (r c : Int),
    (rayCells d k r c).length = k := by
  intro k
  induction k with
  | zero => intro r c; rfl
  | succ k ih => intro r c; simp [rayCells, ih]

/-- On a 6x7 board with cells in {0, 1, 2} the contribution of a start cell and
direction is the table weight of its window when the window fits, and 0 when it
does not. -/
theorem contribution_eq_weight {b : Grid} (hs : Shape b 6 7)
    (hcells : ∀ (r c v : Int), cell b r c = some v → v = 0 ∨ v = 1 ∨ v = 2)
    (x : Int × Int × (Int × Int)) :
    contribution b x.1 x.2.1 x.2.2
      = if decide (fitsIn 6 7 x) = true then windowWeight b x else 0 := by
  unfold contribution
  have hiff : (∀ y ∈ rayCells x.2.2 4 x.1 x.2.1, inBoard b y.1 y.2) ↔ fitsIn 6 7 x := by
    unfold fitsIn
    constructor
    · intro hx y hy; exact (inBoard_of_shape hs _ _).mp (hx y hy)
    · intro hx y hy; exact (inBoard_of_shape hs _ _).mpr (hx y hy)
  by_cases hfit : fitsIn 6 7 x
  · rw [if_pos (hiff.mpr hfit), if_pos (decide_eq_true hfit)]
    have hc : ∀ y ∈ rayCells x.2.2 4 x.1 x.2.1, cell b y.1 y.2 = some 0 ∨
        cell b y.1 y.2 = some 1 ∨ cell b y.1 y.2 = some 2 := by
      intro y hy
      have hb := hfit y hy
      obtain ⟨v, hv⟩ := cell_of_shape hs hb.1 hb.2.1 hb.2.2.1 hb.2.2.2
      rcases hcells _ _ _ hv with e | e | e <;> subst e
      · exact Or.inl hv
      · exact Or.inr (Or.inl hv)
      · exact Or.inr (Or.inr hv)
    obtain ⟨hsum, hrest⟩ := counts_of_cells b _ hc
    rw [rayCells_length] at hsum
    have h1 := countOf_nonneg b 1 (rayCells x.2.2 4 x.1 x.2.1)
    have h2 := countOf_nonneg b 2 (rayCells x.2.2 4 x.1 x.2.1)
    have h0 := countOf_nonneg b 0 (rayCells x.2.2 4 x.1 x.2.1)
    unfold windowWeight gain
    rw [hrest]
    simp only
    push_cast at hsum
    split_ifs <;> omega
  · rw [if_neg (fun hx => hfit (hiff.mp hx)), if_neg (by simpa using hfit)]

set_option maxRecDepth 100000 in
theorem windowsOf_count : (windowsOf 6 7).length = 69 ∧ (windowsOf 6 7).Nodup := by
  constructor <;> decide

/-- Claim C14. For every 6x7 board with cells in {0, 1, 2}: `evaluateBoard` equals
the sum, over every start cell and each of the four directions whose 4-cell window
lies entirely inside the board (69 windows, each counted once), of the window
weight: `+100000` for four pieces of player 2, `+1000` for three and one empty
cell, `+50` for two and two empty cells, the negated values for the same patterns
of player 1, and 0 for every other window; a window with pieces of both players
contributes 0. -/
theorem C14_evaluate_is_window_sum (b : Grid) (hs : Shape b 6 7)
    (hcells : ∀ (r c v : Int), cell b r c = some v → v = 0 ∨ v = 1 ∨ v = 2) :
    evaluateBoard b = some (windowScore b) ∧
    (windowsOf 6 7).length = 69 ∧ (windowsOf 6 7).Nodup ∧
    (∀ x ∈ windowsOf 6 7,
      0 < countOf b 1 (rayCells x.2.2 4 x.1 x.2.1) →
      0 < countOf b 2 (rayCells x.2.2 4 x.1 x.2.1) → windowWeight b x = 0) := by
  refine ⟨?_, windowsOf_count.1, windowsOf_count.2, ?_⟩
  · rw [evaluateBoard_eq hs (by decide), contributionSum_eq]
    unfold windowScore windowsOf
    rw [sum_filter]
    congr 2
    apply List.map_congr_left
    intro x _
    exact contribution_eq_weight hs hcells x
  · intro x hx h1 h2
    have hfit : fitsIn 6 7 x := by
      have := (List.mem_filter.mp hx).2
      simpa using this
    have hc : ∀ y ∈ rayCells x.2.2 4 x.1 x.2.1, cell b y.1 y.2 = some 0 ∨
        cell b y.1 y.2 = some 1 ∨ cell b y.1 y.2 = some 2 := by
      intro y hy
      have hb := hfit y hy
      obtain ⟨v, hv⟩ := cell_of_shape hs hb.1 hb.2.1 hb.2.2.1 hb.2.2.2
      rcases hcells _ _ _ hv with e | e | e <;> subst e
      · exact Or.inl hv
      · exact Or.inr (Or.inl hv)
      · exact Or.inr (Or.inr hv)
    obtain ⟨hsum, _⟩ := counts_of_cells b _ hc
    rw [rayCells_length] at hsum
    have h0 := countOf_nonneg b 0 (rayCells x.2.2 4 x.1 x.2.1)
    unfold windowWeight
    simp only
    push_cast at hsum
    split_ifs <;> omega

/-- The statement of C14 at a board with pieces of both players. -/
theorem C14_evaluate_is_window_sum_witness :
    evaluateBoard twoOpen = some (windowScore twoOpen) ∧
    (windowsOf 6 7).length = 69 ∧ (windowsOf 6 7).Nodup ∧
    (∀ x ∈ windowsOf 6 7,
      0 < countOf twoOpen 1 (rayCells x.2.2 4 x.1 x.2.1) →
      0 < countOf twoOpen 2 (rayCells x.2.2 4 x.1 x.2.1) → windowWeight twoOpen x = 0) :=
  C14_evaluate_is_window_sum twoOpen (by decide)
    (by
      intro r c v hv
      have hs : Shape twoOpen 6 7 := by decide
      have hn := cell_some_nonneg hv
      have h1 := cell_some_lt hv
      have h2 := cell_some_lt_width hs hv
      have h6 : r < 6 := by simpa [twoOpen] using h1
      have h7 : c < 7 := by exact_mod_cast h2
      obtain ⟨hr0, hc0⟩ := hn
      interval_cases r <;> interval_cases c <;>
        simp [twoOpen, cell, rowAt] at hv <;> omega)

theorem reachable_playAll : ∀ (cols : List Int) (g g1 : Game), Reachable g →
    playAll g cols = some g1 → Reachable g1 := by
  intro cols
  induction cols with
  | nil =>
    intro g g1 hg h
    simp only [playAll, Option.some.injEq] at h
    rw [← h]; exact hg
  | cons col cols ih =>
    intro g g1 hg h
    unfold playAll at h
    cases hres : PlayMove g col with
    | none => simp [hres] at h
    | some res =>
      obtain ⟨ok, g2⟩ := res
      simp only [hres] at h
      exact ih g2 g1 (Reachable.move col hg hres) h

/-- The board after a drop, computed by `dropPiece`, is the board after the drop. -/
theorem afterDrop_of_dropPiece {b b1 : Grid} {p c r : Int}
    (h : dropPiece b c p = some (b1, r, true)) : AfterDrop b p c b1 := by
  rcases dropPieceLoop_spec b c p _ _ _ _ h with ⟨h1, _⟩ | ⟨_, rn, hrn, hlt, hcell, hbelow, hset⟩
  · exact absurd h1 (by decide)
  · refine ⟨rn, hcell, ?_, hset⟩
    intro r1 h1 h2
    obtain ⟨n, rfl⟩ := Int.eq_ofNat_of_zero_le (by omega : 0 ≤ r1)
    exact hbelow n (by omega) (by omega)

/-- A drop into another column leaves a winning column of player 1 winning. -/
theorem threat_persists {b b1 : Grid} {c c1 : Int} (hdrop : AfterDrop b 2 c1 b1)
    (hne : c ≠ c1) (hlegal : cell b 0 c = some 0) (hwin : WinsAt b 1 c) :
    cell b1 0 c = some 0 ∧ WinsAt b1 1 c := by
  obtain ⟨r1, hz1, _, hset1⟩ := hdrop
  obtain ⟨r, bw, hz, hbelow, hsetw, hline⟩ := hwin
  have hcell1 : ∀ x : Int, cell b1 x c = cell b x c := by
    intro x
    rw [cell_setCell hset1]
    have : ¬ (x = r1 ∧ c = c1) := fun hx => hne hx.2
    simp [this]
  have hzb1 : cell b1 r c = some 0 := by rw [hcell1]; exact hz
  obtain ⟨b1w, hset1w⟩ := setCell_some_of_cell 1 hzb1
  refine ⟨by rw [hcell1]; exact hlegal, r, b1w, hzb1, ?_, hset1w, ?_⟩
  · intro x hx1 hx2
    rw [setCell_length hset1] at hx2
    rw [hcell1]
    exact hbelow x hx1 hx2
  · obtain ⟨d, hd, a, k, hlen, hseg⟩ := hline
    refine ⟨d, hd, a, k, hlen, ?_⟩
    intro i hlo hhi
    obtain ⟨hin, hown⟩ := hseg i hlo hhi
    refine ⟨?_, ?_⟩
    · rw [inBoard_setCell hset1w, inBoard_setCell hset1]
      exact (inBoard_setCell hsetw _ _).mp hin
    · rw [cell_setCell hsetw] at hown
      rw [cell_setCell hset1w]
      by_cases e : r + i * d.1 = r ∧ c + i * d.2 = c
      · simp only [e, and_self, if_true]
      · simp only [e, if_false] at hown ⊢
        rw [cell_setCell hset1]
        by_cases e1 : r + i * d.1 = r1 ∧ c + i * d.2 = c1
        · rw [e1.1, e1.2, hz1] at hown
          exact absurd hown (by decide)
        · simp only [e1, if_false]; exact hown

theorem gain_bounds (n e : Int) : 0 ≤ gain n e ∧ gain n e ≤ 100000 := by
  unfold gain; split_ifs <;> omega

theorem contribution_bounds (b : Grid) (r c : Int) (d : Int × Int) :
    -100000 ≤ contribution b r c d ∧ contribution b r c d ≤ 100000 := by
  unfold contribution
  split_ifs
  · have h1 := gain_bounds (countOf b 2 (rayCells d 4 r c)) (countRest b (rayCells d 4 r c))
    have h2 := gain_bounds (countOf b 1 (rayCells d 4 r c)) (countRest b (rayCells d 4 r c))
    omega
  · omega

theorem sum_bounds {α : Type} (l : List α) (f : α → Int) (m : Int)
    (h : ∀ a ∈ l, -m ≤ f a ∧ f a ≤ m) :
    -((l.length : Int) * m) ≤ (l.map f).sum ∧ (l.map f).sum ≤ (l.length : Int) * m := by
  induction l with
  | nil => simp
  | cons a l ih =>
    have h1 := h a (List.mem_cons_self _ _)
    have h2 := ih (fun x hx => h x (List.mem_cons_of_mem _ hx))
    simp only [List.map_cons, List.sum_cons, List.length_cons]
    push_cast
    constructor <;> nlinarith

set_option maxRecDepth 100000 in
theorem allStarts_length : (allStarts 6 7).length = 168 := by decide

/-- The score of `evaluateBoard` on a 6x7 board is far inside the 32-bit range. -/
theorem evaluateBoard_inRange {b : Grid} (hs : Shape b 6 7) :
    ∃ s, evaluateBoard b = some s ∧ -16800000 ≤ s ∧ s ≤ 16800000 := by
  refine ⟨_, evaluateBoard_eq hs (by decide), ?_⟩
  rw [contributionSum_eq]
  have hb := sum_bounds (allStarts 6 7) (fun x => contribution b x.1 x.2.1 x.2.2) 100000
    (fun x _ => contribution_bounds b _ _ _)
  rw [allStarts_length] at hb
  constructor <;> omega

/-- The maximizing loop without pruning returns when its recursive calls do; its
column is the initial one or an open column of the order. -/
theorem maxPlain_total {child : Grid → Option (Int × Int)} {b : Grid} {h w : Nat}
    (hs : Shape b h w) (hh : 0 < h)
    (hchild : ∀ b1, Shape b1 h w → ∃ res, child b1 = some res) :
    ∀ cs : List Int, (∀ c ∈ cs, 0 ≤ c ∧ c < (w : Int)) →
      ∀ value bestCol, ∃ v col, maxPlain child b cs value bestCol = some (v, col) ∧
        value ≤ v ∧ (col = bestCol ∨ (col ∈ cs ∧ cell b 0 col = some 0)) := by
  intro cs
  induction cs with
  | nil => intro _ value bestCol; exact ⟨value, bestCol, rfl, le_refl _, Or.inl rfl⟩
  | cons c cs ih =>
    intro hcs value bestCol
    have hc := hcs c (List.mem_cons_self _ _)
    have ih := ih (fun c1 h1 => hcs c1 (List.mem_cons_of_mem _ h1))
    obtain ⟨top, htop⟩ := cell_of_shape hs (r := 0) (by decide) (by exact_mod_cast hh)
      hc.1 hc.2
    unfold maxPlain
    simp only [htop]
    by_cases hz : top = 0
    · subst hz
      obtain ⟨b1, r1, ok1, hd1, hs1, _⟩ := dropPiece_of_shape hs hc.1 hc.2 2
      obtain ⟨⟨sc, c2⟩, hch⟩ := hchild b1 hs1
      simp only [ne_eq, not_true_eq_false, if_false, copyGrid_of_shape hs hh, hd1, hch]
      obtain ⟨v, col, hres, hle, hcol⟩ := ih (if sc > value then sc else value)
        (if sc > value then c else bestCol)
      refine ⟨v, col, hres, ?_, ?_⟩
      · split_ifs at hle <;> omega
      · rcases hcol with e | ⟨e1, e2⟩
        · split_ifs at e
          · exact Or.inr ⟨by rw [e]; exact List.mem_cons_self _ _, by rw [e]; exact htop⟩
          · exact Or.inl e
        · exact Or.inr ⟨List.mem_cons_of_mem _ e1, e2⟩
    · simp only [ne_eq, hz, not_false_eq_true, if_true]
      obtain ⟨v, col, hres, hle, hcol⟩ := ih value bestCol
      refine ⟨v, col, hres, hle, ?_⟩
      rcases hcol with e | ⟨e1, e2⟩
      · exact Or.inl e
      · exact Or.inr ⟨List.mem_cons_of_mem _ e1, e2⟩

/-- The minimizing loop without pruning returns when its recursive calls do; its
column is the initial one or an open column of the order. -/
theorem minPlain_total {child : Grid → Option (Int × Int)} {b : Grid} {h w : Nat}
    (hs : Shape b h w) (hh : 0 < h)
    (hchild : ∀ b1, Shape b1 h w → ∃ res, child b1 = some res) :
    ∀ cs : List Int, (∀ c ∈ cs, 0 ≤ c ∧ c < (w : Int)) →
      ∀ value bestCol, ∃ v col, minPlain child b cs value bestCol = some (v, col) ∧
        v ≤ value ∧ (col = bestCol ∨ (col ∈ cs ∧ cell b 0 col = some 0)) := by
  intro cs
  induction cs with
  | nil => intro _ value bestCol; exact ⟨value, bestCol, rfl, le_refl _, Or.inl rfl⟩
  | cons c cs ih =>
    intro hcs value bestCol
    have hc := hcs c (List.mem_cons_self _ _)
    have ih := ih (fun c1 h1 => hcs c1 (List.mem_cons_of_mem _ h1))
    obtain ⟨top, htop⟩ := cell_of_shape hs (r := 0) (by decide) (by exact_mod_cast hh)
      hc.1 hc.2
    unfold minPlain
    simp only [htop]
    by_cases hz : top = 0
    · subst hz
      obtain ⟨b1, r1, ok1, hd1, hs1, _⟩ := dropPiece_of_shape hs hc.1 hc.2 1
      obtain ⟨⟨sc, c2⟩, hch⟩ := hchild b1 hs1
      simp only [ne_eq, not_true_eq_false, if_false, copyGrid_of_shape hs hh, hd1, hch]
      obtain ⟨v, col, hres, hle, hcol⟩ := ih (if sc < value then sc else value)
        (if sc < value then c else bestCol)
      refine ⟨v, col, hres, ?_, ?_⟩
      · split_ifs at hle <;> omega
      · rcases hcol with e | ⟨e1, e2⟩
        · split_ifs at e
          · exact Or.inr ⟨by rw [e]; exact List.mem_cons_self _ _, by rw [e]; exact htop⟩
          · exact Or.inl e
        · exact Or.inr ⟨List.mem_cons_of_mem _ e1, e2⟩
    · simp only [ne_eq, hz, not_false_eq_true, if_true]
      obtain ⟨v, col, hres, hle, hcol⟩ := ih value bestCol
      refine ⟨v, col, hres, hle, ?_⟩
      rcases hcol with e | ⟨e1, e2⟩
      · exact Or.inl e
      · exact Or.inr ⟨List.mem_cons_of_mem _ e1, e2⟩

/-- What the maximizing loop of `minimax` returns: a value not below the initial
one; the initial pair, or the score that the recursive call returned for the
returned (open) column; and, when the order has an open column, a value not below
one of the scores returned by the recursive calls. -/
theorem maxLoop_value {child : Grid → Int → Int → Option (Int × Int)} {b : Grid} {h w : Nat}
    (hs : Shape b h w) (hh : 0 < h) :
    ∀ (cs : List Int) (v0 c0 alpha beta R col : Int),
      (∀ c ∈ cs, 0 ≤ c ∧ c < (w : Int)) →
      maxLoop child b cs v0 c0 alpha beta = some (R, col) →
      v0 ≤ R ∧
      ((R = v0 ∧ col = c0) ∨ (cell b 0 col = some 0 ∧ ∃ b1 r ok a be c2,
        dropPiece b col 2 = some (b1, r, ok) ∧ child b1 a be = some (R, c2))) ∧
      ((∃ c ∈ cs, cell b 0 c = some 0) → ∃ b1 a be sc c2,
        Shape b1 h w ∧ child b1 a be = some (sc, c2) ∧ sc ≤ R) := by
  intro cs
  induction cs with
  | nil =>
    intro v0 c0 alpha beta R col _ h
    simp only [maxLoop, Option.some.injEq, Prod.mk.injEq] at h
    refine ⟨by omega, Or.inl ⟨h.1.symm, h.2.symm⟩, ?_⟩
    rintro ⟨c, hc, _⟩
    simp at hc
  | cons c cs ih =>
    intro v0 c0 alpha beta R col hcs h
    have hc := hcs c (List.mem_cons_self _ _)
    have hcs1 : ∀ c1 ∈ cs, 0 ≤ c1 ∧ c1 < (w : Int) :=
      fun c1 h1 => hcs c1 (List.mem_cons_of_mem _ h1)
    obtain ⟨top, htop⟩ := cell_of_shape hs (r := 0) (by decide) (by exact_mod_cast hh)
      hc.1 hc.2
    unfold maxLoop at h
    simp only [htop] at h
    by_cases hz : top = 0
    · subst hz
      obtain ⟨b1, r1, ok1, hd1, hs1, _⟩ := dropPiece_of_shape hs hc.1 hc.2 2
      simp only [ne_eq, not_true_eq_false, if_false, copyGrid_of_shape hs hh, hd1] at h
      cases hch : child b1 alpha beta with
      | none => simp [hch] at h
      | some res =>
        obtain ⟨sc, c2⟩ := res
        simp only [hch] at h
        have hstep : (if sc > v0 then sc else v0) = v0 ∧ (if sc > v0 then c else c0) = c0 ∨
            ((if sc > v0 then sc else v0) = sc ∧ (if sc > v0 then c else c0) = c) := by
          split_ifs
          · exact Or.inr ⟨rfl, rfl⟩
          · exact Or.inl ⟨rfl, rfl⟩
        have hge : v0 ≤ (if sc > v0 then sc else v0) ∧ sc ≤ (if sc > v0 then sc else v0) := by
          split_ifs <;> omega
        generalize (if sc > v0 then sc else v0) = v1 at h hstep hge
        generalize (if sc > v0 then c else c0) = c1 at h hstep
        have hatt : (v1 = v0 ∧ c1 = c0) ∨ (cell b 0 c1 = some 0 ∧ ∃ b1 r ok a be c2,
            dropPiece b c1 2 = some (b1, r, ok) ∧ child b1 a be = some (v1, c2)) := by
          rcases hstep with e | e
          · exact Or.inl e
          · right
            rw [e.1, e.2]
            exact ⟨htop, b1, r1, ok1, alpha, beta, c2, hd1, hch⟩
        by_cases hcut : (if v1 > alpha then v1 else alpha) ≥ beta
        · simp only [hcut, if_true, Option.some.injEq, Prod.mk.injEq] at h
          obtain ⟨e1, e2⟩ := h
          subst e1 e2
          exact ⟨hge.1, hatt, fun _ => ⟨b1, alpha, beta, sc, c2, hs1, hch, hge.2⟩⟩
        · simp only [hcut, if_false] at h
          obtain ⟨hle, hres, _⟩ := ih v1 c1 _ beta R col hcs1 h
          refine ⟨by omega, ?_, fun _ => ⟨b1, alpha, beta, sc, c2, hs1, hch, by omega⟩⟩
          rcases hres with ⟨e1, e2⟩ | hx
          · rw [e1, e2]; exact hatt
          · exact Or.inr hx
    · simp only [ne_eq, hz, not_false_eq_true, if_true] at h
      obtain ⟨hle, hres, hfirst⟩ := ih v0 c0 alpha beta R col hcs1 h
      refine ⟨hle, hres, ?_⟩
      rintro ⟨x, hx, hxl⟩
      rcases List.mem_cons.mp hx with e | e
      · subst e
        rw [htop] at hxl
        simp only [Option.some.injEq] at hxl
        exact absurd hxl hz
      · exact hfirst ⟨x, e, hxl⟩

/-- What the minimizing loop of `minimax` returns; the mirror image of
`maxLoop_value`. -/
theorem minLoop_value {child : Grid → Int → Int → Option (Int × Int)} {b : Grid} {h w : Nat}
    (hs : Shape b h w) (hh : 0 < h) :
    ∀ (cs : List Int) (v0 c0 alpha beta R col : Int),
      (∀ c ∈ cs, 0 ≤ c ∧ c < (w : Int)) →
      minLoop child b cs v0 c0 alpha beta = some (R, col) →
      R ≤ v0 ∧
      ((R = v0 ∧ col = c0) ∨ (cell b 0 col = some 0 ∧ ∃ b1 r ok a be c2,
        dropPiece b col 1 = some (b1, r, ok) ∧ child b1 a be = some (R, c2))) ∧
      ((∃ c ∈ cs, cell b 0 c = some 0) → ∃ b1 a be sc c2,
        Shape b1 h w ∧ child b1 a be = some (sc, c2) ∧ R ≤ sc) := by
  intro cs
  induction cs with
  | nil =>
    intro v0 c0 alpha beta R col _ h
    simp only [minLoop, Option.some.injEq, Prod.mk.injEq] at h
    refine ⟨by omega, Or.inl ⟨h.1.symm, h.2.symm⟩, ?_⟩
    rintro ⟨c, hc, _⟩
    simp at hc
  | cons c cs ih =>
    intro v0 c0 alpha beta R col hcs h
    have hc := hcs c (List.mem_cons_self _ _)
    have hcs1 : ∀ c1 ∈ cs, 0 ≤ c1 ∧ c1 < (w : Int) :=
      fun c1 h1 => hcs c1 (List.mem_cons_of_mem _ h1)
    obtain ⟨top, htop⟩ := cell_of_shape hs (r := 0) (by decide) (by exact_mod_cast hh)
      hc.1 hc.2
    unfold minLoop at h
    simp only [htop] at h
    by_cases hz : top = 0
    · subst hz
      obtain ⟨b1, r1, ok1, hd1, hs1, _⟩ := dropPiece_of_shape hs hc.1 hc.2 1
      simp only [ne_eq, not_true_eq_false, if_false, copyGrid_of_shape hs hh, hd1] at h
      cases hch : child b1 alpha beta with
      | none => simp [hch] at h
      | some res =>
        obtain ⟨sc, c2⟩ := res
        simp only [hch] at h
        have hstep : (if sc < v0 then sc else v0) = v0 ∧ (if sc < v0 then c else c0) = c0 ∨
            ((if sc < v0 then sc else v0) = sc ∧ (if sc < v0 then c else c0) = c) := by
          split_ifs
          · exact Or.inr ⟨rfl, rfl⟩
          · exact Or.inl ⟨rfl, rfl⟩
        have hge : (if sc < v0 then sc else v0) ≤ v0 ∧ (if sc < v0 then sc else v0) ≤ sc := by
          split_ifs <;> omega
        generalize (if sc < v0 then sc else v0) = v1 at h hstep hge
        generalize (if sc < v0 then c else c0) = c1 at h hstep
        have hatt : (v1 = v0 ∧ c1 = c0) ∨ (cell b 0 c1 = some 0 ∧ ∃ b1 r ok a be c2,
            dropPiece b c1 1 = some (b1, r, ok) ∧ child b1 a be = some (v1, c2)) := by
          rcases hstep with e | e
          · exact Or.inl e
          · right
            rw [e.1, e.2]
            exact ⟨htop, b1, r1, ok1, alpha, beta, c2, hd1, hch⟩
        by_cases hcut : alpha ≥ (if v1 < beta then v1 else beta)
        · simp only [hcut, if_true, Option.some.injEq, Prod.mk.injEq] at h
          obtain ⟨e1, e2⟩ := h
          subst e1 e2
          exact ⟨hge.1, hatt, fun _ => ⟨b1, alpha, beta, sc, c2, hs1, hch, hge.2⟩⟩
        · simp only [hcut, if_false] at h
          obtain ⟨hle, hres, _⟩ := ih v1 c1 alpha _ R col hcs1 h
          refine ⟨by omega, ?_, fun _ => ⟨b1, alpha, beta, sc, c2, hs1, hch, by omega⟩⟩
          rcases hres with ⟨e1, e2⟩ | hx
          · rw [e1, e2]; exact hatt
          · exact Or.inr hx
    · simp only [ne_eq, hz, not_false_eq_true, if_true] at h
      obtain ⟨hle, hres, hfirst⟩ := ih v0 c0 alpha beta R col hcs1 h
      refine ⟨hle, hres, ?_⟩
      rintro ⟨x, hx, hxl⟩
      rcases List.mem_cons.mp hx with e | e
      · subst e
        rw [htop] at hxl
        simp only [Option.some.injEq] at hxl
        exact absurd hxl hz
      · exact hfirst ⟨x, e, hxl⟩

theorem mem_preferredOrder_seven {c : Int} (h0 : 0 ≤ c) (h7 : c < 7) : c ∈ preferredOrder 7 := by
  have : preferredOrder 7 = [3, 2, 4, 1, 5, 0, 6] := by decide
  rw [this]
  interval_cases c <;> simp

/-- The parts of a `minimax` call on a 6x7 board on which the scan finds nothing and
which is not a leaf: the first legal column, and the loop that the call runs. -/
theorem minimaxFuel_inner {fuel : Nat} {b : Grid} (hs : Shape b 6 7) {depth : Int}
    (hnz : depth ≠ 0) (hlegal : ∃ c : Int, cell b 0 c = some 0)
    (hnone : ∀ c : Int, cell b 0 c = some 0 → dropWins b 2 c = false ∧ dropWins b 1 c = false)
    (alpha beta : Int) (maximizing : Bool) :
    ∃ c0 : Int, cell b 0 c0 = some 0 ∧
      minimaxFuel (fuel + 1) b depth alpha beta maximizing =
        if maximizing = true then
          maxLoop (fun b1 a be => minimaxFuel fuel b1 (depth - 1) a be false) b
            (preferredOrder 7) MinInt32 c0 alpha beta
        else
          minLoop (fun b1 a be => minimaxFuel fuel b1 (depth - 1) a be true) b
            (preferredOrder 7) MaxInt32 c0 alpha beta := by
  cases hb : b with
  | nil => rw [hb] at hs; exact absurd hs.1 (by decide)
  | cons row0 rest =>
    rw [← hb]
    have hrow : row0.length = 7 := by
      rw [hb] at hs; exact hs.2 row0 (List.mem_cons_self _ _)
    have hmem : ∀ x : Int, x ∈ emptyTops row0 ↔ cell b 0 x = some 0 := by
      intro x; rw [hb]; exact mem_emptyTops_iff_cell row0 rest x
    have hrange : ∀ x ∈ emptyTops row0, 0 ≤ x ∧ x < ((7 : Nat) : Int) := by
      intro x hx
      have hcell := (hmem x).mp hx
      exact ⟨(cell_some_nonneg hcell).2, cell_some_lt_width hs hcell⟩
    have hscan := immediateScan_eq_find hs (by decide) (emptyTops row0) hrange
    have hfind : (emptyTops row0).find? (fun x => dropWins b 2 x || dropWins b 1 x) = none := by
      apply find_none_of_all
      intro x hx
      have := hnone x ((hmem x).mp hx)
      simp [this.1, this.2]
    rw [hfind] at hscan
    simp only [Option.map_none'] at hscan
    obtain ⟨cl, hcl⟩ := hlegal
    have hne : emptyTops row0 ≠ [] := by
      intro e
      have := (hmem cl).mpr hcl
      rw [e] at this
      simp at this
    obtain ⟨c0, cs0, hc0⟩ := List.exists_cons_of_ne_nil hne
    have hhead : (emptyTops row0).head? = some c0 := by rw [hc0]; rfl
    have hleaf : ¬ (depth = 0 ∨ (emptyTops row0).length = 0) := by
      rintro (e | e)
      · exact hnz e
      · exact hne (List.length_eq_zero.mp e)
    refine ⟨c0, (hmem c0).mp (by rw [hc0]; exact List.mem_cons_self _ _), ?_⟩
    rw [hb] at hscan ⊢
    conv_lhs => unfold minimaxFuel
    simp only [hscan, hleaf, if_false, hhead, hrow]

/-- The three ways of a `minimax` call on a 6x7 board, for the search with and
without pruning alike: the scan finds a winning column; or it finds none and the
node is a leaf; or it finds none and the call runs its loop. -/
theorem node_cases (fuel : Nat) {b : Grid} (hs : Shape b 6 7) (depth alpha beta : Int)
    (maximizing : Bool) :
    (∃ s c, (s = 1000000 ∨ s = -1000000) ∧ cell b 0 c = some 0 ∧
      (dropWins b 2 c = true ∨ dropWins b 1 c = true) ∧
      minimaxFuel (fuel + 1) b depth alpha beta maximizing = some (s, c) ∧
      plainFuel (fuel + 1) b depth maximizing = some (s, c)) ∨
    (∃ s, (depth = 0 ∨ ∀ c : Int, cell b 0 c ≠ some 0) ∧
      -16800000 ≤ s ∧ s ≤ 16800000 ∧
      (∀ c : Int, cell b 0 c = some 0 → dropWins b 2 c = false ∧ dropWins b 1 c = false) ∧
      minimaxFuel (fuel + 1) b depth alpha beta maximizing = some (s, -1) ∧
      plainFuel (fuel + 1) b depth maximizing = some (s, -1)) ∨
    (depth ≠ 0 ∧
      (∀ c : Int, cell b 0 c = some 0 → dropWins b 2 c = false ∧ dropWins b 1 c = false) ∧
      ∃ c0 : Int, cell b 0 c0 = some 0 ∧
      minimaxFuel (fuel + 1) b depth alpha beta maximizing =
        (if maximizing = true then
          maxLoop (fun b1 a be => minimaxFuel fuel b1 (depth - 1) a be false) b
            (preferredOrder 7) MinInt32 c0 alpha beta
        else
          minLoop (fun b1 a be => minimaxFuel fuel b1 (depth - 1) a be true) b
            (preferredOrder 7) MaxInt32 c0 alpha beta) ∧
      plainFuel (fuel + 1) b depth maximizing =
        (if maximizing = true then
          maxPlain (fun b1 => plainFuel fuel b1 (depth - 1) false) b
            (preferredOrder 7) MinInt32 c0
        else
          minPlain (fun b1 => plainFuel fuel b1 (depth - 1) true) b
            (preferredOrder 7) MaxInt32 c0)) := by
  cases hb : b with
  | nil => rw [hb] at hs; exact absurd hs.1 (by decide)
  | cons row0 rest =>
    rw [← hb]
    have hrow : row0.length = 7 := by
      rw [hb] at hs; exact hs.2 row0 (List.mem_cons_self _ _)
    have hmem : ∀ x : Int, x ∈ emptyTops row0 ↔ cell b 0 x = some 0 := by
      intro x; rw [hb]; exact mem_emptyTops_iff_cell row0 rest x
    have hrange : ∀ x ∈ emptyTops row0, 0 ≤ x ∧ x < ((7 : Nat) : Int) := by
      intro x hx
      have hcell := (hmem x).mp hx
      exact ⟨(cell_some_nonneg hcell).2, cell_some_lt_width hs hcell⟩
    have hscan := immediateScan_eq_find hs (by decide) (emptyTops row0) hrange
    cases hfind : (emptyTops row0).find? (fun x => dropWins b 2 x || dropWins b 1 x) with
    | some c =>
      left
      rw [hfind] at hscan
      simp only [Option.map_some'] at hscan
      have hcm : c ∈ emptyTops row0 := List.mem_of_find?_eq_some hfind
      refine ⟨(if dropWins b 2 c = true then (1000000, c) else (-1000000, c)).1,
        (if dropWins b 2 c = true then (1000000, c) else (-1000000, c)).2, ?_, ?_, ?_, ?_, ?_⟩
      · split_ifs
        · exact Or.inl rfl
        · exact Or.inr rfl
      · have : (if dropWins b 2 c = true then ((1000000 : Int), c) else (-1000000, c)).2 = c := by
          split_ifs <;> rfl
        rw [this]; exact (hmem c).mp hcm
      · have : (if dropWins b 2 c = true then ((1000000 : Int), c) else (-1000000, c)).2 = c := by
          split_ifs <;> rfl
        rw [this]
        have hw := List.find?_some hfind
        simpa using hw
      · rw [hb] at hscan ⊢
        exact minimaxFuel_of_scan hscan _ _ _ _
      · rw [hb] at hscan ⊢
        unfold plainFuel
        simp only [hscan]
    | none =>
      right
      rw [hfind] at hscan
      simp only [Option.map_none'] at hscan
      have hnone : ∀ c : Int, cell b 0 c = some 0 →
          dropWins b 2 c = false ∧ dropWins b 1 c = false := by
        intro c hc
        have := (List.find?_eq_none.mp hfind) c ((hmem c).mpr hc)
        simpa using this
      by_cases hleaf : depth = 0 ∨ (emptyTops row0).length = 0
      · left
        obtain ⟨s, hsv, hlo, hhi⟩ := evaluateBoard_inRange hs
        refine ⟨s, ?_, hlo, hhi, hnone, ?_, ?_⟩
        · rcases hleaf with e | e
          · exact Or.inl e
          · right
            intro c hc
            have := (hmem c).mpr hc
            rw [List.length_eq_zero.mp e] at this
            simp at this
        · rw [hb] at hscan hsv ⊢
          unfold minimaxFuel
          simp only [hscan, hleaf, if_true, hsv, Option.map_some']
        · rw [hb] at hscan hsv ⊢
          unfold plainFuel
          simp only [hscan, hleaf, if_true, hsv, Option.map_some']
      · right
        have hnz : depth ≠ 0 := fun e => hleaf (Or.inl e)
        have hne : emptyTops row0 ≠ [] := fun e => hleaf (Or.inr (by rw [e]; rfl))
        obtain ⟨c0, cs0, hc0⟩ := List.exists_cons_of_ne_nil hne
        have hhead : (emptyTops row0).head? = some c0 := by rw [hc0]; rfl
        refine ⟨hnz, hnone, c0, (hmem c0).mp (by rw [hc0]; exact List.mem_cons_self _ _), ?_, ?_⟩
        · rw [hb] at hscan ⊢
          conv_lhs => unfold minimaxFuel
          simp only [hscan, hleaf, if_false, hhead, hrow]
        · rw [hb] at hscan ⊢
          conv_lhs => unfold plainFuel
          simp only [hscan, hleaf, if_false, hhead, hrow]

/-- What the maximizing loop without pruning returns: the largest of the initial
value and the scores of the open columns, with the first column that reaches it. -/
theorem maxPlain_spec {child : Grid → Option (Int × Int)} {b : Grid} {h w : Nat}
    (hs : Shape b h w) (hh : 0 < h) :
    ∀ (cs : List Int) (v0 c0 V C : Int), (∀ c ∈ cs, 0 ≤ c ∧ c < (w : Int)) →
      maxPlain child b cs v0 c0 = some (V, C) →
      v0 ≤ V ∧
      (∀ c ∈ cs, cell b 0 c = some 0 → ∃ sc, ChildScore child b 2 c sc ∧ sc ≤ V) ∧
      ((V = v0 ∧ C = c0) ∨ (v0 < V ∧ ∃ pre post, cs = pre ++ C :: post ∧
        cell b 0 C = some 0 ∧ ChildScore child b 2 C V ∧
        ∀ c ∈ pre, cell b 0 c = some 0 → ∃ sc, ChildScore child b 2 c sc ∧ sc < V)) := by
  intro cs
  induction cs with
  | nil =>
    intro v0 c0 V C _ h
    simp only [maxPlain, Option.some.injEq, Prod.mk.injEq] at h
    exact ⟨by omega, by intro c hc; simp at hc, Or.inl ⟨h.1.symm, h.2.symm⟩⟩
  | cons c cs ih =>
    intro v0 c0 V C hcs h
    have hc := hcs c (List.mem_cons_self _ _)
    have hcs1 : ∀ c1 ∈ cs, 0 ≤ c1 ∧ c1 < (w : Int) :=
      fun c1 h1 => hcs c1 (List.mem_cons_of_mem _ h1)
    obtain ⟨top, htop⟩ := cell_of_shape hs (r := 0) (by decide) (by exact_mod_cast hh)
      hc.1 hc.2
    unfold maxPlain at h
    simp only [htop] at h
    by_cases hz : top = 0
    · subst hz
      obtain ⟨b1, r1, ok1, hd1, hs1, _⟩ := dropPiece_of_shape hs hc.1 hc.2 2
      simp only [ne_eq, not_true_eq_false, if_false, copyGrid_of_shape hs hh, hd1] at h
      cases hch : child b1 with
      | none => simp [hch] at h
      | some res =>
        obtain ⟨sc, c2⟩ := res
        simp only [hch] at h
        have hcsc : ChildScore child b 2 c sc := ⟨b1, r1, ok1, c2, hd1, hch⟩
        obtain ⟨hle, hall, hres⟩ := ih _ _ V C hcs1 h
        by_cases hgt : sc > v0
        · simp only [hgt, if_true] at hle hres
          refine ⟨by omega, ?_, ?_⟩
          · intro x hx hxl
            rcases List.mem_cons.mp hx with e | e
            · subst e; exact ⟨sc, hcsc, hle⟩
            · exact hall x e hxl
          · right
            refine ⟨by omega, ?_⟩
            rcases hres with ⟨e1, e2⟩ | ⟨hlt, pre, post, hsplit, hCl, hCs, hpre⟩
            · subst e1 e2
              exact ⟨[], cs, rfl, htop, hcsc, by intro x hx; simp at hx⟩
            · refine ⟨c :: pre, post, by rw [hsplit]; rfl, hCl, hCs, ?_⟩
              intro x hx hxl
              rcases List.mem_cons.mp hx with e | e
              · subst e; exact ⟨sc, hcsc, hlt⟩
              · exact hpre x e hxl
        · simp only [hgt, if_false] at hle hres
          refine ⟨hle, ?_, ?_⟩
          · intro x hx hxl
            rcases List.mem_cons.mp hx with e | e
            · subst e; exact ⟨sc, hcsc, by omega⟩
            · exact hall x e hxl
          · rcases hres with hx | ⟨hlt, pre, post, hsplit, hCl, hCs, hpre⟩
            · exact Or.inl hx
            · right
              refine ⟨hlt, c :: pre, post, by rw [hsplit]; rfl, hCl, hCs, ?_⟩
              intro x hx hxl
              rcases List.mem_cons.mp hx with e | e
              · subst e; exact ⟨sc, hcsc, by omega⟩
              · exact hpre x e hxl
    · simp only [ne_eq, hz, not_false_eq_true, if_true] at h
      obtain ⟨hle, hall, hres⟩ := ih v0 c0 V C hcs1 h
      have hnl : cell b 0 c ≠ some 0 := by
        rw [htop]; intro e; simp only [Option.some.injEq] at e; exact hz e
      refine ⟨hle, ?_, ?_⟩
      · intro x hx hxl
        rcases List.mem_cons.mp hx with e | e
        · subst e; exact absurd hxl hnl
        · exact hall x e hxl
      · rcases hres with hx | ⟨hlt, pre, post, hsplit, hCl, hCs, hpre⟩
        · exact Or.inl hx
        · right
          refine ⟨hlt, c :: pre, post, by rw [hsplit]; rfl, hCl, hCs, ?_⟩
          intro x hx hxl
          rcases List.mem_cons.mp hx with e | e
          · subst e; exact absurd hxl hnl
          · exact hpre x e hxl

/-- What the minimizing loop without pruning returns: the smallest of the initial
value and the scores of the open columns, with the first column that reaches it. -/
theorem minPlain_spec {child : Grid → Option (Int × Int)} {b : Grid} {h w : Nat}
    (hs : Shape b h w) (hh : 0 < h) :
    ∀ (cs : List Int) (v0 c0 V C : Int), (∀ c ∈ cs, 0 ≤ c ∧ c < (w : Int)) →
      minPlain child b cs v0 c0 = some (V, C) →
      V ≤ v0 ∧
      (∀ c ∈ cs, cell b 0 c = some 0 → ∃ sc, ChildScore child b 1 c sc ∧ V ≤ sc) ∧
      ((V = v0 ∧ C = c0) ∨ (V < v0 ∧ ∃ pre post, cs = pre ++ C :: post ∧
        cell b 0 C = some 0 ∧ ChildScore child b 1 C V ∧
        ∀ c ∈ pre, cell b 0 c = some 0 → ∃ sc, ChildScore child b 1 c sc ∧ V < sc)) := by
  intro cs
  induction cs with
  | nil =>
    intro v0 c0 V C _ h
    simp only [minPlain, Option.some.injEq, Prod.mk.injEq] at h
    exact ⟨by omega, by intro c hc; simp at hc, Or.inl ⟨h.1.symm, h.2.symm⟩⟩
  | cons c cs ih =>
    intro v0 c0 V C hcs h
    have hc := hcs c (List.mem_cons_self _ _)
    have hcs1 : ∀ c1 ∈ cs, 0 ≤ c1 ∧ c1 < (w : Int) :=
      fun c1 h1 => hcs c1 (List.mem_cons_of_mem _ h1)
    obtain ⟨top, htop⟩ := cell_of_shape hs (r := 0) (by decide) (by exact_mod_cast hh)
      hc.1 hc.2
    unfold minPlain at h
    simp only [htop] at h
    by_cases hz : top = 0
    · subst hz
      obtain ⟨b1, r1, ok1, hd1, hs1, _⟩ := dropPiece_of_shape hs hc.1 hc.2 1
      simp only [ne_eq, not_true_eq_false, if_false, copyGrid_of_shape hs hh, hd1] at h
      cases hch : child b1 with
      | none => simp [hch] at h
      | some res =>
        obtain ⟨sc, c2⟩ := res
        simp only [hch] at h
        have hcsc : ChildScore child b 1 c sc := ⟨b1, r1, ok1, c2, hd1, hch⟩
        obtain ⟨hle, hall, hres⟩ := ih _ _ V C hcs1 h
        by_cases hgt : sc < v0
        · simp only [hgt, if_true] at hle hres
          refine ⟨by omega, ?_, ?_⟩
          · intro x hx hxl
            rcases List.mem_cons.mp hx with e | e
            · subst e; exact ⟨sc, hcsc, hle⟩
            · exact hall x e hxl
          · right
            refine ⟨by omega, ?_⟩
            rcases hres with ⟨e1, e2⟩ | ⟨hlt, pre, post, hsplit, hCl, hCs, hpre⟩
            · subst e1 e2
              exact ⟨[], cs, rfl, htop, hcsc, by intro x hx; simp at hx⟩
            · refine ⟨c :: pre, post, by rw [hsplit]; rfl, hCl, hCs, ?_⟩
              intro x hx hxl
              rcases List.mem_cons.mp hx with e | e
              · subst e; exact ⟨sc, hcsc, hlt⟩
              · exact hpre x e hxl
        · simp only [hgt, if_false] at hle hres
          refine ⟨hle, ?_, ?_⟩
          · intro x hx hxl
            rcases List.mem_cons.mp hx with e | e
            · subst e; exact ⟨sc, hcsc, by omega⟩
            · exact hall x e hxl
          · rcases hres with hx | ⟨hlt, pre, post, hsplit, hCl, hCs, hpre⟩
            · exact Or.inl hx
            · right
              refine ⟨hlt, c :: pre, post, by rw [hsplit]; rfl, hCl, hCs, ?_⟩
              intro x hx hxl
              rcases List.mem_cons.mp hx with e | e
              · subst e; exact ⟨sc, hcsc, by omega⟩
              · exact hpre x e hxl
    · simp only [ne_eq, hz, not_false_eq_true, if_true] at h
      obtain ⟨hle, hall, hres⟩ := ih v0 c0 V C hcs1 h
      have hnl : cell b 0 c ≠ some 0 := by
        rw [htop]; intro e; simp only [Option.some.injEq] at e; exact hz e
      refine ⟨hle, ?_, ?_⟩
      · intro x hx hxl
        rcases List.mem_cons.mp hx with e | e
        · subst e; exact absurd hxl hnl
        · exact hall x e hxl
      · rcases hres with hx | ⟨hlt, pre, post, hsplit, hCl, hCs, hpre⟩
        · exact Or.inl hx
        · right
          refine ⟨hlt, c :: pre, post, by rw [hsplit]; rfl, hCl, hCs, ?_⟩
          intro x hx hxl
          rcases List.mem_cons.mp hx with e | e
          · subst e; exact absurd hxl hnl
          · exact hpre x e hxl

theorem order7_range : ∀ c ∈ preferredOrder 7, 0 ≤ c ∧ c < ((7 : Nat) : Int) :=
  fun _ hc => mem_preferredOrder (by decide) hc

theorem legal_mem_order7 {b : Grid} (hs : Shape b 6 7) {c : Int} (hc : cell b 0 c = some 0) :
    c ∈ preferredOrder 7 :=
  mem_preferredOrder_seven (cell_some_nonneg hc).2 (by exact_mod_cast cell_some_lt_width hs hc)

/-- The board after a drop into an open column of a 6x7 board is a 6x7 board. -/
theorem shape_of_drop {b b1 : Grid} (hs : Shape b 6 7) {c p r : Int} {ok : Bool}
    (hc : cell b 0 c = some 0) (hd : dropPiece b c p = some (b1, r, ok)) : Shape b1 6 7 := by
  obtain ⟨b2, r2, ok2, hd2, hs2, _⟩ := dropPiece_of_shape hs (cell_some_nonneg hc).2
    (cell_some_lt_width hs hc) p
  rw [hd] at hd2
  simp only [Option.some.injEq, Prod.mk.injEq] at hd2
  rw [hd2.1]; exact hs2

theorem inRange_million (s : Int) (h : s = 1000000 ∨ s = -1000000) : InRange s := by
  unfold InRange MinInt32 MaxInt32
  rcases h with e | e <;> omega

theorem inRange_eval (s : Int) (h1 : -16800000 ≤ s) (h2 : s ≤ 16800000) : InRange s := by
  unfold InRange MinInt32 MaxInt32
  omega

/-- The search without pruning on a 6x7 board, with a budget above a non-negative
depth, returns, and its score lies strictly between `MinInt32` and `MaxInt32`. -/
theorem plainFuel_total : ∀ (fuel : Nat) (b : Grid) (depth : Int) (maximizing : Bool),
    Shape b 6 7 → 0 ≤ depth → depth < (fuel : Int) →
    ∃ v pc, plainFuel fuel b depth maximizing = some (v, pc) ∧ InRange v := by
  intro fuel
  induction fuel with
  | zero => intro b depth m _ h0 h1; omega
  | succ fuel ih =>
    intro b depth m hs hd0 hdf
    rcases node_cases fuel hs depth 0 0 m with
      ⟨s, c, hsc, _, _, _, hp⟩ | ⟨s, _, hlo, hhi, _, _, hp⟩ | ⟨hnz, _, c0, hc0, _, hp⟩
    · exact ⟨s, c, hp, inRange_million s hsc⟩
    · exact ⟨s, -1, hp, inRange_eval s hlo hhi⟩
    · have hdepth : 0 ≤ depth - 1 ∧ depth - 1 < (fuel : Int) := by
        push_cast at hdf; omega
      have hchild : ∀ (m1 : Bool) (b1 : Grid), Shape b1 6 7 →
          ∃ res, plainFuel fuel b1 (depth - 1) m1 = some res := by
        intro m1 b1 hs1
        obtain ⟨v, pc, hx, _⟩ := ih b1 (depth - 1) m1 hs1 hdepth.1 hdepth.2
        exact ⟨_, hx⟩
      have hrangeChild : ∀ (m1 : Bool) (p c sc : Int), cell b 0 c = some 0 →
          ChildScore (fun b1 => plainFuel fuel b1 (depth - 1) m1) b p c sc → InRange sc := by
        intro m1 p c sc hc ⟨b1, r, ok, c2, hd, hch⟩
        obtain ⟨v, pc, hx, hr⟩ := ih b1 (depth - 1) m1 (shape_of_drop hs hc hd)
          hdepth.1 hdepth.2
        simp only at hch
        rw [hch] at hx
        simp only [Option.some.injEq, Prod.mk.injEq] at hx
        rw [hx.1]; exact hr
      rw [hp]
      cases m with
      | true =>
        simp only [if_true]
        obtain ⟨V, C, hres, _, _⟩ := maxPlain_total hs (by decide) (hchild false)
          (preferredOrder 7) order7_range MinInt32 c0
        obtain ⟨_, hall, hatt⟩ := maxPlain_spec hs (by decide) _ _ _ _ _ order7_range hres
        obtain ⟨sc, hsc, hle⟩ := hall c0 (legal_mem_order7 hs hc0) hc0
        have hr0 := hrangeChild false 2 c0 sc hc0 hsc
        refine ⟨V, C, hres, ?_⟩
        rcases hatt with ⟨e, _⟩ | ⟨_, _, _, _, hCl, hCs, _⟩
        · unfold InRange at hr0 ⊢; omega
        · exact hrangeChild false 2 C V hCl hCs
      | false =>
        simp only [Bool.false_eq_true, if_false]
        obtain ⟨V, C, hres, _, _⟩ := minPlain_total hs (by decide) (hchild true)
          (preferredOrder 7) order7_range MaxInt32 c0
        obtain ⟨_, hall, hatt⟩ := minPlain_spec hs (by decide) _ _ _ _ _ order7_range hres
        obtain ⟨sc, hsc, hle⟩ := hall c0 (legal_mem_order7 hs hc0) hc0
        have hr0 := hrangeChild true 1 c0 sc hc0 hsc
        refine ⟨V, C, hres, ?_⟩
        rcases hatt with ⟨e, _⟩ | ⟨_, _, _, _, hCl, hCs, _⟩
        · unfold InRange at hr0 ⊢; omega
        · exact hrangeChild true 1 C V hCl hCs

/-- Every score that `minimax` returns on a 6x7 board, with a budget above a
non-negative depth, lies strictly between `MinInt32` and `MaxInt32`. -/
theorem minimaxFuel_inRange : ∀ (fuel : Nat) (b : Grid) (depth alpha beta : Int)
    (maximizing : Bool), Shape b 6 7 → 0 ≤ depth → depth < (fuel : Int) →
    ∀ s col, minimaxFuel fuel b depth alpha beta maximizing = some (s, col) → InRange s := by
  intro fuel
  induction fuel with
  | zero => intro b depth alpha beta m _ h0 h1; omega
  | succ fuel ih =>
    intro b depth alpha beta m hs hd0 hdf s col hres
    rcases node_cases fuel hs depth alpha beta m with
      ⟨s1, c, hsc, _, _, hm, _⟩ | ⟨s1, _, hlo, hhi, _, hm, _⟩ | ⟨hnz, _, c0, hc0, hm, _⟩
    · rw [hm] at hres
      simp only [Option.some.injEq, Prod.mk.injEq] at hres
      rw [← hres.1]; exact inRange_million s1 hsc
    · rw [hm] at hres
      simp only [Option.some.injEq, Prod.mk.injEq] at hres
      rw [← hres.1]; exact inRange_eval s1 hlo hhi
    · have hdepth : 0 ≤ depth - 1 ∧ depth - 1 < (fuel : Int) := by
        push_cast at hdf; omega
      rw [hm] at hres
      cases m with
      | true =>
        simp only [if_true] at hres
        obtain ⟨_, hatt, hfirst⟩ := maxLoop_value hs (by decide) _ _ _ _ _ _ _
          order7_range hres
        obtain ⟨b1, a, be, sc, c2, hs1, hch, hle⟩ :=
          hfirst ⟨c0, legal_mem_order7 hs hc0, hc0⟩
        have hr0 := ih b1 (depth - 1) a be false hs1 hdepth.1 hdepth.2 sc c2 hch
        rcases hatt with ⟨e, _⟩ | ⟨hcl, b2, r, ok, a2, be2, c3, hd2, hch2⟩
        · unfold InRange at hr0 ⊢; omega
        · exact ih b2 (depth - 1) a2 be2 false (shape_of_drop hs hcl hd2) hdepth.1 hdepth.2
            s c3 hch2
      | false =>
        simp only [Bool.false_eq_true, if_false] at hres
        obtain ⟨_, hatt, hfirst⟩ := minLoop_value hs (by decide) _ _ _ _ _ _ _
          order7_range hres
        obtain ⟨b1, a, be, sc, c2, hs1, hch, hle⟩ :=
          hfirst ⟨c0, legal_mem_order7 hs hc0, hc0⟩
        have hr0 := ih b1 (depth - 1) a be true hs1 hdepth.1 hdepth.2 sc c2 hch
        rcases hatt with ⟨e, _⟩ | ⟨hcl, b2, r, ok, a2, be2, c3, hd2, hch2⟩
        · unfold InRange at hr0 ⊢; omega
        · exact ih b2 (depth - 1) a2 be2 true (shape_of_drop hs hcl hd2) hdepth.1 hdepth.2
            s c3 hch2

/-- The maximizing loop with pruning against the loop without: with recursive calls
that bound theirs, the result bounds the result without pruning, and inside the
window the values and the columns are the same. -/
theorem maxLoop_vs_plain {childR : Grid → Int → Int → Option (Int × Int)}
    {childP : Grid → Option (Int × Int)} {b : Grid} (hs : Shape b 6 7)
    (hP : ∀ b1, Shape b1 6 7 → ∃ res, childP b1 = some res)
    (hAB : ∀ b1 a be, Shape b1 6 7 → MinInt32 ≤ a → a < be → be ≤ MaxInt32 →
      ∀ r col, childR b1 a be = some (r, col) →
        ∃ v pc, childP b1 = some (v, pc) ∧ Bounds a be r v)
    (a0 be : Int) (ha : MinInt32 ≤ a0) (hab : a0 < be) (hbe : be ≤ MaxInt32) :
    ∀ (cs : List Int), (∀ c ∈ cs, 0 ≤ c ∧ c < ((7 : Nat) : Int)) →
      ∀ (vr cr ac vp cp : Int),
        (vr ≤ a0 → ac = a0) → (a0 < vr → ac = vr) → vr < be →
        (vr ≤ a0 → vp ≤ vr) → (a0 < vr → vp = vr ∧ cp = cr) →
        ∀ R col, maxLoop childR b cs vr cr ac be = some (R, col) →
          ∃ V pc, maxPlain childP b cs vp cp = some (V, pc) ∧
            (R ≤ a0 → V ≤ R) ∧ (be ≤ R → R ≤ V) ∧ (a0 < R → R < be → V = R ∧ pc = col) := by
  intro cs
  induction cs with
  | nil =>
    intro _ vr cr ac vp cp h1 h2 h3 h4 h5 R col h
    simp only [maxLoop, Option.some.injEq, Prod.mk.injEq] at h
    obtain ⟨e1, e2⟩ := h
    subst e1 e2
    exact ⟨vp, cp, rfl, h4, by intro hx; omega, fun hx _ => h5 hx⟩
  | cons c cs ih =>
    intro hcs vr cr ac vp cp h1 h2 h3 h4 h5 R col h
    have hc := hcs c (List.mem_cons_self _ _)
    have hcs1 : ∀ c1 ∈ cs, 0 ≤ c1 ∧ c1 < ((7 : Nat) : Int) :=
      fun c1 hx => hcs c1 (List.mem_cons_of_mem _ hx)
    obtain ⟨top, htop⟩ := cell_of_shape hs (r := 0) (by decide) (by decide) hc.1 hc.2
    unfold maxLoop at h
    simp only [htop] at h
    by_cases hz : top = 0
    · subst hz
      obtain ⟨b1, r1, ok1, hd1, hs1, _⟩ := dropPiece_of_shape hs hc.1 hc.2 2
      simp only [ne_eq, not_true_eq_false, if_false, copyGrid_of_shape hs (by decide : 0 < 6),
        hd1] at h
      cases hch : childR b1 ac be with
      | none => simp [hch] at h
      | some res =>
        obtain ⟨sc, c2⟩ := res
        simp only [hch] at h
        have hac : MinInt32 ≤ ac ∧ ac < be := by omega
        obtain ⟨pv, pc2, hpch, hb1, hb2, hb3⟩ := hAB b1 ac be hs1 hac.1 hac.2 hbe sc c2 hch
        have hplain : maxPlain childP b (c :: cs) vp cp =
            maxPlain childP b cs (if pv > vp then pv else vp) (if pv > vp then c else cp) := by
          conv_lhs => unfold maxPlain
          simp only [htop, ne_eq, not_true_eq_false, if_false,
            copyGrid_of_shape hs (by decide : 0 < 6), hd1, hpch]
        rw [hplain]
        by_cases hcut : (if (if sc > vr then sc else vr) > ac then (if sc > vr then sc else vr)
            else ac) ≥ be
        · simp only [hcut, if_true, Option.some.injEq, Prod.mk.injEq] at h
          obtain ⟨e1, e2⟩ := h
          obtain ⟨V, pc, hres, hle, _⟩ := maxPlain_total hs (by decide) hP cs hcs1
            (if pv > vp then pv else vp) (if pv > vp then c else cp)
          refine ⟨V, pc, hres, ?_, ?_, ?_⟩
          · intro hx; omega
          · intro _; omega
          · intro _ hx; omega
        · simp only [hcut, if_false] at h
          refine ih hcs1 _ _ _ _ _ ?_ ?_ ?_ ?_ ?_ R col h
          · intro hx; omega
          · intro hx; omega
          · omega
          · intro hx; omega
          · intro hx
            refine ⟨by omega, ?_⟩
            by_cases hgt : sc > vr
            · have hpg : pv > vp := by omega
              simp only [hgt, hpg, if_true]
            · have hpg : ¬ pv > vp := by omega
              have hcc : cp = cr := (h5 (by omega)).2
              simp only [hgt, hpg, if_false, hcc]
    · simp only [ne_eq, hz, not_false_eq_true, if_true] at h
      have hplain : maxPlain childP b (c :: cs) vp cp = maxPlain childP b cs vp cp := by
        conv_lhs => unfold maxPlain
        simp only [htop, ne_eq, hz, not_false_eq_true, if_true]
      rw [hplain]
      exact ih hcs1 vr cr ac vp cp h1 h2 h3 h4 h5 R col h

/-- The minimizing loop with pruning against the loop without; the mirror image of
`maxLoop_vs_plain`. -/
theorem minLoop_vs_plain {childR : Grid → Int → Int → Option (Int × Int)}
    {childP : Grid → Option (Int × Int)} {b : Grid} (hs : Shape b 6 7)
    (hP : ∀ b1, Shape b1 6 7 → ∃ res, childP b1 = some res)
    (hAB : ∀ b1 a be, Shape b1 6 7 → MinInt32 ≤ a → a < be → be ≤ MaxInt32 →
      ∀ r col, childR b1 a be = some (r, col) →
        ∃ v pc, childP b1 = some (v, pc) ∧ Bounds a be r v)
    (a be0 : Int) (ha : MinInt32 ≤ a) (hab : a < be0) (hbe : be0 ≤ MaxInt32) :
    ∀ (cs : List Int), (∀ c ∈ cs, 0 ≤ c ∧ c < ((7 : Nat) : Int)) →
      ∀ (vr cr bc vp cp : Int),
        (be0 ≤ vr → bc = be0) → (vr < be0 → bc = vr) → a < vr →
        (be0 ≤ vr → vr ≤ vp) → (vr < be0 → vp = vr ∧ cp = cr) →
        ∀ R col, minLoop childR b cs vr cr a bc = some (R, col) →
          ∃ V pc, minPlain childP b cs vp cp = some (V, pc) ∧
            (R ≤ a → V ≤ R) ∧ (be0 ≤ R → R ≤ V) ∧ (a < R → R < be0 → V = R ∧ pc = col) := by
  intro cs
  induction cs with
  | nil =>
    intro _ vr cr bc vp cp h1 h2 h3 h4 h5 R col h
    simp only [minLoop, Option.some.injEq, Prod.mk.injEq] at h
    obtain ⟨e1, e2⟩ := h
    subst e1 e2
    exact ⟨vp, cp, rfl, by intro hx; omega, h4, fun _ hx => h5 hx⟩
  | cons c cs ih =>
    intro hcs vr cr bc vp cp h1 h2 h3 h4 h5 R col h
    have hc := hcs c (List.mem_cons_self _ _)
    have hcs1 : ∀ c1 ∈ cs, 0 ≤ c1 ∧ c1 < ((7 : Nat) : Int) :=
      fun c1 hx => hcs c1 (List.mem_cons_of_mem _ hx)
    obtain ⟨top, htop⟩ := cell_of_shape hs (r := 0) (by decide) (by decide) hc.1 hc.2
    unfold minLoop at h
    simp only [htop] at h
    by_cases hz : top = 0
    · subst hz
      obtain ⟨b1, r1, ok1, hd1, hs1, _⟩ := dropPiece_of_shape hs hc.1 hc.2 1
      simp only [ne_eq, not_true_eq_false, if_false, copyGrid_of_shape hs (by decide : 0 < 6),
        hd1] at h
      cases hch : childR b1 a bc with
      | none => simp [hch] at h
      | some res =>
        obtain ⟨sc, c2⟩ := res
        simp only [hch] at h
        have hbc : a < bc ∧ bc ≤ MaxInt32 := by omega
        obtain ⟨pv, pc2, hpch, hb1, hb2, hb3⟩ := hAB b1 a bc hs1 ha hbc.1 hbc.2 sc c2 hch
        have hplain : minPlain childP b (c :: cs) vp cp =
            minPlain childP b cs (if pv < vp then pv else vp) (if pv < vp then c else cp) := by
          conv_lhs => unfold minPlain
          simp only [htop, ne_eq, not_true_eq_false, if_false,
            copyGrid_of_shape hs (by decide : 0 < 6), hd1, hpch]
        rw [hplain]
        by_cases hcut : a ≥ (if (if sc < vr then sc else vr) < bc then (if sc < vr then sc else vr)
            else bc)
        · simp only [hcut, if_true, Option.some.injEq, Prod.mk.injEq] at h
          obtain ⟨e1, e2⟩ := h
          obtain ⟨V, pc, hres, hle, _⟩ := minPlain_total hs (by decide) hP cs hcs1
            (if pv < vp then pv else vp) (if pv < vp then c else cp)
          refine ⟨V, pc, hres, ?_, ?_, ?_⟩
          · intro _; omega
          · intro hx; omega
          · intro hx _; omega
        · simp only [hcut, if_false] at h
          refine ih hcs1 _ _ _ _ _ ?_ ?_ ?_ ?_ ?_ R col h
          · intro hx; omega
          · intro hx; omega
          · omega
          · intro hx; omega
          · intro hx
            refine ⟨by omega, ?_⟩
            by_cases hgt : sc < vr
            · have hpg : pv < vp := by omega
              simp only [hgt, hpg, if_true]
            · have hpg : ¬ pv < vp := by omega
              have hcc : cp = cr := (h5 (by omega)).2
              simp only [hgt, hpg, if_false, hcc]
    · simp only [ne_eq, hz, not_false_eq_true, if_true] at h
      have hplain : minPlain childP b (c :: cs) vp cp = minPlain childP b cs vp cp := by
        conv_lhs => unfold minPlain
        simp only [htop, ne_eq, hz, not_false_eq_true, if_true]
      rw [hplain]
      exact ih hcs1 vr cr bc vp cp h1 h2 h3 h4 h5 R col h

/-- Alpha-beta pruning is sound. On a 6x7 board, with a budget above a non-negative
depth and a window `alpha < beta` inside the 32-bit range, the result of `minimax`
bounds the result of the search without pruning, and when its score lies inside
the window the two searches return the same score and the same column. -/
theorem minimaxFuel_vs_plain : ∀ (fuel : Nat) (b : Grid) (depth alpha beta : Int)
    (maximizing : Bool), Shape b 6 7 → 0 ≤ depth → depth < (fuel : Int) →
    MinInt32 ≤ alpha → alpha < beta → beta ≤ MaxInt32 →
    ∀ r col, minimaxFuel fuel b depth alpha beta maximizing = some (r, col) →
      ∃ v pc, plainFuel fuel b depth maximizing = some (v, pc) ∧
        (r ≤ alpha → v ≤ r) ∧ (beta ≤ r → r ≤ v) ∧
        (alpha < r → r < beta → v = r ∧ pc = col) := by
  intro fuel
  induction fuel with
  | zero => intro b depth alpha beta m _ h0 h1; omega
  | succ fuel ih =>
    intro b depth alpha beta m hs hd0 hdf ha hab hbe r col hres
    rcases node_cases fuel hs depth alpha beta m with
      ⟨s1, c, _, _, _, hm, hp⟩ | ⟨s1, _, _, _, _, hm, hp⟩ | ⟨hnz, _, c0, hc0, hm, hp⟩
    · rw [hm] at hres
      simp only [Option.some.injEq, Prod.mk.injEq] at hres
      obtain ⟨e1, e2⟩ := hres
      subst e1 e2
      exact ⟨s1, c, hp, fun _ => le_refl _, fun _ => le_refl _, fun _ _ => ⟨rfl, rfl⟩⟩
    · rw [hm] at hres
      simp only [Option.some.injEq, Prod.mk.injEq] at hres
      obtain ⟨e1, e2⟩ := hres
      subst e1 e2
      exact ⟨s1, -1, hp, fun _ => le_refl _, fun _ => le_refl _, fun _ _ => ⟨rfl, rfl⟩⟩
    · have hdepth : 0 ≤ depth - 1 ∧ depth - 1 < (fuel : Int) := by
        push_cast at hdf; omega
      have hP : ∀ (m1 : Bool) (b1 : Grid), Shape b1 6 7 →
          ∃ res, (fun b2 => plainFuel fuel b2 (depth - 1) m1) b1 = some res := by
        intro m1 b1 hs1
        obtain ⟨v, pc, hx, _⟩ := plainFuel_total fuel b1 (depth - 1) m1 hs1 hdepth.1 hdepth.2
        exact ⟨_, hx⟩
      have hAB : ∀ (m1 : Bool) (b1 : Grid) (a be : Int), Shape b1 6 7 → MinInt32 ≤ a → a < be →
          be ≤ MaxInt32 → ∀ r1 col1,
          (fun b2 a2 be2 => minimaxFuel fuel b2 (depth - 1) a2 be2 m1) b1 a be
            = some (r1, col1) →
          ∃ v pc, (fun b2 => plainFuel fuel b2 (depth - 1) m1) b1 = some (v, pc) ∧
            Bounds a be r1 v := by
        intro m1 b1 a be hs1 h1 h2 h3 r1 col1 hx
        obtain ⟨v, pc, hv, g1, g2, g3⟩ := ih b1 (depth - 1) a be m1 hs1 hdepth.1 hdepth.2
          h1 h2 h3 r1 col1 hx
        exact ⟨v, pc, hv, g1, g2, fun x y => (g3 x y).1⟩
      rw [hm] at hres
      rw [hp]
      have hmin : MinInt32 < MaxInt32 := by unfold MinInt32 MaxInt32; omega
      cases m with
      | true =>
        simp only [if_true] at hres ⊢
        exact maxLoop_vs_plain hs (hP false) (hAB false) alpha beta ha hab hbe
          (preferredOrder 7) order7_range MinInt32 c0 alpha MinInt32 c0
          (fun _ => rfl) (fun hx => by omega) (by omega) (fun _ => le_refl _)
          (fun hx => by omega) r col hres
      | false =>
        simp only [Bool.false_eq_true, if_false] at hres ⊢
        exact minLoop_vs_plain hs (hP true) (hAB true) alpha beta ha hab hbe
          (preferredOrder 7) order7_range MaxInt32 c0 beta MaxInt32 c0
          (fun _ => rfl) (fun hx => by omega) (by omega) (fun _ => le_refl _)
          (fun hx => by omega) r col hres

/-- The budget of a `minimax` call at a depth of at least 1. -/
theorem minimaxBudget_succ (b : Grid) {depth : Int} (hdepth : 1 ≤ depth) :
    ∃ n : Nat, minimaxBudget b depth = (n + 1) + 1 ∧ ((n : Int) + 1 = depth) ∧
      ∀ b1 : Grid, minimaxBudget b1 (depth - 1) = n + 1 := by
  refine ⟨depth.toNat - 1, ?_, by omega, ?_⟩
  · unfold minimaxBudget
    rw [if_pos (by omega)]
    omega
  · intro b1
    unfold minimaxBudget
    rw [if_pos (by omega)]
    omega

/-- The score of a child in the loop without pruning is the score `plainAfter` of
its column. -/
theorem plainAfter_of_childScore {b : Grid} {depth : Int} {n : Nat}
    (hbud : ∀ b1 : Grid, minimaxBudget b1 (depth - 1) = n + 1) {c sc : Int}
    (h : ChildScore (fun b1 => plainFuel (n + 1) b1 (depth - 1) false) b 2 c sc) :
    plainAfter b depth c = some sc := by
  obtain ⟨b1, r, ok, c2, hd, hch⟩ := h
  unfold plainAfter plainSearch
  simp only [hd, hbud b1]
  simp only at hch
  rw [hch]
  rfl

/-- Claim C17. On every 6x7 board with a legal column on which neither player has
a column that wins at once, and for every depth `>= 1`:
`minimax(board, depth, MinInt32, MaxInt32, true)` returns the score and the column
of the same search without pruning (`plainSearch`: same scan, same leaf evaluation,
same loops, no cut-off). The score is the largest of the scores that the search
without pruning gives to the legal columns, and the column is the first one in the
order 3,2,4,1,5,0,6 of `preferredOrder(7)` among the legal columns with that score.
Every score lies strictly between `MinInt32` and `MaxInt32`, and so does the score
of every `minimax` call on a 6x7 board at a depth `>= 0`. -/
theorem C17_pruning_refines (b : Grid) (depth : Int) (hs : Shape b 6 7)
    (hlegal : ∃ c : Int, cell b 0 c = some 0)
    (hno : ∀ c : Int, cell b 0 c = some 0 → ¬ WinsAt b 2 c ∧ ¬ WinsAt b 1 c)
    (hdepth : 1 ≤ depth) :
    ∃ s col, minimax b depth MinInt32 MaxInt32 true = some (s, col) ∧
      plainSearch b depth true = some (s, col) ∧ InRange s ∧
      cell b 0 col = some 0 ∧ plainAfter b depth col = some s ∧
      (∀ c : Int, cell b 0 c = some 0 →
        ∃ sc, plainAfter b depth c = some sc ∧ sc ≤ s ∧ InRange sc) ∧
      preferredOrder 7 = [3, 2, 4, 1, 5, 0, 6] ∧
      (∃ pre post, preferredOrder 7 = pre ++ col :: post ∧
        ∀ c ∈ pre, cell b 0 c = some 0 → ∃ sc, plainAfter b depth c = some sc ∧ sc < s) ∧
      (∀ (b1 : Grid) (d a be : Int) (m : Bool) (s1 c1 : Int), Shape b1 6 7 → 0 ≤ d →
        minimax b1 d a be m = some (s1, c1) → InRange s1) := by
  have hd0 : 0 ≤ depth := by omega
  obtain ⟨n, hbud, hnd, hbud1⟩ := minimaxBudget_succ b hdepth
  have hfuel : depth < (((n + 1) + 1 : Nat) : Int) := by push_cast; omega
  have hall : ∀ (b1 : Grid) (d a be : Int) (m : Bool) (s1 c1 : Int), Shape b1 6 7 → 0 ≤ d →
      minimax b1 d a be m = some (s1, c1) → InRange s1 := by
    intro b1 d a be m s1 c1 hs1 hd hres
    unfold minimax at hres
    refine minimaxFuel_inRange _ b1 d a be m hs1 hd ?_ s1 c1 hres
    unfold minimaxBudget
    rw [if_pos hd]
    push_cast
    omega
  have hwin : ∀ c : Int, cell b 0 c = some 0 → ∀ p : Int, WinsAt b p c ↔ dropWins b p c = true :=
    fun c hc p => winsAt_iff_dropWins hs (cell_some_nonneg hc).2 (cell_some_lt_width hs hc) p
  rcases node_cases (n + 1) hs depth MinInt32 MaxInt32 true with
    ⟨s1, c, _, hc, hw, _, _⟩ | ⟨s1, hleaf, _, _, _, _, _⟩ | ⟨hnz, hnone, c0, hc0, hm, hp⟩
  · exfalso
    rcases hw with hw | hw
    · exact (hno c hc).1 ((hwin c hc 2).mpr hw)
    · exact (hno c hc).2 ((hwin c hc 1).mpr hw)
  · exfalso
    rcases hleaf with e | e
    · omega
    · obtain ⟨c, hc⟩ := hlegal
      exact e c hc
  · simp only [if_true] at hm hp
    obtain ⟨r, col, hr, _⟩ := minimaxFuel_total (h := 6) (w := 7) (by decide) (by decide)
      ((n + 1) + 1) b depth MinInt32 MaxInt32 true hs hd0 hfuel
    have hrange := minimaxFuel_inRange _ b depth MinInt32 MaxInt32 true hs hd0 hfuel r col hr
    obtain ⟨v, pc, hv, _, _, g3⟩ := minimaxFuel_vs_plain ((n + 1) + 1) b depth MinInt32 MaxInt32
      true hs hd0 hfuel (le_refl _) (by unfold MinInt32 MaxInt32; omega) (le_refl _) r col hr
    obtain ⟨e1, e2⟩ := g3 hrange.1 hrange.2
    subst e1 e2
    have hchild : ∀ b1 : Grid, Shape b1 6 7 →
        ∃ sc c2, plainFuel (n + 1) b1 (depth - 1) false = some (sc, c2) ∧ InRange sc := by
      intro b1 hs1
      exact plainFuel_total (n + 1) b1 (depth - 1) false hs1 (by omega) (by push_cast; omega)
    have hscore : ∀ c sc : Int, cell b 0 c = some 0 →
        ChildScore (fun b1 => plainFuel (n + 1) b1 (depth - 1) false) b 2 c sc → InRange sc := by
      intro c sc hc ⟨b1, r1, ok, c2, hdrop, hch⟩
      obtain ⟨sc1, c3, hsc1, hin⟩ := hchild b1 (shape_of_drop hs hc hdrop)
      simp only at hch
      rw [hch] at hsc1
      simp only [Option.some.injEq, Prod.mk.injEq] at hsc1
      rw [hsc1.1]
      exact hin
    have hplain := hv
    rw [hp] at hplain
    obtain ⟨_, hcols, hfirst⟩ := maxPlain_spec hs (by decide) (preferredOrder 7) MinInt32 c0
      v pc order7_range hplain
    have hsearch : plainSearch b depth true = some (v, pc) := by
      unfold plainSearch; rw [hbud]; exact hv
    have hmini : minimax b depth MinInt32 MaxInt32 true = some (v, pc) := by
      unfold minimax; rw [hbud]; exact hr
    rcases hfirst with ⟨e, _⟩ | ⟨_, pre, post, hsplit, hcol, hcs, hpre⟩
    · exfalso
      have := hrange.1
      omega
    · refine ⟨v, pc, hmini, hsearch, hrange, hcol, plainAfter_of_childScore hbud1 hcs, ?_,
        by decide, ⟨pre, post, hsplit, ?_⟩, hall⟩
      · intro c hc
        obtain ⟨sc, hsc, hle⟩ := hcols c (legal_mem_order7 hs hc) hc
        exact ⟨sc, plainAfter_of_childScore hbud1 hsc, hle, hscore c sc hc hsc⟩
      · intro c hcpre hc
        obtain ⟨sc, hsc, hlt⟩ := hpre c hcpre hc
        exact ⟨sc, plainAfter_of_childScore hbud1 hsc, hlt⟩

/-- The statement of C17 on the empty board at the depth 4 of the expert bot. -/
theorem C17_pruning_refines_witness :
    ∃ s col, minimax NewGame.Board 4 MinInt32 MaxInt32 true = some (s, col) ∧
      plainSearch NewGame.Board 4 true = some (s, col) ∧ InRange s ∧
      cell NewGame.Board 0 col = some 0 ∧ plainAfter NewGame.Board 4 col = some s := by
  obtain ⟨s, col, h1, h2, h3, h4, h5, _⟩ := C17_pruning_refines NewGame.Board 4 (by decide)
    ⟨0, by decide⟩
    (fun c hc =>
      ⟨not_winsAt_of_dropWins (b := NewGame.Board) (by decide) 2
          (by intro c h0 h7; interval_cases c <;> decide) c hc,
        not_winsAt_of_dropWins (b := NewGame.Board) (by decide) 1
          (by intro c h0 h7; interval_cases c <;> decide) c hc⟩)
    (by decide)
  exact ⟨s, col, h1, h2, h3, h4, h5⟩

/-- A board reached from a fresh game with nobody the winner has no line of four. -/
theorem no_line_of_playAll {cols : List Int} {g : Game}
    (hplay : playAll NewGame cols = some g) (hw : g.Winner = 0) :
    Shape g.Board 6 7 ∧ Gravity g.Board ∧ ¬ HasLine g.Board 1 ∧ ¬ HasLine g.Board 2 := by
  have hreach := reachable_playAll _ _ _ (Reachable.start "Joueur 1" "Joueur 2") hplay
  have hinv := inv_of_reachable hreach
  rcases winnerInv_of_reachable hreach with ⟨_, h1, h2⟩ | ⟨e, _⟩ | ⟨e, _⟩
  · exact ⟨hinv.1, hinv.2.2, h1, h2⟩
  · rw [hw] at e; exact absurd e (by decide)
  · rw [hw] at e; exact absurd e (by decide)

/-- A drop described by `AfterDrop` is the drop that `dropPiece` makes. -/
theorem dropPiece_of_afterDrop {b b1 : Grid} {h w : Nat} (hs : Shape b h w) {p c : Int}
    (hd : AfterDrop b p c b1) : ∃ r, dropPiece b c p = some (b1, r, true) := by
  obtain ⟨r, hcell, hbelow, hset⟩ := hd
  have hc0 := (cell_some_nonneg hcell).2
  have hr0 := (cell_some_nonneg hcell).1
  have hrl := cell_some_lt hcell
  have hcw := cell_some_lt_width hs hcell
  obtain ⟨b2, r2, ok, hdrop, _, _⟩ := dropPiece_of_shape hs hc0 hcw p
  rcases dropPieceLoop_spec b c p _ _ _ _ hdrop with
    ⟨_, _, _, hall⟩ | ⟨hok, rn, hrn, hlt, hcn, hbn, hsetn⟩
  · exfalso
    obtain ⟨n, rfl⟩ := Int.eq_ofNat_of_zero_le hr0
    obtain ⟨v, hv, hne⟩ := hall n (by omega)
    rw [hcell] at hv
    simp only [Option.some.injEq] at hv
    exact hne hv.symm
  · have hrr : r = rn := by
      rcases lt_trichotomy r (rn : Int) with hlt1 | heq | hgt
      · exfalso
        obtain ⟨v, hv, hne⟩ := hbelow rn hlt1 (by omega)
        rw [hcn] at hv
        simp only [Option.some.injEq] at hv
        exact hne hv.symm
      · exact heq
      · exfalso
        obtain ⟨n, rfl⟩ := Int.eq_ofNat_of_zero_le hr0
        obtain ⟨v, hv, hne⟩ := hbn n (by omega) (by omega)
        rw [hcell] at hv
        simp only [Option.some.injEq] at hv
        exact hne hv.symm
    subst hrr
    rw [hset] at hsetn
    simp only [Option.some.injEq] at hsetn
    subst hsetn hok hrn
    exact ⟨_, hdrop⟩

/-- Claim C12 fails on the code. The board `handsWin` is reached from a fresh game by
the moves `handsWinMoves`, with player 2 to move and no winner; it respects
gravity, has no line of four, and nobody wins at once. The legal column 2 wins
by force: after player 2 drops into it player 1 has no legal column completing a
line of four, and after every reply of player 1 player 2 completes a line of four.
Yet at depth 1 and at depth 4 `minimax` returns column 3 with the score `1000000`,
and `AIPickMove` of the expert bot returns column 3, after which player 1
completes a line of four in column 3. The cause: on the board after the drop into
column 3, where player 1 is to move, `minimax` returns `1000000` for every depth,
alpha and beta, because its scan finds the drop of player 2 into column 2 before
it looks at the drop of player 1 into column 3. -/
theorem C12_minimax_hands_win :
    playAll NewGame handsWinMoves
        = some { NewGame with Board := handsWin, CurrentPlayer := 2 } ∧
    Shape handsWin 6 7 ∧ Gravity handsWin ∧ ¬ HasLine handsWin 1 ∧ ¬ HasLine handsWin 2 ∧
    (∀ c : Int, cell handsWin 0 c = some 0 → ¬ WinsAt handsWin 2 c ∧ ¬ WinsAt handsWin 1 c) ∧
    cell handsWin 0 2 = some 0 ∧ AfterDrop handsWin 2 2 handsWinAfter2 ∧
    NoReply handsWinAfter2 ∧
    (∀ (x : Int) (b2 : Grid), cell handsWinAfter2 0 x = some 0 →
      AfterDrop handsWinAfter2 1 x b2 → ∃ y : Int, cell b2 0 y = some 0 ∧ WinsAt b2 2 y) ∧
    minimax handsWin 1 MinInt32 MaxInt32 true = some (1000000, 3) ∧
    minimax handsWin 4 MinInt32 MaxInt32 true = some (1000000, 3) ∧
    (∀ seed : Nat, AIPickMove (expertOn handsWin) seed = some 3) ∧
    AfterDrop handsWin 2 3 handsWinAfter3 ∧
    cell handsWinAfter3 0 3 = some 0 ∧ WinsAt handsWinAfter3 1 3 ∧
    (∀ depth alpha beta : Int,
      minimax handsWinAfter3 depth alpha beta false = some (1000000, 2)) := by
  have hplay : playAll NewGame handsWinMoves
      = some { NewGame with Board := handsWin, CurrentPlayer := 2 } := by decide
  obtain ⟨hsh, hgr, hl1, hl2⟩ := no_line_of_playAll hplay rfl
  have hs2 : Shape handsWinAfter2 6 7 := by decide
  have hs3 : Shape handsWinAfter3 6 7 := by decide
  have hm4 : minimax handsWin 4 MinInt32 MaxInt32 true = some (1000000, 3) := by decide
  refine ⟨hplay, hsh, hgr, hl1, hl2, ?_, by decide,
    afterDrop_of_dropPiece (r := 3) (by decide), ?_, ?_, by decide, hm4, ?_,
    afterDrop_of_dropPiece (r := 2) (by decide), by decide, ?_, ?_⟩
  · intro c hc
    exact ⟨not_winsAt_of_dropWins hsh 2 (by intro c h0 h7; interval_cases c <;> decide) c hc,
      not_winsAt_of_dropWins hsh 1 (by intro c h0 h7; interval_cases c <;> decide) c hc⟩
  · exact not_winsAt_of_dropWins hs2 1 (by intro c h0 h7; interval_cases c <;> decide)
  · intro x b2 hx hdrop
    have h0 := (cell_some_nonneg hx).2
    have h7 := cell_some_lt_width hs2 hx
    obtain ⟨r, hd⟩ := dropPiece_of_afterDrop hs2 hdrop
    have h7i : x < 7 := by exact_mod_cast h7
    interval_cases x
    · exact absurd hx (by decide)
    · exact absurd hx (by decide)
    · have hval : dropPiece handsWinAfter2 2 1 = some
          ([[1, 2, 0, 0, 2, 1, 2], [1, 1, 0, 0, 1, 1, 1], [2, 2, 1, 0, 2, 2, 1],
            [1, 2, 2, 2, 1, 1, 1], [2, 2, 1, 1, 2, 2, 2], [2, 1, 1, 1, 2, 2, 1]], 2, true) := by
        decide
      rw [hval] at hd
      simp only [Option.some.injEq, Prod.mk.injEq] at hd
      rw [← hd.1]
      exact ⟨3, by decide,
        (winsAt_iff_dropWins (h := 6) (w := 7) (by decide) (by decide) (by decide) 2).mpr
          (by decide)⟩
    · have hval : dropPiece handsWinAfter2 3 1 = some
          ([[1, 2, 0, 0, 2, 1, 2], [1, 1, 0, 0, 1, 1, 1], [2, 2, 0, 1, 2, 2, 1],
            [1, 2, 2, 2, 1, 1, 1], [2, 2, 1, 1, 2, 2, 2], [2, 1, 1, 1, 2, 2, 1]], 2, true) := by
        decide
      rw [hval] at hd
      simp only [Option.some.injEq, Prod.mk.injEq] at hd
      rw [← hd.1]
      exact ⟨2, by decide,
        (winsAt_iff_dropWins (h := 6) (w := 7) (by decide) (by decide) (by decide) 2).mpr
          (by decide)⟩
    · exact absurd hx (by decide)
    · exact absurd hx (by decide)
    · exact absurd hx (by decide)
  · intro seed
    have hvm : ValidMoves (expertOn handsWin) = some [2, 3] := by decide
    have hclone : cloneBoard (expertOn handsWin) = some handsWin := by decide
    have h1 : ¬ ((expertOn handsWin).AIDifficulty = "debutant") := by decide
    have h2 : ¬ ((expertOn handsWin).AIDifficulty = "amateur") := by decide
    unfold AIPickMove
    simp only [hvm, h1, h2, hclone, hm4]
    simp
  · exact (winsAt_iff_dropWins hs3 (by decide) (by decide) 1).mpr (by decide)
  · intro depth alpha beta
    obtain ⟨n, hn⟩ := minimaxBudget_pos handsWinAfter3 depth
    have hscan : immediateScan handsWinAfter3 (emptyTops [1, 2, 0, 0, 2, 1, 2])
        = some (some (1000000, 2)) := by decide
    unfold minimax
    rw [hn]
    unfold handsWinAfter3 at hscan ⊢
    exact minimaxFuel_of_scan hscan _ _ _ _

/-- The board `handsTie` is reached from a fresh game, with player 2 to move and no
winner. At depth 2 and at depth 4 every legal column scores `-1000000`, and
`minimax` returns column 2, the first of them in the order of `preferredOrder`:
after player 2 drops into column 2 player 1 completes a line of four in column 2,
whereas after the drop into the legal column 4 player 1 has no legal column that
completes a line of four. -/
theorem handsTie_first_of_tie :
    playAll NewGame handsTieMoves
        = some { NewGame with Board := handsTie, CurrentPlayer := 2 } ∧
    Shape handsTie 6 7 ∧ Gravity handsTie ∧ ¬ HasLine handsTie 1 ∧ ¬ HasLine handsTie 2 ∧
    minimax handsTie 2 MinInt32 MaxInt32 true = some (-1000000, 2) ∧
    minimax handsTie 4 MinInt32 MaxInt32 true = some (-1000000, 2) ∧
    cell handsTie 0 4 = some 0 ∧ AfterDrop handsTie 2 4 handsTieAfter4 ∧
    NoReply handsTieAfter4 ∧
    AfterDrop handsTie 2 2 handsTieAfter2 ∧
    cell handsTieAfter2 0 2 = some 0 ∧ WinsAt handsTieAfter2 1 2 := by
  have hplay2 : playAll NewGame handsTieMoves
      = some { NewGame with Board := handsTie, CurrentPlayer := 2 } := by decide
  obtain ⟨hsh2, hgr2, hk1, hk2⟩ := no_line_of_playAll hplay2 rfl
  have ht2 : Shape handsTieAfter2 6 7 := by decide
  have ht4 : Shape handsTieAfter4 6 7 := by decide
  refine ⟨hplay2, hsh2, hgr2, hk1, hk2, by decide, by decide, by decide,
    afterDrop_of_dropPiece (r := 1) (by decide), ?_,
    afterDrop_of_dropPiece (r := 1) (by decide), by decide, ?_⟩
  · exact not_winsAt_of_dropWins ht4 1 (by intro c h0 h7; interval_cases c <;> decide)
  · exact (winsAt_iff_dropWins ht2 (by decide) (by decide) 1).mpr (by decide)

/-- What the column returned by `minimax` at the root is worth. For every 6x7 board
with a legal column and every depth `>= 1`, let `s` and `c` be the score and the
column returned by `minimax(board, depth, MinInt32, MaxInt32, true)`; `c` is a
legal column. (a) If player 1 has a legal column that completes a line of four and
player 2 has none, and there is a legal column `c1` such that after player 2 drops
into `c1` player 1 has no legal column completing a line of four, then after
player 2 drops into `c` player 1 likewise has none. (b) If
`-1000000 < s < 1000000`, then after player 2 drops into `c` player 1 has no legal
column completing a line of four. -/
theorem minimax_column_safe (b : Grid) (depth : Int) (hs : Shape b 6 7)
    (hdepth : 1 ≤ depth) (hlegal : ∃ x : Int, cell b 0 x = some 0) :
    ∃ s c, minimax b depth MinInt32 MaxInt32 true = some (s, c) ∧ cell b 0 c = some 0 ∧
      ((∃ x : Int, cell b 0 x = some 0 ∧ WinsAt b 1 x) →
        (∀ x : Int, cell b 0 x = some 0 → ¬ WinsAt b 2 x) →
        (∃ c1 b1, cell b 0 c1 = some 0 ∧ AfterDrop b 2 c1 b1 ∧ NoReply b1) →
        ∃ b1, AfterDrop b 2 c b1 ∧ NoReply b1) ∧
      (-1000000 < s → s < 1000000 → ∃ b1, AfterDrop b 2 c b1 ∧ NoReply b1) := by
  have hd0 : 0 ≤ depth := by omega
  obtain ⟨n, hbud, hnd, _⟩ := minimaxBudget_succ b hdepth
  have hwin : ∀ {b0 : Grid}, Shape b0 6 7 → ∀ x : Int, cell b0 0 x = some 0 → ∀ p : Int,
      WinsAt b0 p x ↔ dropWins b0 p x = true :=
    fun hs0 x hx p => winsAt_iff_dropWins hs0 (cell_some_nonneg hx).2 (cell_some_lt_width hs0 hx) p
  rcases node_cases (n + 1) hs depth MinInt32 MaxInt32 true with
    ⟨s, c, hsc, hc, hw, hm, _⟩ | ⟨s1, hleaf, _, _, _, _, _⟩ | ⟨hnz, hnone, c0, hc0, hm, _⟩
  · refine ⟨s, c, by unfold minimax; rw [hbud]; exact hm, hc, ?_, ?_⟩
    · rintro _ hno2 ⟨c1, b1, _, hdrop, hsafe⟩
      have hwc : WinsAt b 1 c := by
        rcases hw with hw | hw
        · exact absurd ((hwin hs c hc 2).mpr hw) (hno2 c hc)
        · exact (hwin hs c hc 1).mpr hw
      by_cases e : c = c1
      · subst e; exact ⟨b1, hdrop, hsafe⟩
      · exfalso
        obtain ⟨hl, hw1⟩ := threat_persists hdrop e hc hwc
        exact hsafe c hl hw1
    · intro h1 h2
      exfalso
      rcases hsc with e | e <;> omega
  · exfalso
    rcases hleaf with e | e
    · omega
    · obtain ⟨x, hx⟩ := hlegal
      exact e x hx
  · simp only [if_true] at hm
    have hfuel : depth < (((n + 1) + 1 : Nat) : Int) := by push_cast; omega
    obtain ⟨r, col, hr, hcol⟩ := minimaxFuel_total (h := 6) (w := 7) (by decide) (by decide)
      ((n + 1) + 1) b depth MinInt32 MaxInt32 true hs hd0 hfuel
    have hcl : cell b 0 col = some 0 := by
      rcases hcol with h | ⟨_, h | h⟩
      · exact h
      · omega
      · obtain ⟨x, hx⟩ := hlegal
        exact absurd hx (h x)
    refine ⟨r, col, by unfold minimax; rw [hbud]; exact hr, hcl, ?_, ?_⟩
    · rintro ⟨x, hx, hwx⟩ _ _
      exfalso
      rw [hwin hs x hx 1, (hnone x hx).2] at hwx
      exact absurd hwx (by decide)
    · intro h1 h2
      rw [hm] at hr
      obtain ⟨_, hor, _⟩ := maxLoop_value hs (by decide) (preferredOrder 7) MinInt32 c0
        MinInt32 MaxInt32 r col order7_range hr
      rcases hor with ⟨e, _⟩ | ⟨_, b1, r1, ok, a, be, c2, hdrop, hch⟩
      · exfalso
        unfold MinInt32 at e
        omega
      · have hs1 : Shape b1 6 7 := shape_of_drop hs hcl hdrop
        obtain ⟨b2, r2, ok2, hdrop2, _, hok⟩ := dropPiece_of_shape hs (cell_some_nonneg hcl).2
          (cell_some_lt_width hs hcl) 2
        rw [hdrop] at hdrop2
        simp only [Option.some.injEq, Prod.mk.injEq] at hdrop2
        have hoktrue : ok = true := by rw [hdrop2.2.2]; exact hok hcl
        subst hoktrue
        refine ⟨b1, afterDrop_of_dropPiece hdrop, ?_⟩
        have hnone1 : ∀ x : Int, cell b1 0 x = some 0 → dropWins b1 1 x = false := by
          rcases node_cases n hs1 (depth - 1) a be false with
            ⟨s2, c3, hsc, _, _, hm1, _⟩ | ⟨s2, _, _, _, hn1, _, _⟩ | ⟨_, hn1, _⟩
          · exfalso
            rw [hm1] at hch
            simp only [Option.some.injEq, Prod.mk.injEq] at hch
            rcases hsc with e | e <;> omega
          · exact fun x hx => (hn1 x hx).2
          · exact fun x hx => (hn1 x hx).2
        intro x hx hwx
        rw [hwin hs1 x hx 1, hnone1 x hx] at hwx
        exact absurd hwx (by decide)

theorem deref_append {m : Mem} {bd : BoardRef} (hv : Valid m bd) (fr : Mem) :
    deref (m ++ fr) bd = deref m bd := by
  unfold deref
  apply List.map_congr_left
  intro a ha
  have := hv a ha
  simp [List.getD_eq_getElem?_getD, List.getElem?_append_left this]

theorem valid_append {m : Mem} {bd : BoardRef} (hv : Valid m bd) (fr : Mem) :
    Valid (m ++ fr) bd := by
  intro a ha
  have := hv a ha
  simp only [List.length_append]
  omega

theorem deref_fresh (m rows : Mem) :
    deref (m ++ rows) (List.range' m.length rows.length) = rows := by
  unfold deref
  apply List.ext_getElem
  · simp
  · intro i h1 h2
    simp only [List.getElem_map, List.getElem_range', List.getD_eq_getElem?_getD, one_mul]
    rw [List.getElem?_append_right (by omega)]
    simp [h2]

theorem valid_fresh (m rows : Mem) : Valid (m ++ rows) (List.range' m.length rows.length) := by
  intro a ha
  rw [List.mem_range'_1] at ha
  simp only [List.length_append]
  omega

theorem copyGridM_eq {m : Mem} {bd : BoardRef} {rows : Grid}
    (h : copyGrid (deref m bd) = some rows) :
    copyGridM m bd = some (m ++ rows, List.range' m.length rows.length) := by
  unfold copyGrid at h
  unfold copyGridM
  cases hw : width (deref m bd) with
  | none => simp [hw] at h
  | some w =>
    simp only [hw, Option.some.injEq] at h ⊢
    subst h
    simp [deref]

theorem writeCell_fresh {m rows rows1 : Mem} {r c v : Int}
    (h : setCell rows r c v = some rows1) :
    writeCell (m ++ rows) (List.range' m.length rows.length) r c v = some (m ++ rows1) := by
  unfold writeCell
  rw [deref_fresh]
  unfold setCell at h
  cases hc : cell rows r c with
  | none => simp [hc] at h
  | some x =>
    simp only [hc, Option.some.injEq] at h ⊢
    have hn := (cell_some_nonneg hc).1
    have hlt := cell_some_lt hc
    have hr : r.toNat < rows.length := by omega
    have haddr : (List.range' m.length rows.length).getD r.toNat 0 = m.length + r.toNat := by
      simp [List.getD_eq_getElem?_getD, List.getElem?_range', hr]
    rw [haddr, ← h]
    have hget : (m ++ rows).getD (m.length + r.toNat) [] = rows.getD r.toNat [] := by
      simp [List.getD_eq_getElem?_getD, List.getElem?_append_right]
    rw [hget, List.set_append_right _ _ (by omega)]
    simp

theorem dropPieceLoopM_fresh (m rows : Mem) (col p : Int) :
    ∀ (n : Nat) (rows1 : Grid) (r : Int) (ok : Bool),
      dropPieceLoop rows col p n = some (rows1, r, ok) →
      dropPieceLoopM (m ++ rows) (List.range' m.length rows.length) col p n
        = some (m ++ rows1, r, ok) := by
  intro n
  induction n with
  | zero =>
    intro rows1 r ok h
    simp only [dropPieceLoop, Option.some.injEq, Prod.mk.injEq] at h
    obtain ⟨e1, e2, e3⟩ := h
    subst e1 e2 e3
    rfl
  | succ n ih =>
    intro rows1 r ok h
    unfold dropPieceLoop at h
    unfold dropPieceLoopM
    rw [deref_fresh]
    cases hc : cell rows n col with
    | none => simp [hc] at h
    | some v =>
      simp only [hc] at h ⊢
      by_cases hz : v = 0
      · simp only [hz, if_true] at h ⊢
        cases hset : setCell rows n col p with
        | none => simp [hset] at h
        | some b1 =>
          simp only [hset, Option.map_some', Option.some.injEq, Prod.mk.injEq] at h
          obtain ⟨e1, e2, e3⟩ := h
          subst e1 e2 e3
          simp only [writeCell_fresh hset, Option.map_some']
      · simp only [hz, if_false] at h ⊢
        exact ih rows1 r ok h

theorem dropPiece_length {b b1 : Grid} {col p r : Int} {ok : Bool}
    (h : dropPiece b col p = some (b1, r, ok)) : b1.length = b.length := by
  rcases dropPieceLoop_spec b col p _ _ _ _ h with ⟨_, e, _⟩ | ⟨_, rn, _, _, _, _, hset⟩
  · rw [e]
  · exact setCell_length hset

/-- A drop on a copy just made changes the copy only: the memory before the copy
is a prefix of the memory after the drop. -/
theorem copy_drop (m : Mem) (bd : BoardRef) {b0 b : Grid} {c p r : Int} {ok : Bool}
    (hcopy : copyGrid (deref m bd) = some b0) (hdrop : dropPiece b0 c p = some (b, r, ok)) :
    copyGridM m bd = some (m ++ b0, List.range' m.length b.length) ∧
    dropPieceM (m ++ b0) (List.range' m.length b.length) c p = some (m ++ b, r, ok) ∧
    deref (m ++ b) (List.range' m.length b.length) = b ∧
    Valid (m ++ b) (List.range' m.length b.length) := by
  have hlen := dropPiece_length hdrop
  refine ⟨by rw [hlen]; exact copyGridM_eq hcopy, ?_, deref_fresh m b, valid_fresh m b⟩
  rw [hlen]
  unfold dropPieceM
  rw [List.length_range']
  exact dropPieceLoopM_fresh m b0 c p _ _ _ _ hdrop

/-- The scan for an immediate win in memory returns what the scan on the contents
of the board returns, and the memory it was given is a prefix of the memory it
leaves. -/
theorem immediateScanM_sim (bd : BoardRef) (B : Grid) :
    ∀ (cs : List Int) (m : Mem), Valid m bd → deref m bd = B →
      ∀ res, immediateScan B cs = some res →
        ∃ fr, immediateScanM bd cs m = some (m ++ fr, res) := by
  intro cs
  induction cs with
  | nil =>
    intro m _ _ res h
    simp only [immediateScan, Option.some.injEq] at h
    subst h
    exact ⟨[], by simp [immediateScanM]⟩
  | cons c cs ih =>
    intro m hv hB res h
    unfold immediateScan at h
    cases hcopy : copyGrid B with
    | none => simp [hcopy] at h
    | some b0 =>
      simp only [hcopy] at h
      cases hd : dropPiece b0 c 2 with
      | none => simp [hd] at h
      | some t =>
        obtain ⟨b, r, ok⟩ := t
        simp only [hd] at h
        obtain ⟨k1, k2, k3, k4⟩ := copy_drop m bd (by rw [hB]; exact hcopy) hd
        unfold immediateScanM
        simp only [k1, k2, k3]
        cases hchk : (if ok = true then checkWinBoard b r c 2 else some false) with
        | none => simp [hchk] at h
        | some w =>
          simp only [hchk] at h ⊢
          cases w with
          | true =>
            simp only [Option.some.injEq] at h
            subst h
            exact ⟨b, rfl⟩
          | false =>
            simp only at h ⊢
            cases hd2 : dropPiece b0 c 1 with
            | none => simp [hd2] at h
            | some t2 =>
              obtain ⟨b2, r2, ok2⟩ := t2
              simp only [hd2] at h
              have hv1 : Valid (m ++ b) bd := valid_append hv b
              have hB1 : deref (m ++ b) bd = B := by rw [deref_append hv, hB]
              obtain ⟨j1, j2, j3, j4⟩ := copy_drop (m ++ b) bd
                (by rw [hB1]; exact hcopy) hd2
              simp only [j1, j2, j3]
              cases hchk2 : (if ok2 = true then checkWinBoard b2 r2 c 1 else some false) with
              | none => simp [hchk2] at h
              | some w2 =>
                simp only [hchk2] at h ⊢
                cases w2 with
                | true =>
                  simp only [Option.some.injEq] at h
                  subst h
                  exact ⟨b ++ b2, by rw [List.append_assoc]⟩
                | false =>
                  simp only at h ⊢
                  obtain ⟨fr, hfr⟩ := ih (m ++ b ++ b2) (valid_append hv1 b2)
                    (by rw [deref_append hv1, hB1]) res h
                  exact ⟨b ++ b2 ++ fr, by rw [hfr]; simp [List.append_assoc]⟩

/-- The maximizing loop in memory returns what the loop on the contents of the
board returns, and leaves the memory it was given as a prefix, when the recursive
calls do. -/
theorem maxLoopM_sim (child : Grid → Int → Int → Option (Int × Int))
    (childM : Mem → BoardRef → Int → Int → Option (Mem × Int × Int))
    (hchild : ∀ (m1 : Mem) (bd1 : BoardRef) (a be : Int) (res : Int × Int), Valid m1 bd1 →
      child (deref m1 bd1) a be = some res → ∃ fr, childM m1 bd1 a be = some (m1 ++ fr, res))
    (bd : BoardRef) (B : Grid) :
    ∀ (cs : List Int) (m : Mem) (value bestCol alpha beta : Int), Valid m bd →
      deref m bd = B → ∀ res, maxLoop child B cs value bestCol alpha beta = some res →
        ∃ fr, maxLoopM childM bd cs m value bestCol alpha beta = some (m ++ fr, res) := by
  intro cs
  induction cs with
  | nil =>
    intro m value bestCol alpha beta _ _ res h
    simp only [maxLoop, Option.some.injEq] at h
    subst h
    exact ⟨[], by simp [maxLoopM]⟩
  | cons c cs ih =>
    intro m value bestCol alpha beta hv hB res h
    unfold maxLoop at h
    unfold maxLoopM
    rw [hB]
    cases htop : cell B 0 c with
    | none => simp [htop] at h
    | some top =>
      simp only [htop] at h ⊢
      by_cases hz : top = 0
      swap
      · simp only [ne_eq, hz, not_false_eq_true, if_true] at h ⊢
        exact ih m value bestCol alpha beta hv hB res h
      · simp only [ne_eq, hz, not_true_eq_false, if_false] at h ⊢
        cases hcopy : copyGrid B with
        | none => simp [hcopy] at h
        | some b0 =>
          simp only [hcopy] at h
          cases hd : dropPiece b0 c 2 with
          | none => simp [hd] at h
          | some t =>
            obtain ⟨b, r, ok⟩ := t
            simp only [hd] at h
            obtain ⟨k1, k2, k3, k4⟩ := copy_drop m bd (by rw [hB]; exact hcopy) hd
            simp only [k1, k2]
            cases hch : child b alpha beta with
            | none => simp [hch] at h
            | some t2 =>
              obtain ⟨sc, c2⟩ := t2
              simp only [hch] at h
              obtain ⟨fr1, hfr1⟩ := hchild (m ++ b) _ alpha beta (sc, c2) k4
                (by rw [k3]; exact hch)
              simp only [hfr1]
              by_cases hcut : (if (if sc > value then sc else value) > alpha then
                  (if sc > value then sc else value) else alpha) ≥ beta
              · simp only [hcut, if_true, Option.some.injEq] at h ⊢
                subst h
                exact ⟨b ++ fr1, by simp [List.append_assoc]⟩
              · simp only [hcut, if_false] at h ⊢
                have hv1 : Valid (m ++ b ++ fr1) bd := valid_append (valid_append hv b) fr1
                obtain ⟨fr, hfr⟩ := ih (m ++ b ++ fr1) _ _ _ _ hv1
                  (by rw [deref_append (valid_append hv b), deref_append hv, hB]) res h
                exact ⟨b ++ fr1 ++ fr, by rw [hfr]; simp [List.append_assoc]⟩

/-- The minimizing loop in memory; the mirror image of `maxLoopM_sim`. -/
theorem minLoopM_sim (child : Grid → Int → Int → Option (Int × Int))
    (childM : Mem → BoardRef → Int → Int → Option (Mem × Int × Int))
    (hchild : ∀ (m1 : Mem) (bd1 : BoardRef) (a be : Int) (res : Int × Int), Valid m1 bd1 →
      child (deref m1 bd1) a be = some res → ∃ fr, childM m1 bd1 a be = some (m1 ++ fr, res))
    (bd : BoardRef) (B : Grid) :
    ∀ (cs : List Int) (m : Mem) (value bestCol alpha beta : Int), Valid m bd →
      deref m bd = B → ∀ res, minLoop child B cs value bestCol alpha beta = some res →
        ∃ fr, minLoopM childM bd cs m value bestCol alpha beta = some (m ++ fr, res) := by
  intro cs
  induction cs with
  | nil =>
    intro m value bestCol alpha beta _ _ res h
    simp only [minLoop, Option.some.injEq] at h
    subst h
    exact ⟨[], by simp [minLoopM]⟩
  | cons c cs ih =>
    intro m value bestCol alpha beta hv hB res h
    unfold minLoop at h
    unfold minLoopM
    rw [hB]
    cases htop : cell B 0 c with
    | none => simp [htop] at h
    | some top =>
      simp only [htop] at h ⊢
      by_cases hz : top = 0
      swap
      · simp only [ne_eq, hz, not_false_eq_true, if_true] at h ⊢
        exact ih m value bestCol alpha beta hv hB res h
      · simp only [ne_eq, hz, not_true_eq_false, if_false] at h ⊢
        cases hcopy : copyGrid B with
        | none => simp [hcopy] at h
        | some b0 =>
          simp only [hcopy] at h
          cases hd : dropPiece b0 c 1 with
          | none => simp [hd] at h
          | some t =>
            obtain ⟨b, r, ok⟩ := t
            simp only [hd] at h
            obtain ⟨k1, k2, k3, k4⟩ := copy_drop m bd (by rw [hB]; exact hcopy) hd
            simp only [k1, k2]
            cases hch : child b alpha beta with
            | none => simp [hch] at h
            | some t2 =>
              obtain ⟨sc, c2⟩ := t2
              simp only [hch] at h
              obtain ⟨fr1, hfr1⟩ := hchild (m ++ b) _ alpha beta (sc, c2) k4
                (by rw [k3]; exact hch)
              simp only [hfr1]
              by_cases hcut : alpha ≥ (if (if sc < value then sc else value) < beta then
                  (if sc < value then sc else value) else beta)
              · simp only [hcut, if_true, Option.some.injEq] at h ⊢
                subst h
                exact ⟨b ++ fr1, by simp [List.append_assoc]⟩
              · simp only [hcut, if_false] at h ⊢
                have hv1 : Valid (m ++ b ++ fr1) bd := valid_append (valid_append hv b) fr1
                obtain ⟨fr, hfr⟩ := ih (m ++ b ++ fr1) _ _ _ _ hv1
                  (by rw [deref_append (valid_append hv b), deref_append hv, hB]) res h
                exact ⟨b ++ fr1 ++ fr, by rw [hfr]; simp [List.append_assoc]⟩

/-- The function `minimax` in memory returns what `minimax` on the contents of the
board returns, and the memory it was given is a prefix of the memory it leaves:
the call writes into buffers that it allocated itself only. -/
theorem minimaxFuelM_sim : ∀ (fuel : Nat) (m : Mem) (bd : BoardRef) (depth alpha beta : Int)
    (maximizing : Bool) (res : Int × Int), Valid m bd →
    minimaxFuel fuel (deref m bd) depth alpha beta maximizing = some res →
    ∃ fr, minimaxFuelM fuel m bd depth alpha beta maximizing = some (m ++ fr, res) := by
  intro fuel
  induction fuel with
  | zero => intro m bd depth alpha beta mx res _ h; simp [minimaxFuel] at h
  | succ fuel ih =>
    intro m bd depth alpha beta mx res hv h
    unfold minimaxFuel at h
    unfold minimaxFuelM
    cases hB : deref m bd with
    | nil => simp [hB] at h
    | cons row0 rest =>
      simp only [hB] at h ⊢
      cases hscan : immediateScan (row0 :: rest) (emptyTops row0) with
      | none => simp [hscan] at h
      | some sres =>
        obtain ⟨fr0, hfr0⟩ := immediateScanM_sim bd (row0 :: rest) (emptyTops row0) m hv hB
          sres hscan
        simp only [hscan] at h
        simp only [hfr0]
        cases sres with
        | some r1 =>
          simp only [Option.some.injEq] at h ⊢
          subst h
          exact ⟨fr0, rfl⟩
        | none =>
          simp only at h ⊢
          have hv0 : Valid (m ++ fr0) bd := valid_append hv fr0
          have hB0 : deref (m ++ fr0) bd = row0 :: rest := by rw [deref_append hv, hB]
          by_cases hleaf : depth = 0 ∨ (emptyTops row0).length = 0
          · simp only [hleaf, if_true, hB0] at h ⊢
            cases hev : evaluateBoard (row0 :: rest) with
            | none => simp [hev] at h
            | some s =>
              simp only [hev, Option.map_some', Option.some.injEq] at h ⊢
              subst h
              exact ⟨fr0, rfl⟩
          · simp only [hleaf, if_false] at h ⊢
            cases hhead : (emptyTops row0).head? with
            | none => simp [hhead] at h
            | some c0 =>
              simp only [hhead] at h ⊢
              cases mx with
              | true =>
                simp only [if_true] at h ⊢
                obtain ⟨fr, hfr⟩ := maxLoopM_sim
                  (fun b a be => minimaxFuel fuel b (depth - 1) a be false)
                  (fun m2 b a be => minimaxFuelM fuel m2 b (depth - 1) a be false)
                  (fun m1 bd1 a be res1 hv1 hres1 => ih m1 bd1 (depth - 1) a be false res1 hv1 hres1)
                  bd (row0 :: rest) _ (m ++ fr0) _ _ _ _ hv0 hB0 res h
                exact ⟨fr0 ++ fr, by rw [hfr]; simp [List.append_assoc]⟩
              | false =>
                simp only [Bool.false_eq_true, if_false] at h ⊢
                obtain ⟨fr, hfr⟩ := minLoopM_sim
                  (fun b a be => minimaxFuel fuel b (depth - 1) a be true)
                  (fun m2 b a be => minimaxFuelM fuel m2 b (depth - 1) a be true)
                  (fun m1 bd1 a be res1 hv1 hres1 => ih m1 bd1 (depth - 1) a be true res1 hv1 hres1)
                  bd (row0 :: rest) _ (m ++ fr0) _ _ _ _ hv0 hB0 res h
                exact ⟨fr0 ++ fr, by rw [hfr]; simp [List.append_assoc]⟩

/-- The scanning loops of the amateur bot in memory. -/
theorem amateurScanM_sim (g : GameRef) (p : Int) (B : Grid) :
    ∀ (cs : List Int) (m : Mem), Valid m g.Board → deref m g.Board = B →
      ∀ res, amateurScan (load m g) p cs = some res →
        ∃ fr, amateurScanM g p cs m = some (m ++ fr, res) := by
  intro cs
  induction cs with
  | nil =>
    intro m _ _ res h
    simp only [amateurScan, Option.some.injEq] at h
    subst h
    exact ⟨[], by simp [amateurScanM]⟩
  | cons c cs ih =>
    intro m hv hB res h
    unfold amateurScan at h
    have hload : (load m g).Board = deref m g.Board := rfl
    unfold cloneBoard at h
    rw [hload] at h
    cases hcopy : copyGrid (deref m g.Board) with
    | none => simp [hcopy] at h
    | some b0 =>
      simp only [hcopy] at h
      cases hd : dropPiece b0 c p with
      | none => simp [hd] at h
      | some t =>
        obtain ⟨b, r, ok⟩ := t
        simp only [hd] at h
        obtain ⟨k1, k2, k3, k4⟩ := copy_drop m g.Board hcopy hd
        unfold amateurScanM cloneBoardM
        simp only [k1, k2, k3]
        cases hchk : checkWinBoard b r c p with
        | none => simp [hchk] at h
        | some w =>
          simp only [hchk] at h ⊢
          cases w with
          | true =>
            simp only [Option.some.injEq] at h
            subst h
            exact ⟨b, rfl⟩
          | false =>
            simp only at h ⊢
            have hv1 : Valid (m ++ b) g.Board := valid_append hv b
            have hsame : load (m ++ b) g = load m g := by
              unfold load; rw [deref_append hv]
            obtain ⟨fr, hfr⟩ := ih (m ++ b) hv1 (by rw [deref_append hv, hB]) res
              (by rw [hsame]; exact h)
            exact ⟨b ++ fr, by rw [hfr]; simp [List.append_assoc]⟩

/-- The method `AIPickMove` in memory returns the column that `AIPickMove` returns
on the value of the game, leaves the struct as it was, and leaves the memory it
was given as a prefix of the memory after the call. -/
theorem AIPickMoveM_sim (m : Mem) (g : GameRef) (seed : Nat) (hv : Valid m g.Board)
    (col : Int) (h : AIPickMove (load m g) seed = some col) :
    ∃ fr, AIPickMoveM m g seed = some (m ++ fr, g, col) := by
  unfold AIPickMove at h
  unfold AIPickMoveM
  have hload : (load m g).Board = deref m g.Board := rfl
  have hdiff : (load m g).AIDifficulty = g.AIDifficulty := rfl
  cases hvm : ValidMoves (load m g) with
  | none => simp [hvm] at h
  | some moves =>
    simp only [hvm, hdiff] at h ⊢
    by_cases hlen : moves.length = 0
    · simp only [hlen, if_true, Option.some.injEq] at h ⊢
      subst h
      exact ⟨[], by simp⟩
    · simp only [hlen, if_false] at h ⊢
      by_cases hdeb : g.AIDifficulty = "debutant"
      · simp only [hdeb, if_true] at h ⊢
        rw [h]
        exact ⟨[], by simp⟩
      · simp only [hdeb, if_false] at h ⊢
        by_cases hama : g.AIDifficulty = "amateur"
        · simp only [hama, if_true] at h ⊢
          cases h2 : amateurScan (load m g) 2 moves with
          | none => simp [h2] at h
          | some r2 =>
            obtain ⟨fr2, hfr2⟩ := amateurScanM_sim g 2 _ moves m hv rfl r2 h2
            simp only [h2] at h
            simp only [hfr2]
            cases r2 with
            | some c =>
              simp only [Option.some.injEq] at h ⊢
              subst h
              exact ⟨fr2, rfl⟩
            | none =>
              simp only at h ⊢
              have hv2 : Valid (m ++ fr2) g.Board := valid_append hv fr2
              have hsame : load (m ++ fr2) g = load m g := by
                unfold load; rw [deref_append hv]
              cases h1 : amateurScan (load m g) 1 moves with
              | none => simp [h1] at h
              | some r1 =>
                obtain ⟨fr1, hfr1⟩ := amateurScanM_sim g 1 _ moves (m ++ fr2) hv2 rfl r1
                  (by rw [hsame]; exact h1)
                simp only [h1] at h
                simp only [hfr1]
                cases r1 with
                | some c =>
                  simp only [Option.some.injEq] at h ⊢
                  subst h
                  exact ⟨fr2 ++ fr1, by simp [List.append_assoc]⟩
                | none =>
                  simp only at h ⊢
                  rw [deref_append hv2, deref_append hv]
                  rw [hload] at h
                  cases hw : width (deref m g.Board) with
                  | none => simp [hw] at h
                  | some w =>
                    simp only [hw] at h ⊢
                    cases hf : moves.find? (fun c => decide (c = ((w / 2 : Nat) : Int))) with
                    | some c =>
                      simp only [hf, Option.some.injEq] at h ⊢
                      subst h
                      exact ⟨fr2 ++ fr1, by simp [List.append_assoc]⟩
                    | none =>
                      simp only [hf] at h ⊢
                      rw [h]
                      exact ⟨fr2 ++ fr1, by simp [List.append_assoc]⟩
        · simp only [hama, if_false] at h ⊢
          unfold cloneBoard at h
          rw [hload] at h
          unfold cloneBoardM
          cases hcopy : copyGrid (deref m g.Board) with
          | none => simp [hcopy] at h
          | some b =>
            simp only [hcopy] at h
            simp only [copyGridM_eq hcopy]
            cases hmm : minimax b 4 MinInt32 MaxInt32 true with
            | none => simp [hmm] at h
            | some t =>
              obtain ⟨s, c⟩ := t
              simp only [hmm] at h
              unfold minimax at hmm
              obtain ⟨fr, hfr⟩ := minimaxFuelM_sim _ (m ++ b) (List.range' m.length b.length)
                4 MinInt32 MaxInt32 true (s, c) (valid_fresh m b)
                (by rw [deref_fresh]; exact hmm)
              unfold minimaxM
              rw [deref_fresh]
              simp only [hfr]
              by_cases hneg : c < 0
              · simp only [hneg, if_true] at h ⊢
                rw [h]
                exact ⟨b ++ fr, by simp [List.append_assoc]⟩
              · simp only [hneg, if_false, Option.some.injEq] at h ⊢
                subst h
                exact ⟨b ++ fr, by simp [List.append_assoc]⟩

/-- On a 6x7 board `AIPickMove` returns, for every difficulty and every state of
the random source. -/
theorem AIPickMove_total (g : Game) (seed : Nat) (hs : Shape g.Board 6 7) :
    ∃ col, AIPickMove g seed = some col := by
  obtain ⟨moves, hvm, hmem, _, hrange⟩ := validMoves_of_shape hs (by decide)
  unfold AIPickMove
  simp only [hvm]
  by_cases hlen : moves.length = 0
  · simp only [hlen, if_true]
    exact ⟨-1, rfl⟩
  · have hne : moves ≠ [] := fun e => hlen (by rw [e]; rfl)
    obtain ⟨cr, hcr, _⟩ := randomMove_mem hne seed
    simp only [hlen, if_false]
    by_cases hdeb : g.AIDifficulty = "debutant"
    · simp only [hdeb, if_true]
      exact ⟨cr, hcr⟩
    · simp only [hdeb, if_false]
      by_cases hama : g.AIDifficulty = "amateur"
      · simp only [hama, if_true, amateurScan_eq_find hs (by decide) _ moves hrange,
          width_of_shape hs (by decide)]
        cases h2 : moves.find? (fun c => dropWins g.Board 2 c) with
        | some c => exact ⟨c, rfl⟩
        | none =>
          simp only
          cases h1 : moves.find? (fun c => dropWins g.Board 1 c) with
          | some c => exact ⟨c, rfl⟩
          | none =>
            simp only
            cases h3 : moves.find? (fun c => decide (c = ((7 / 2 : Nat) : Int))) with
            | some c => exact ⟨c, rfl⟩
            | none => exact ⟨cr, hcr⟩
      · simp only [hama, if_false, cloneBoard, copyGrid_of_shape hs (by decide : 0 < 6)]
        obtain ⟨s, col, hmm, _⟩ := minimax_total (by decide : 0 < 6) (by decide : 0 < 7)
          hs (by decide : (0 : Int) ≤ 4) MinInt32 MaxInt32 true
        simp only [hmm]
        by_cases hneg : col < 0
        · simp only [hneg, if_true]
          exact ⟨cr, hcr⟩
        · simp only [hneg, if_false]
          exact ⟨col, rfl⟩

/-- Claim C15. For every game in memory whose board is 6x7, every difficulty and
every state of the random source, `AIPickMove` returns the column that it returns
on the value of the game and leaves the game unchanged: the struct is the same,
the memory before the call is a prefix of the memory after it (every write of a
simulated drop went into a buffer allocated during the call), so that `Board`
(every cell), `CurrentPlayer`, `Winner`, `PlayerNames`, `PlayerBalls`, `Mode` and
`AIDifficulty` have the values they had before. The same holds for every `minimax`
call on a 6x7 board in memory at a depth `>= 0`: it returns the result of `minimax`
on the contents of the board, and the memory before the call is a prefix of the
memory after it. -/
theorem C15_AIPickMove_frame (m : Mem) (g : GameRef) (seed : Nat) (hv : Valid m g.Board)
    (hs : Shape (load m g).Board 6 7) :
    (∃ col fr, AIPickMoveM m g seed = some (m ++ fr, g, col) ∧
      AIPickMove (load m g) seed = some col ∧
      load (m ++ fr) g = load m g ∧
      (∀ a : Nat, a < m.length → (m ++ fr)[a]? = m[a]?) ∧
      (∀ r c : Int, cell (load (m ++ fr) g).Board r c = cell (load m g).Board r c)) ∧
    (∀ (bd : BoardRef) (depth alpha beta : Int) (maximizing : Bool), Valid m bd →
      Shape (deref m bd) 6 7 → 0 ≤ depth →
      ∃ s col fr, minimaxM m bd depth alpha beta maximizing = some (m ++ fr, s, col) ∧
        minimax (deref m bd) depth alpha beta maximizing = some (s, col) ∧
        deref (m ++ fr) bd = deref m bd) := by
  constructor
  · obtain ⟨col, hcol⟩ := AIPickMove_total (load m g) seed hs
    obtain ⟨fr, hfr⟩ := AIPickMoveM_sim m g seed hv col hcol
    have hsame : load (m ++ fr) g = load m g := by
      unfold load; rw [deref_append hv]
    refine ⟨col, fr, hfr, hcol, hsame, ?_, ?_⟩
    · intro a ha
      exact List.getElem?_append_left ha
    · intro r c
      rw [hsame]
  · intro bd depth alpha beta mx hvb hsb hd
    obtain ⟨s, col, hmm, _⟩ := minimax_total (by decide : 0 < 6) (by decide : 0 < 7) hsb hd
      alpha beta mx
    have hmm1 := hmm
    unfold minimax at hmm1
    obtain ⟨fr, hfr⟩ := minimaxFuelM_sim _ m bd depth alpha beta mx (s, col) hvb hmm1
    exact ⟨s, col, fr, by unfold minimaxM; exact hfr, hmm, deref_append hvb fr⟩

/-- The statement of C15 for the expert bot on the fresh game in memory. -/
theorem C15_AIPickMove_frame_witness :
    ∃ col fr, AIPickMoveM startMem startRef 0 = some (startMem ++ fr, startRef, col) ∧
      AIPickMove (load startMem startRef) 0 = some col ∧
      load (startMem ++ fr) startRef = load startMem startRef :=
  let ⟨col, fr, h1, h2, h3, _⟩ := (C15_AIPickMove_frame startMem startRef 0 (by decide)
    (by decide)).1
  ⟨col, fr, h1, h2, h3⟩

end Power4
